import Mathlib

/-!
Verification of the core of rit_save, a Git-compatible version control
engine written in Rust, against its natural-language specification.

The Rust sources are shallowly embedded: byte strings become `List Nat`
(each element a byte value), filesystem state becomes explicit maps from
paths to contents, fallible operations return `Option` or `Except`, and
panicking operations are modelled by a dedicated failure value.  Machine
integers are `Nat` with explicit `% 2 ^ w` where overflow matters.

External crates called by the sources (sha1, flate2/zlib) are not part of
the repository; they are modelled from the specification by concrete
executable functions that satisfy exactly the contracts the specification
relies on, and are marked `Modelled from the spec:` in their doc comments.
-/

namespace RitSave

/-- Byte strings: each element is one byte (values 0..255). -/
abbrev Bytes := List Nat

/-- Convert an ASCII Lean string to its byte list.  Used only to write
concrete inputs readably; all inputs built with it are ASCII. -/
def sb (s : String) : Bytes := s.data.map Char.toNat

/-- Lookup in an association list keyed by byte strings. -/
def look {α : Type} : List (Bytes × α) → Bytes → Option α
  | [], _ => none
  | (k, v) :: rest, key => if k = key then some v else look rest key

/-- Remove every binding of `key` from an association list. -/
def unbind {α : Type} : List (Bytes × α) → Bytes → List (Bytes × α)
  | [], _ => []
  | (k, v) :: rest, key =>
      if k = key then unbind rest key else (k, v) :: unbind rest key

/-- One lowercase hexadecimal digit character (byte value). -/
def hexDigitChar (n : Nat) : Nat := if n < 10 then 48 + n else 87 + n

/-- Fixed-width lowercase hexadecimal rendering of `n`, `k` digits,
most significant first. -/
def natToHexFixed (k n : Nat) : Bytes :=
  (List.range k).reverse.map fun i => hexDigitChar (n / 16 ^ i % 16)

/-- Fuel-driven decimal rendering helper. -/
def natToDecFuel : Nat → Nat → Bytes
  | 0, _ => []
  | fuel + 1, n =>
      if n < 10 then [48 + n] else natToDecFuel fuel (n / 10) ++ [48 + n % 10]

/-- Decimal ASCII rendering of a natural number, as `format!` produces. -/
def natToDec (n : Nat) : Bytes := natToDecFuel (n + 1) n

/-- Numeric value of one hex digit character, `none` for non-hex bytes.
`u8::from_str_radix(_, 16)` accepts both cases. -/
def hexVal (b : Nat) : Option Nat :=
  if 48 ≤ b ∧ b ≤ 57 then some (b - 48)
  else if 97 ≤ b ∧ b ≤ 102 then some (b - 87)
  else if 65 ≤ b ∧ b ≤ 70 then some (b - 55)
  else none

/-- `utilities::decode_hex`: hex string to raw bytes; fails on odd length
or a non-hex character. -/
def decode_hex : Bytes → Option Bytes
  | [] => some []
  | [_] => none
  | a :: b :: rest => do
      let hi ← hexVal a
      let lo ← hexVal b
      let tail ← decode_hex rest
      pure ((hi * 16 + lo) :: tail)

/-- `hex::encode`: raw bytes to lowercase hex. -/
def hexEncode (bs : Bytes) : Bytes :=
  bs.flatMap fun b => [hexDigitChar (b / 16 % 16), hexDigitChar (b % 16)]

/-- Modelled from the spec: SHA-1 (the external `sha1` crate, not part of
the repository).  Modelled as a fixed deterministic function from byte
strings to 40 lowercase hexadecimal digit bytes; every claim depends only
on those two properties, never on the particular digest values. -/
def sha1Hex (bs : Bytes) : Bytes :=
  natToHexFixed 40 (bs.foldl (fun a b => (a * 257 + b + 1) % 2 ^ 160) 7)

/-- Modelled from the spec: raw SHA-1 digest (20 bytes), as
`digest().bytes()` of the `sha1` crate returns. -/
def sha1Raw (bs : Bytes) : Bytes :=
  (List.range 20).map fun i =>
    (bs.foldl (fun a b => (a * 257 + b + 1) % 2 ^ 160) 7) / 256 ^ (19 - i) % 256

/-- Modelled from the spec: zlib compression (the external `flate2` crate,
not part of the repository).  The specification and claims rely only on
the round-trip property `inflate (deflate x) = x`; the coding itself is
modelled as the identity on byte strings. -/
def zlibDeflate (bs : Bytes) : Bytes := bs

/-- Modelled from the spec: zlib decompression, inverse of `zlibDeflate`. -/
def zlibInflate (bs : Bytes) : Bytes := bs

/-- `Read::read_until`: consume bytes up to and including the first
occurrence of `delim`, or the whole input if absent.  Returns the consumed
bytes (delimiter included) and the rest. -/
def readUntil (delim : Nat) : Bytes → Bytes × Bytes
  | [] => ([], [])
  | b :: rest =>
      if b = delim then ([b], rest)
      else
        let (pre, post) := readUntil delim rest
        (b :: pre, post)

/-- `str::trim_end_matches` for a single byte value. -/
def trimEnd (c : Nat) (bs : Bytes) : Bytes :=
  (bs.reverse.dropWhile (fun b => b = c)).reverse

/-- Classify a UTF-8 lead byte: the number of continuation bytes that
must follow and the allowed range of the first of them, per the table of
the Unicode standard (overlong encodings, surrogates and values above
0x10FFFF excluded); continuation bytes after the first are always
128..191.  `none` for bytes that can never start a character. -/
def utf8Class (b : Nat) : Option (Nat × Nat × Nat) :=
  if b < 128 then some (0, 0, 0)
  else if 194 ≤ b ∧ b ≤ 223 then some (1, 128, 191)
  else if b = 224 then some (2, 160, 191)
  else if 225 ≤ b ∧ b ≤ 236 ∨ b = 238 ∨ b = 239 then some (2, 128, 191)
  else if b = 237 then some (2, 128, 159)
  else if b = 240 then some (3, 144, 191)
  else if 241 ≤ b ∧ b ≤ 243 then some (3, 128, 191)
  else if b = 244 then some (3, 128, 143)
  else none

/-- Scanner state for UTF-8 validation: the input, the number of pending
continuation bytes, and the allowed range of the next byte when one is
pending. -/
def utf8Go : Bytes → Nat → Nat → Nat → Bool
  | [], pending, _, _ => pending = 0
  | b :: rest, 0, _, _ =>
      match utf8Class b with
      | none => false
      | some (n, lo, hi) => utf8Go rest n lo hi
  | b :: rest, pending + 1, lo, hi =>
      if lo ≤ b ∧ b ≤ hi then utf8Go rest pending 128 191 else false

/-- Rust UTF-8 validity of a byte string, as `String::from_utf8` checks
it. -/
def validUtf8 (bs : Bytes) : Bool := utf8Go bs 0 0 0

/-- `str::parse::<u64>` on ASCII bytes: nonempty, all decimal digits, and
the value must fit in 64 bits. -/
def parseU64 (bs : Bytes) : Option Nat :=
  if bs = [] then none
  else if bs.all (fun b => 48 ≤ b ∧ b ≤ 57) then
    let v := bs.foldl (fun a b => a * 10 + (b - 48)) 0
    if v < 2 ^ 64 then some v else none
  else none

/-- Does `s` start with `pat` (Rust `str::starts_with`)? -/
def startsWithB (pat s : Bytes) : Bool := s.take pat.length = pat

/-- Split a byte string on a separator byte; `splitOn 47` yields the path
components of a `/`-separated path. -/
def splitOn (sep : Nat) : Bytes → List Bytes
  | [] => [[]]
  | b :: rest =>
      let r := splitOn sep rest
      if b = sep then [] :: r
      else
        match r with
        | first :: more => (b :: first) :: more
        | [] => [[b]]

/-- `Path::file_name` of a `/`-separated path: its last component. -/
def fileNameOf (p : Bytes) : Bytes := ((splitOn 47 p).reverse).headD []

/-- `Path::join` for byte-string paths. -/
def joinPath (a b : Bytes) : Bytes := if a = [] then b else a ++ [47] ++ b

/-! ## Index entries, tree entries and trees (`src/index/entry.rs`,
`src/database/marker.rs`, `src/tree.rs`) -/

/-- `index::entry::Entry`: a staged file with its stat cache.  `path` and
`oid` are byte strings (`oid` is 40 hex digits); the ten 32-bit stat
fields and the 16-bit flags are `Nat` holding the machine values. -/
structure Entry where
  path : Bytes
  oid : Bytes
  flags : Nat
  ctime : Nat
  ctime_ns : Nat
  mtime : Nat
  mtime_ns : Nat
  dev : Nat
  ino : Nat
  mode : Nat
  uid : Nat
  gid : Nat
  size : Nat
deriving DecidableEq, Repr

/-- `utilities::is_executable`: any of the three execute bits
(`S_IXUSR | S_IXGRP | S_IXOTH` = 0o111 = 73) set. -/
def is_executable (mode : Nat) : Bool := 0 < Nat.land mode 73

/-- `Entry::mode`: `"100755"` when executable, else `"100644"`. -/
def Entry.modeStr (e : Entry) : Bytes :=
  if is_executable e.mode then sb "100755" else sb "100644"

/-- `utilities::pack_data`: `"<mode> <name>\0" || <20 raw oid bytes>`;
fails (the callers unwrap, i.e. panic) when the oid is not valid hex. -/
def pack_data (mode name oid : Bytes) : Option Bytes := do
  let raw ← decode_hex oid
  pure (mode ++ [32] ++ name ++ [0] ++ raw)

/-- `Entry::metadata`: its tree record. -/
def Entry.metadata (e : Entry) : Option Bytes :=
  pack_data e.modeStr (fileNameOf e.path) e.oid

/-- `database::marker::Marker`: a parsed tree record. -/
structure Marker where
  name : Bytes
  mode : Bytes
  oid : Bytes
deriving DecidableEq, Repr

/-- `Marker::kind` as a Boolean: is this marker a subtree? -/
def Marker.isTree (m : Marker) : Bool := m.mode = sb "40000"

/-- `Marker::metadata`: its tree record. -/
def Marker.metadata (m : Marker) : Option Bytes :=
  pack_data m.mode (fileNameOf m.name) m.oid

mutual

/-- `tree::TreeEntry`. -/
inductive TreeEntry : Type
  | entry : Entry → TreeEntry
  | tree : Tree → TreeEntry
  | marker : Marker → TreeEntry

/-- `tree::Tree`: an insertion-ordered mapping (`IndexMap`) from short
name to entry, modelled as the list of its bindings in order. -/
inductive Tree : Type
  | mk : List (Bytes × TreeEntry) → Tree

end

/-- The bindings of a tree, in insertion order. -/
def Tree.entries : Tree → List (Bytes × TreeEntry)
  | .mk es => es

/-- `Tree::get_entry`. -/
def Tree.get_entry (t : Tree) (key : Bytes) : Option TreeEntry :=
  look t.entries key

mutual

/-- Rust `==` on `TreeEntry` (derived `PartialEq`): variant-wise.  The
`Entry` case compares only paths (its hand-written `PartialEq`); the
`Marker` case is structural (the `Marker` comparison used by the derived
instance is not under `src/`, modelled from the spec as field equality);
the `Tree` case is `IndexMap` equality, which ignores binding order. -/
def teq : TreeEntry → TreeEntry → Bool
  | .entry a, .entry b => decide (a.path = b.path)
  | .tree (.mk as), .tree (.mk bs) => decide (as.length = bs.length) && teqAll as bs
  | .marker a, .marker b => decide (a.name = b.name ∧ a.mode = b.mode ∧ a.oid = b.oid)
  | _, _ => false
termination_by a b => sizeOf a + sizeOf b
decreasing_by all_goals (simp_wf; try omega)

/-- Every binding of the first map equals the corresponding one of the second. -/
def teqAll : List (Bytes × TreeEntry) → List (Bytes × TreeEntry) → Bool
  | [], _ => true
  | (k, v) :: rest, bs => teqFind bs k v && teqAll rest bs
termination_by as bs => sizeOf as + sizeOf bs
decreasing_by all_goals (simp_wf; try omega)

/-- Find `k` in `bs` and compare its value to `v`. -/
def teqFind : List (Bytes × TreeEntry) → Bytes → TreeEntry → Bool
  | [], _, _ => false
  | (k2, v2) :: rest, k, v => if k2 = k then teq v v2 else teqFind rest k v
termination_by bs _ v => sizeOf v + sizeOf bs
decreasing_by all_goals (simp_wf; try omega)

end

mutual

/-- Serialized body of a tree: concatenated records of its entries in
insertion order (`impl Storable for Tree`, the loop body). -/
def Tree.serializeBody : List (Bytes × TreeEntry) → Option Bytes
  | [] => some []
  | (name, te) :: rest => do
      let r ← serializeTE name te
      let tail ← Tree.serializeBody rest
      pure (r ++ tail)
termination_by es => sizeOf es
decreasing_by all_goals (simp_wf; try omega)

/-- One record of a serialized tree.  A subtree record packs mode `40000`,
the binding name and the subtree oid (the SHA-1 of its own serialization);
entry and marker records use their `metadata`. -/
def serializeTE (name : Bytes) : TreeEntry → Option Bytes
  | .tree t => do
      let s ← Tree.serializeFull t
      pack_data (sb "40000") name (sha1Hex s)
  | .entry e => e.metadata
  | .marker m => m.metadata
termination_by te => sizeOf te
decreasing_by all_goals (simp_wf; try omega)

/-- `Tree::serialize`: `"tree <len>\0" || body`. -/
def Tree.serializeFull : Tree → Option Bytes
  | .mk es => do
      let body ← Tree.serializeBody es
      pure (sb "tree " ++ natToDec body.length ++ [0] ++ body)
termination_by t => sizeOf t
decreasing_by all_goals (simp_wf; try omega)

end

/-- `Tree::oid`: SHA-1 of the serialization (`Storable::oid`). -/
def Tree.oidOf (t : Tree) : Option Bytes := (Tree.serializeFull t).map sha1Hex

/-! ## Author and commit (`src/author.rs`, `src/commit.rs`) -/

/-- `author::Author`.  `time` holds the formatted `"<unix-seconds> <±HHMM>"`
suffix; the claims never depend on its internal structure. -/
structure Author where
  name : Bytes
  email : Bytes
  time : Bytes
deriving DecidableEq, Repr

/-- `impl Display for Author`: `"<name> <<email>> <time>"`. -/
def Author.display (a : Author) : Bytes :=
  a.name ++ sb " <" ++ a.email ++ sb "> " ++ a.time

/-- `commit::Commit`. -/
structure Commit where
  parent : Option Bytes
  tree : Bytes
  author : Author
  message : Bytes
deriving DecidableEq, Repr

/-- The `content` string built by `Commit::serialize`: headers, blank
line, message.  This is the body stored in the object database. -/
def Commit.content (c : Commit) : Bytes :=
  sb "tree " ++ c.tree ++ [10] ++
  (match c.parent with
   | some p => sb "parent " ++ p ++ [10]
   | none => []) ++
  sb "author " ++ c.author.display ++ [10] ++
  sb "committer " ++ c.author.display ++ [10] ++ [10] ++ c.message

/-- `Commit::serialize`: `"commit <len>\0" || content`. -/
def Commit.serialize (c : Commit) : Bytes :=
  sb "commit " ++ natToDec c.content.length ++ [0] ++ c.content

/-! ## Object database (`src/database.rs`) -/

/-- `database::ObjectKind`. -/
inductive ObjectKind : Type
  | commit
  | tree
  | blob
deriving DecidableEq, Repr

/-- `ObjectKind::parse`: any token other than `"commit"` or `"tree"` is a
blob. -/
def ObjectKind.parse (k : Bytes) : ObjectKind :=
  if k = sb "commit" then .commit else if k = sb "tree" then .tree else .blob

/-- `Display` of an object kind. -/
def ObjectKind.render : ObjectKind → Bytes
  | .commit => sb "commit"
  | .tree => sb "tree"
  | .blob => sb "blob"

/-- `Blob::serialize` (`data` is the blob content as bytes; the Rust field
is a `String`, whose `len()` is its byte length). -/
def Blob.serialize (data : Bytes) : Bytes :=
  sb "blob " ++ natToDec data.length ++ [0] ++ data

/-- A storable object (`impl Storable for Blob / Tree / Commit`). -/
inductive Obj : Type
  | blob : Bytes → Obj
  | tree : Tree → Obj
  | commit : Commit → Obj

/-- `Storable::serialize` for each object kind.  `none` models the panics
inside tree serialization (unwrap of `pack_data` on a non-hex oid). -/
def Obj.serialize : Obj → Option Bytes
  | .blob d => some (Blob.serialize d)
  | .tree t => Tree.serializeFull t
  | .commit c => some c.serialize

/-- The kind of an object. -/
def Obj.kind : Obj → ObjectKind
  | .blob _ => .blob
  | .tree _ => .tree
  | .commit _ => .commit

/-- The body of an object: its serialization minus the framing header. -/
def Obj.body : Obj → Option Bytes
  | .blob d => some d
  | .tree t => Tree.serializeBody t.entries
  | .commit c => some c.content

/-- `Storable::oid`: SHA-1 hex of the serialization. -/
def Obj.oid (x : Obj) : Option Bytes := x.serialize.map sha1Hex

/-- The filesystem under the object database: stored files (path to raw
stored bytes) and the set of directories that exist. -/
structure FS where
  files : List (Bytes × Bytes)
  dirs : List Bytes
deriving DecidableEq, Repr

/-- The names of the files that are immediate children of `dir`
(`std::fs::read_dir`, restricted to the files of the model). -/
def FS.listDir (fs : FS) (dir : Bytes) : List Bytes :=
  fs.files.filterMap fun pc =>
    let p := pc.1
    if startsWithB (dir ++ [47]) p ∧ ¬ 47 ∈ p.drop (dir.length + 1) then
      some (p.drop (dir.length + 1))
    else none

/-- `database::Database`: its root path (the objects directory). -/
structure Database where
  path : Bytes
deriving DecidableEq, Repr

/-- `Database::object_path`: shard directory named by the first two bytes
of the oid, file named by the rest.  `none` models both failure modes of
the source: the `split_at(2)` panic when the oid has fewer than two bytes,
and the `from_utf8` error when byte 2 splits a multi-byte character.  The
claims only ever apply it to ASCII oids of length at least 2. -/
def Database.object_path (db : Database) (oid : Bytes) : Option (Bytes × Bytes) :=
  if oid.length < 2 then none
  else
    let shard := oid.take 2
    let fname := oid.drop 2
    if validUtf8 shard ∧ validUtf8 fname then
      some (joinPath db.path shard, joinPath (joinPath db.path shard) fname)
    else none

/-- Errors of `Database::read_object`.  `corrupt` covers every parse
failure (invalid UTF-8, unparsable size); I/O errors and the zlib stream
checksum live in the OS and the external `flate2` crate and are outside
the model. -/
inductive DbErr : Type
  | notFound
  | corrupt
deriving DecidableEq, Repr

/-- `Database::read_object`: look the object up by path, inflate, read the
kind token up to the first space, the size up to the first NUL, and take
the remainder as the body. -/
def Database.read_object (db : Database) (fs : FS) (oid : Bytes) :
    Except DbErr (ObjectKind × Nat × Bytes) :=
  match db.object_path oid with
  | none => .error .corrupt
  | some (_, p) =>
    match look fs.files p with
    | none => .error .notFound
    | some raw =>
      let out := zlibInflate raw
      let (tp, rest) := readUntil 32 out
      if validUtf8 tp then
        let kind := ObjectKind.parse (trimEnd 32 tp)
        let (szB, body) := readUntil 0 rest
        if validUtf8 szB then
          match parseU64 (trimEnd 0 szB) with
          | some size => .ok (kind, size, body)
          | none => .error .corrupt
        else .error .corrupt
      else .error .corrupt

/-- `Database::write`: return unchanged when the object path already
exists; otherwise create the shard directory, deflate and store.  The
uniquely named temporary plus atomic rename of the source collapses to a
direct insertion in this single-writer model. -/
def Database.write (db : Database) (fs : FS) (oid content : Bytes) : Option FS :=
  match db.object_path oid with
  | none => none
  | some (dir, p) =>
    if (look fs.files p).isSome then some fs
    else
      some { files := (p, zlibDeflate content) :: fs.files,
             dirs := if dir ∈ fs.dirs then fs.dirs else dir :: fs.dirs }

/-- `Database::store`: serialize, hash, write. -/
def Database.store (db : Database) (fs : FS) (x : Obj) : Option FS :=
  match x.serialize with
  | none => none
  | some content => db.write fs (sha1Hex content) content

/-- `Database::prefix_match`: list the shard directory named by the first
two characters and keep the shard-prepended filenames that start with the
requested name.  The `?` on `read_dir` propagates an error when the shard
directory does not exist; the `Ok(vec![])` fallthrough is reached only
when `object_path` itself fails. -/
def Database.prefix_match (db : Database) (fs : FS) (name : Bytes) :
    Except Unit (List Bytes) :=
  match db.object_path name with
  | none => .ok []
  | some (dir, _) =>
    if dir ∈ fs.dirs then
      let entries := (fs.listDir dir).map fun n => name.take 2 ++ n
      .ok (entries.filter fun e => startsWithB name e)
    else .error ()

/-! ## Commit parsing (`src/commit.rs`, `src/author.rs`) -/

/-- ASCII whitespace, the fragment of `char::is_whitespace` relevant to
byte strings built from ASCII text. -/
def isWs (b : Nat) : Bool := b = 9 ∨ b = 10 ∨ b = 11 ∨ b = 12 ∨ b = 13 ∨ b = 32

/-- `str::trim`. -/
def trimB (bs : Bytes) : Bytes :=
  ((bs.dropWhile isWs).reverse.dropWhile isWs).reverse

/-- `str::split_whitespace`: the maximal runs of non-whitespace bytes. -/
def wsTokens : Bytes → List Bytes
  | [] => []
  | b :: rest =>
      if isWs b then wsTokens rest
      else
        match rest with
        | [] => [[b]]
        | c :: _ =>
            if isWs c then [b] :: wsTokens rest
            else
              match wsTokens rest with
              | t :: ts => (b :: t) :: ts
              | [] => [[b]]

/-- `join` with a separator. -/
def joinBy (sep : Bytes) : List Bytes → Bytes
  | [] => []
  | [x] => x
  | x :: rest => x ++ sep ++ joinBy sep rest

/-- Drop a final empty piece (`str::lines` yields no final empty line
when the input ends with a newline). -/
def dropTrailingEmpty (parts : List Bytes) : List Bytes :=
  if parts.getLast? = some [] then parts.dropLast else parts

/-- `str::lines`: split on `\n`, dropping a final empty piece, stripping a
trailing `\r` from each line. -/
def splitLines (bs : Bytes) : List Bytes :=
  (dropTrailingEmpty (splitOn 10 bs)).map (trimEnd 13)

/-- `HashMap::insert`: replace any existing binding. -/
def hmInsert {α : Type} (m : List (Bytes × α)) (k : Bytes) (v : α) :
    List (Bytes × α) :=
  (k, v) :: unbind m k

/-- The header loop of `Commit::try_from`: read lines into a map keyed by
the first whitespace token until a blank line.  `none` models the
divergence of the source when the lines run out before a blank line (the
`loop` keeps polling an exhausted iterator forever). -/
def parseHeaderLoop : List (Bytes × Bytes) → List Bytes →
    Option (List (Bytes × Bytes) × List Bytes)
  | _, [] => none
  | hm, l :: rest =>
      if trimB l = [] then some (hm, rest)
      else
        match wsTokens (trimB l) with
        | [] => none
        | key :: vals => parseHeaderLoop (hmInsert hm key (joinBy [32] vals)) rest

/-- The panic conditions of `Author::try_from` (reached through the
`Author::from` call of `Commit::try_from`, whose definition is not under
`src/`; modelled from the spec as the `TryFrom<&str>` implementation of
`src/author.rs`): the line must contain a `<` and the part after the
first `<` must contain a non-whitespace token (the email).  A bad time
string never panics (it falls back to the current time). -/
def authorParseOk (s : Bytes) : Bool :=
  match splitOn 60 s with
  | _ :: afterLt :: _ => wsTokens afterLt ≠ []
  | _ => false

/-- `Commit::try_from`, projected to the fields the claims mention.  The
outer `Option` is `none` on panic or divergence (no blank line, missing
`tree` or `author` header, unparsable author); the inner `Except` is the
`Result` of the source, whose only genuine error path is invalid UTF-8.
The author value itself is not modelled: its time parse falls back to the
wall clock on failure, and no claim depends on it. -/
def Commit.tryFrom (data : Bytes) : Option (Except Unit (Bytes × Option Bytes × Bytes)) :=
  if validUtf8 data then
    match parseHeaderLoop [] (splitLines data) with
    | none => none
    | some (hm, rest) =>
      match look hm (sb "tree") with
      | none => none
      | some tree =>
        match look hm (sb "author") with
        | none => none
        | some a =>
          if authorParseOk a then
            some (.ok (tree, look hm (sb "parent"), joinBy [10] rest))
          else none
  else some (.error ())

/-- Fold `HashMap::insert` over a list of key/value pairs, as the header
loop does line by line. -/
def insertAll (m : List (Bytes × Bytes)) : List (Bytes × Bytes) → List (Bytes × Bytes)
  | [] => m
  | kv :: rest => insertAll (hmInsert m kv.1 kv.2) rest

/-- The key and whitespace-collapsed value a single header line
contributes to the map. -/
def lineKV (l : Bytes) : Bytes × Bytes :=
  ((wsTokens (trimB l)).headD [], joinBy [32] (wsTokens (trimB l)).tail)

/-! ## Tree parsing and tree diff (`src/tree.rs`, `src/database/tree_diff.rs`) -/

/-- Take exactly `n` bytes (`read_exact`): fails when fewer remain. -/
def takeN (n : Nat) (bs : Bytes) : Option (Bytes × Bytes) :=
  if bs.length < n then none else some (bs.take n, bs.drop n)

/-- `IndexMap::insert`: update in place when the key exists (keeping its
position), append otherwise. -/
def imInsert {α : Type} : List (Bytes × α) → Bytes → α → List (Bytes × α)
  | [], k, v => [(k, v)]
  | (k2, v2) :: rest, k, v =>
      if k2 = k then (k2, v) :: rest else (k2, v2) :: imInsert rest k v

/-- The record loop of `Tree::try_from`.  `total` is the byte length of
the whole input: the source loops while `position < len - 1` on a
wrapping `usize`, so a zero-length input also enters the loop (and then
fails in `read_exact`).  The fuel is an upper bound on the iteration
count; every successful iteration consumes at least 21 bytes. -/
def parseTreeLoop (total : Nat) : Nat → Bytes → List (Bytes × TreeEntry) →
    Option (List (Bytes × TreeEntry))
  | 0, _, _ => none
  | fuel + 1, rem, acc =>
      if total = 0 ∨ rem.length > 1 then
        let (modeRaw, r1) := readUntil 32 rem
        if validUtf8 modeRaw then
          let mode := trimEnd 32 modeRaw
          let (nameRaw, r2) := readUntil 0 r1
          if validUtf8 nameRaw then
            let name := trimEnd 0 nameRaw
            match takeN 20 r2 with
            | none => none
            | some (oid20, r3) =>
              let m : Marker := ⟨name, mode, hexEncode oid20⟩
              parseTreeLoop total fuel r3 (imInsert acc name (.marker m))
          else none
        else none
      else some acc

/-- `Tree::try_from`: parse the serialized body into markers. -/
def Tree.tryFrom (data : Bytes) : Option Tree :=
  (parseTreeLoop data.length (data.length + 1) data []).map .mk

/-- `TreeEntry::is_tree`. -/
def TreeEntry.isTreeTE : TreeEntry → Bool
  | .entry _ => false
  | .tree _ => true
  | .marker m => m.isTree

/-- `TreeDiff::get_tree_oid`: the oid of a subtree, `none` for leaves.
The outer `Option` is `none` on panic (`Tree::oid` unwraps its own
serialization). -/
def get_tree_oid : TreeEntry → Option (Option Bytes)
  | .tree t =>
      match Tree.oidOf t with
      | none => none
      | some o => some (some o)
  | .entry _ => some none
  | .marker m => some (if m.isTree then some m.oid else none)

/-- `TreeDiff::oid_to_tree`: read the object; dereference commits to their
root tree; parse trees.  The outer `Option` is `none` on panic (the
`unreachable!` for blobs, panics inside commit parsing) or on fuel
exhaustion (commit chains; the fuel is shared with the diff recursion);
the inner `Except` is the `Result` of the source. -/
def oidToTree (db : Database) (fs : FS) : Nat → Option Bytes →
    Option (Except Unit Tree)
  | _, none => some (.error ())
  | 0, some _ => none
  | fuel + 1, some oid =>
    match db.read_object fs oid with
    | .error _ => some (.error ())
    | .ok (kind, _, data) =>
      match kind with
      | .commit =>
        match Commit.tryFrom data with
        | none => none
        | some (.error _) => some (.error ())
        | some (.ok (tree, _, _)) => oidToTree db fs fuel (some tree)
      | .tree =>
        match Tree.tryFrom data with
        | none => some (.error ())
        | some t => some (.ok t)
      | .blob => none

/-- The accumulated `TreeDiff::changes` map: path joined from the prefix,
mapped to the `(before, after)` pair. -/
abbrev Changes := List (Bytes × (Option TreeEntry × Option TreeEntry))

/-- One iteration of the `detect_deletions` loop of `TreeDiff`, for the
binding `(name, entry)` of side A against side B, parametrized by the
recursive comparison.  Skips bindings whose two sides compare equal;
otherwise recurses through `cmp` and records the change pair of the
source: `(Some entry, other)` when neither side is a subtree,
`(Some entry, None)` when only B is a subtree, `(None, other)` when only
A is one — which is `(None, None)` when `other` is absent. -/
def delStep (cmp : Option Bytes → Option Bytes → Bytes → Changes → Option Changes)
    (b : Tree) (pfx : Bytes) (ch : Changes) (name : Bytes) (entry : TreeEntry) :
    Option Changes :=
  let other := look b.entries name
  let skip := match other with
              | some o => teq entry o
              | none => false
  if skip then some ch
  else
    match get_tree_oid entry with
    | none => none
    | some aOid =>
      let bOidRes : Option (Option Bytes) :=
        match other with
        | some o => get_tree_oid o
        | none => some none
      match bOidRes with
      | none => none
      | some bOid =>
        let path := joinPath pfx name
        match cmp aOid bOid path ch with
        | none => none
        | some ch1 =>
          if aOid = none ∧ bOid = none then
            some (hmInsert ch1 path (some entry, other))
          else if aOid = none then
            some (hmInsert ch1 path (some entry, none))
          else if bOid = none then
            some (hmInsert ch1 path (none, other))
          else some ch1

/-- One iteration of the `detect_additions` loop of `TreeDiff`, for the
binding `(name, entry)` of side B: names present in A are skipped, a
subtree fans out through `cmp`, a leaf records `(None, Some entry)`. -/
def addStep (cmp : Option Bytes → Option Bytes → Bytes → Changes → Option Changes)
    (a : Tree) (pfx : Bytes) (ch : Changes) (name : Bytes) (entry : TreeEntry) :
    Option Changes :=
  if (look a.entries name).isSome then some ch
  else
    let path := joinPath pfx name
    if entry.isTreeTE then
      match get_tree_oid entry with
      | none => none
      | some oid => cmp none oid path ch
    else some (hmInsert ch path (none, some entry))

/-- Run a per-binding step over the bindings of a tree, threading the
changes and stopping at the first panic (the loop of the source). -/
def foldSteps (step : Changes → Bytes → TreeEntry → Option Changes)
    (es : List (Bytes × TreeEntry)) (ch : Changes) : Option Changes :=
  es.foldl
    (fun acc p =>
      match acc with
      | none => none
      | some c => step c p.1 p.2)
    (some ch)

/-- `TreeDiff::compare_oids`: return at once when the two oids are equal;
otherwise load both sides (a failed load yields an empty tree), run the
deletion loop over the bindings of A, then the addition loop over the
bindings of B.  `none` models panic or fuel exhaustion (the recursion of
the source is unbounded on adversarial object graphs). -/
def compareOids (db : Database) (fs : FS) :
    Nat → Option Bytes → Option Bytes → Bytes → Changes → Option Changes
  | 0, a, b, _, ch => if a = b then some ch else none
  | fuel + 1, a, b, pfx, ch =>
    if a = b then some ch
    else
      match oidToTree db fs (fuel + 1) a with
      | none => none
      | some ra =>
        match oidToTree db fs (fuel + 1) b with
        | none => none
        | some rb =>
          let treeA := match ra with | .ok t => t | .error _ => Tree.mk []
          let treeB := match rb with | .ok t => t | .error _ => Tree.mk []
          match foldSteps (delStep (compareOids db fs fuel) treeB pfx) treeA.entries ch with
          | none => none
          | some ch1 =>
            foldSteps (addStep (compareOids db fs fuel) treeA pfx) treeB.entries ch1

/-- `Database::tree_diff`: run the comparison with the database root path
as the initial prefix and return the accumulated changes. -/
def Database.tree_diff (db : Database) (fs : FS) (fuel : Nat)
    (a b : Option Bytes) : Option Changes :=
  compareOids db fs fuel a b db.path []

/-- The shapes a `(before, after)` pair recorded by the tree diff can
take: one side present and the other absent, both sides present and
unequal under `TreeEntry` equality, or — for a subtree present in A and
absent in B — both sides absent. -/
def pairRecordable (pr : Option TreeEntry × Option TreeEntry) : Prop :=
  (∃ e, pr = (some e, none)) ∨ (∃ e, pr = (none, some e)) ∨
  (∃ e o, pr = (some e, some o) ∧ teq e o = false) ∨ pr = (none, none)

/-- Every pair bound in a changes map is of a recordable shape. -/
def chOkP (ch : Changes) : Prop :=
  ∀ p pr, look ch p = some pr → pairRecordable pr

/-! ## Index (`src/index.rs`) -/

/-- Lexicographic comparison of byte strings: Rust `Ord` on `String`. -/
def bytesCmp : Bytes → Bytes → Ordering
  | [], [] => .eq
  | [], _ :: _ => .lt
  | _ :: _, [] => .gt
  | a :: as_, b :: bs =>
      if a < b then .lt else if b < a then .gt else bytesCmp as_ bs

/-- Lexicographic comparison of component lists. -/
def compsCmp : List Bytes → List Bytes → Ordering
  | [], [] => .eq
  | [], _ :: _ => .lt
  | _ :: _, [] => .gt
  | c :: cs, d :: ds =>
      match bytesCmp c d with
      | .eq => compsCmp cs ds
      | o => o

/-- Rust `Ord` on `PathBuf`: lexicographic on the component lists. -/
def pathCmp (p q : Bytes) : Ordering :=
  compsCmp (splitOn 47 p) (splitOn 47 q)

/-- Modelled from the spec: `Entry::parent_directories`, which `src/`
calls but does not define.  The spec talks of the strict ancestor
directories of a path; for `a/b/c` these are `a` and `a/b`, shallowest
first. -/
def parent_directories (p : Bytes) : List Bytes :=
  let comps := splitOn 47 p
  (List.range (comps.length - 1)).map fun i => joinBy [47] (comps.take (i + 1))

/-- The halving loop of `Vec::binary_search` (the era of the sources):
keep `base` and `size`, probe `base + size / 2`, and when the size
reaches 1 compare the final probe.  The fuel is the initial size, an
upper bound on the iteration count. -/
def binSearchGo (xs : List Bytes) (key : Bytes) : Nat → Nat → Nat → Option Nat
  | 0, _, _ => none
  | fuel + 1, base, size =>
      if size > 1 then
        let half := size / 2
        let mid := base + half
        let c := pathCmp (xs.getD mid []) key
        binSearchGo xs key fuel (if c = .gt then base else mid) (size - half)
      else
        if pathCmp (xs.getD base []) key = .eq then some base else none

/-- `Vec::binary_search(&PathBuf::from(key))` over a vector of paths:
`some i` when the probe sequence lands on an element equal to `key`.  On
an unsorted vector it can miss a present element. -/
def binary_search (xs : List Bytes) (key : Bytes) : Option Nat :=
  if xs.length = 0 then none else binSearchGo xs key xs.length 0 xs.length

/-- `BTreeMap::insert` on a list kept in ascending `bytesCmp` key order. -/
def btInsert : List (Bytes × Entry) → Bytes → Entry → List (Bytes × Entry)
  | [], k, v => [(k, v)]
  | (k2, v2) :: rest, k, v =>
      match bytesCmp k k2 with
      | .lt => (k, v) :: (k2, v2) :: rest
      | .eq => (k, v) :: rest
      | .gt => (k2, v2) :: btInsert rest k v

/-- `HashMap::entry(k).and_modify(f)`: apply `f` to the binding of `k`
when present, do nothing otherwise. -/
def hmModify {α : Type} : List (Bytes × α) → Bytes → (α → α) → List (Bytes × α)
  | [], _, _ => []
  | (k2, v) :: rest, k, f =>
      if k2 = k then (k2, f v) :: rest else (k2, v) :: hmModify rest k f

/-- `entry(dir).and_modify(push path).or_insert(vec![path])`. -/
def parentsAdd (m : List (Bytes × List Bytes)) (k path : Bytes) :
    List (Bytes × List Bytes) :=
  if (look m k).isSome then hmModify m k (fun v => v ++ [path])
  else (k, [path]) :: m

/-- `index::Index`, minus the lockfile handle: the entry map in ascending
path order, the parent-directory map, and the dirty flag. -/
structure IndexSt where
  entries : List (Bytes × Entry)
  parents : List (Bytes × List Bytes)
  changed : Bool
deriving DecidableEq, Repr

/-- The empty index (`Index::new` / `Index::clear`). -/
def IndexSt.empty : IndexSt := ⟨[], [], false⟩

/-- `Index::remove_entry`: when an entry is stored at `key`, remove `key`
from the parents list of each of its ancestor directories through
`binary_search` (which can miss, the lists being unsorted), then drop the
entry. -/
def Index.remove_entry (st : IndexSt) (key : Bytes) : IndexSt :=
  match look st.entries key with
  | none => st
  | some e =>
    let parents2 := (parent_directories e.path).foldl
      (fun m dir =>
        hmModify m dir fun f =>
          match binary_search f key with
          | some i => f.eraseIdx i
          | none => f)
      st.parents
    { entries := unbind st.entries key, parents := parents2, changed := true }

/-- `Index::discard_conflicts`: remove any entry stored at a strict
ancestor directory of the new path, then every entry listed beneath it. -/
def Index.discard_conflicts (st : IndexSt) (entry : Entry) : IndexSt :=
  let st1 := (parent_directories entry.path).foldl
    (fun s dir => Index.remove_entry s dir) st
  match look st1.parents entry.path with
  | some children => children.foldl (fun s c => Index.remove_entry s c) st1
  | none => st1

/-- `Index::add_entry`: discard conflicts, register the path under each
ancestor directory, insert the entry, mark dirty. -/
def Index.add_entry (st : IndexSt) (entry : Entry) : IndexSt :=
  let st1 := Index.discard_conflicts st entry
  let parents2 := (parent_directories entry.path).foldl
    (fun m dir => parentsAdd m dir entry.path) st1.parents
  { entries := btInsert st1.entries entry.path entry,
    parents := parents2, changed := true }

/-- The stat fields handed to `Index::add` (`std::fs::Metadata`). -/
structure StatM where
  ctime : Nat
  ctime_ns : Nat
  mtime : Nat
  mtime_ns : Nat
  dev : Nat
  ino : Nat
  mode : Nat
  uid : Nat
  gid : Nat
  size : Nat
deriving DecidableEq, Repr

/-- `Entry::new`: flags hold `min(path length, 0xFFF)`; every stat field
is cast `as u32`. -/
def Entry.new (path : Bytes) (stat : StatM) (oid : Bytes) : Entry :=
  { path := path
    oid := oid
    flags := if path.length > 0xFFF then 0xFFF else path.length
    ctime := stat.ctime % 2 ^ 32
    ctime_ns := stat.ctime_ns % 2 ^ 32
    mtime := stat.mtime % 2 ^ 32
    mtime_ns := stat.mtime_ns % 2 ^ 32
    dev := stat.dev % 2 ^ 32
    ino := stat.ino % 2 ^ 32
    mode := stat.mode % 2 ^ 32
    uid := stat.uid % 2 ^ 32
    gid := stat.gid % 2 ^ 32
    size := stat.size % 2 ^ 32 }

/-- `Index::add`. -/
def Index.add (st : IndexSt) (path : Bytes) (oid : Bytes) (stat : StatM) : IndexSt :=
  Index.add_entry st (Entry.new path stat oid)

/-- `Index::remove`: remove the descendants listed under `path`, then the
entry at `path` itself. -/
def Index.removeOp (st : IndexSt) (path : Bytes) : IndexSt :=
  let st1 := match look st.parents path with
             | some children => children.foldl (fun s c => Index.remove_entry s c) st
             | none => st
  let st2 := Index.remove_entry st1 path
  { st2 with changed := true }

/-- One operation of the Add/Remove API. -/
inductive IndexOp : Type
  | add : Bytes → Bytes → StatM → IndexOp
  | remove : Bytes → IndexOp
deriving DecidableEq, Repr

/-- Run a sequence of operations from the empty index. -/
def runOps (ops : List IndexOp) : IndexSt :=
  ops.foldl
    (fun st op =>
      match op with
      | .add p oid stat => Index.add st p oid stat
      | .remove p => Index.removeOp st p)
    IndexSt.empty

/-- A path is normal when it is nonempty with nonempty `/`-separated
components: no leading, trailing or doubled slash. -/
def normalPath (p : Bytes) : Bool := p ≠ [] ∧ (splitOn 47 p).all (· ≠ [])

/-- The paths of the stored entries. -/
def keysI (st : IndexSt) : List Bytes := st.entries.map Prod.fst

/-- The entry map is strictly ascending in its keys (the `BTreeMap`
order). -/
def entriesSortedI (st : IndexSt) : Prop :=
  List.Pairwise (fun a b => bytesCmp a.1 b.1 = Ordering.lt) st.entries

/-- Every stored entry is keyed by its own path. -/
def keysEqI (st : IndexSt) : Prop := ∀ kv ∈ st.entries, Entry.path kv.2 = kv.1

/-- I2: no stored path is a strict ancestor directory of another stored
path. -/
def I2I (st : IndexSt) : Prop :=
  ∀ p ∈ keysI st, ∀ q ∈ keysI st, p ∉ parent_directories q

/-- The superset half of I3: every stored path is listed under each of
its strict ancestor directories. -/
def I3supI (st : IndexSt) : Prop :=
  ∀ k ∈ keysI st, ∀ d ∈ parent_directories k,
    ∃ l, look st.parents d = some l ∧ k ∈ l

/-- The inductive invariant of the index state. -/
def InvI (st : IndexSt) : Prop :=
  entriesSortedI st ∧ keysEqI st ∧ I2I st ∧ I3supI st

/-! ## Index binary format (`src/index.rs` write and load,
`src/index/entry.rs` pack and from) -/

/-- Big-endian 32-bit write (`write_u32::<BigEndian>`). -/
def u32be (n : Nat) : Bytes :=
  [n / 2 ^ 24 % 256, n / 2 ^ 16 % 256, n / 2 ^ 8 % 256, n % 256]

/-- Big-endian 16-bit write (`write_u16::<BigEndian>`). -/
def u16be (n : Nat) : Bytes := [n / 2 ^ 8 % 256, n % 256]

/-- `Entry::pack`: ten big-endian stat fields, 20 raw oid bytes, 16-bit
flags, the path, one NUL, then NUL padding to an 8-byte boundary.  `none`
models the error on a non-hex oid. -/
def Entry.pack (e : Entry) : Option Bytes := do
  let raw ← decode_hex e.oid
  let base :=
    u32be e.ctime ++ u32be e.ctime_ns ++ u32be e.mtime ++ u32be e.mtime_ns ++
    u32be e.dev ++ u32be e.ino ++ u32be e.mode ++ u32be e.uid ++ u32be e.gid ++
    u32be e.size ++ raw ++ u16be (e.flags % 2 ^ 16) ++ e.path ++ [0]
  pure (base ++ List.replicate ((8 - base.length % 8) % 8) 0)

/-- Big-endian 32-bit read. -/
def readU32 (bs : Bytes) : Option (Nat × Bytes) :=
  match bs with
  | b0 :: b1 :: b2 :: b3 :: rest =>
      some (b0 * 2 ^ 24 + b1 * 2 ^ 16 + b2 * 2 ^ 8 + b3, rest)
  | _ => none

/-- Big-endian 16-bit read. -/
def readU16 (bs : Bytes) : Option (Nat × Bytes) :=
  match bs with
  | b0 :: b1 :: rest => some (b0 * 2 ^ 8 + b1, rest)
  | _ => none

/-- `Entry::from`: parse one packed entry; `read_to_string` requires the
remaining bytes to be valid UTF-8, and the path is the remainder with
trailing NULs stripped. -/
def Entry.fromBytes (bs : Bytes) : Option Entry :=
  match readU32 bs with
  | none => none
  | some (ctime, r) =>
  match readU32 r with
  | none => none
  | some (ctime_ns, r) =>
  match readU32 r with
  | none => none
  | some (mtime, r) =>
  match readU32 r with
  | none => none
  | some (mtime_ns, r) =>
  match readU32 r with
  | none => none
  | some (dev, r) =>
  match readU32 r with
  | none => none
  | some (ino, r) =>
  match readU32 r with
  | none => none
  | some (mode, r) =>
  match readU32 r with
  | none => none
  | some (uid, r) =>
  match readU32 r with
  | none => none
  | some (gid, r) =>
  match readU32 r with
  | none => none
  | some (size, r) =>
  match takeN 20 r with
  | none => none
  | some (oid20, r) =>
  match readU16 r with
  | none => none
  | some (flags, r) =>
  if validUtf8 r then
    some { path := trimEnd 0 r, oid := hexEncode oid20, flags := flags,
           ctime := ctime, ctime_ns := ctime_ns, mtime := mtime,
           mtime_ns := mtime_ns, dev := dev, ino := ino, mode := mode,
           uid := uid, gid := gid, size := size }
  else none

/-- `Index::write_updates`, as the byte string committed through the
lockfile: `"DIRC"`, version 2, big-endian entry count, the packed entries
in map order, then the SHA-1 of everything before it. -/
def Index.write_updates (entries : List (Bytes × Entry)) : Option Bytes :=
  match entries.mapM (fun kv => Entry.pack kv.2) with
  | none => none
  | some packs =>
    let payload := sb "DIRC" ++ u32be 2 ++ u32be (entries.length % 2 ^ 32) ++
      packs.flatten
    some (payload ++ sha1Raw payload)

/-- A `read` into a zeroed buffer of size `n`: at end of file the unread
tail of the buffer stays zero, and the digest is updated with the whole
buffer. -/
def chunkTake (n : Nat) (bs : Bytes) : Bytes × Bytes :=
  (bs.take n ++ List.replicate (n - bs.length) 0, bs.drop n)

/-- The 8-byte continuation reads of `Index::load`: keep reading while the
last accumulated byte is not NUL. -/
def readEntryTail : Nat → Bytes → Bytes → Bytes × Bytes
  | 0, acc, rem => (acc, rem)
  | fuel + 1, acc, rem =>
      if acc.getLast? = some 0 then (acc, rem)
      else
        let (ex, rem2) := chunkTake 8 rem
        readEntryTail fuel (acc ++ ex) rem2

/-- The entry loop of `Index::load`: read a 64-byte block, continue 8
bytes at a time, parse, `add_entry`.  Returns the state, the unconsumed
bytes and the digested bytes. -/
def loadLoop : Nat → Bytes → IndexSt → Bytes → Option (IndexSt × Bytes × Bytes)
  | 0, rem, st, acc => some (st, rem, acc)
  | n + 1, rem, st, acc =>
      let (c64, rem1) := chunkTake 64 rem
      let (entryBytes, rem2) := readEntryTail (rem1.length + 2) c64 rem1
      match Entry.fromBytes entryBytes with
      | none => none
      | some e => loadLoop n rem2 (Index.add_entry st e) (acc ++ entryBytes)

/-- `Index::load` on the bytes of an index file: parse and check the
header (the `assert_eq!` panics are `none`), read `count` entries, then
require the trailing bytes to equal the SHA-1 of everything before them. -/
def Index.load (input : Bytes) : Option IndexSt :=
  let (hdr, rem) := chunkTake 12 input
  if hdr.take 4 = sb "DIRC" then
    match readU32 (hdr.drop 4) with
    | none => none
    | some (version, hrest) =>
      if version = 2 then
        match readU32 hrest with
        | none => none
        | some (count, _) =>
          match loadLoop count rem IndexSt.empty hdr with
          | none => none
          | some (st, remEnd, acc) =>
            if sha1Raw acc = remEnd then some st else none
      else none
  else none

/-! ## Lockfile (`src/lockfile.rs`) -/

/-- `lockfile::Lockfile`: the target path and its `.lock` sidecar. -/
structure Lockfile where
  path : Bytes
  lock : Bytes
deriving DecidableEq, Repr

/-- `Lockfile::new`: fails when the path has no file name; the sidecar
appends `.lock` to the file name. -/
def Lockfile.new (path : Bytes) : Option Lockfile :=
  if fileNameOf path = [] then none else some ⟨path, path ++ sb ".lock"⟩

/-- Outcome of lock acquisition. -/
inductive TryLockResult : Type
  | acquired : List Bytes → TryLockResult
  | panicked
deriving DecidableEq, Repr

/-- `Lockfile::try_lock` over the set of existing paths: open the sidecar
with `create_new` (create-exclusive).  When the sidecar already exists the
open fails and the source unwraps it with
`.expect("Failed to get lock file")`: the process panics instead of
returning the error to the caller. -/
def Lockfile.try_lock (existing : List Bytes) (lf : Lockfile) : TryLockResult :=
  if lf.lock ∈ existing then .panicked else .acquired (lf.lock :: existing)

/-! ## Workspace migration (`src/workspace.rs`, `src/repository/migration.rs`) -/

/-- A workspace: files (path to content and mode) and directories, under a
root path. -/
structure Ws where
  root : Bytes
  files : List (Bytes × (Bytes × Nat))
  dirs : List Bytes
deriving DecidableEq, Repr

/-- `Workspace::workspace_path` for the relative paths of a migration. -/
def Ws.full (ws : Ws) (p : Bytes) : Bytes := joinPath ws.root p

/-- Errors during migration: `ioErr` for propagated `Result` errors,
`crash` for panics (`unwrap` on a missing entry). -/
inductive WsErr : Type
  | ioErr
  | crash
deriving DecidableEq, Repr

/-- `std::fs::remove_file`: fails when no file is stored at the path. -/
def Ws.removeFile (ws : Ws) (p : Bytes) : Except WsErr Ws :=
  if (look ws.files p).isSome then
    .ok { ws with files := unbind ws.files p }
  else .error .ioErr

/-- `std::fs::remove_dir` (`Workspace::remove_dir`): fails when the path
is not an existing directory or when anything still lives under it. -/
def Ws.removeDir (ws : Ws) (p : Bytes) : Except WsErr Ws :=
  if p ∈ ws.dirs then
    if ws.files.any (fun f => startsWithB (p ++ [47]) f.1) ∨
       ws.dirs.any (fun d => startsWithB (p ++ [47]) d) then
      .error .ioErr
    else .ok { ws with dirs := ws.dirs.filter (· ≠ p) }
  else .error .ioErr

/-- `Workspace::create_dir`: `path.metadata()?` propagates an error when
the path does not exist; when it names a file the source calls
`remove_dir` on it, which fails; and when it names an existing directory
the final `create_dir` fails with already-exists.  Every branch of the
source therefore errors. -/
def Ws.createDir (ws : Ws) (p : Bytes) : Except WsErr Ws :=
  if (look ws.files p).isSome then
    .error .ioErr
  else if p ∈ ws.dirs then
    .error .ioErr
  else
    .error .ioErr

/-- The actions of a migration plan (`repository::migration::Action`). -/
inductive ActionM : Type
  | create
  | remove
  | update
deriving DecidableEq, Repr

/-- A migration plan: per-action change lists plus the directory
multisets. -/
structure MigrationM where
  removes : List (Bytes × Option TreeEntry)
  creates : List (Bytes × Option TreeEntry)
  updates : List (Bytes × Option TreeEntry)
  rmdirs : List Bytes
  mkdirs : List Bytes

/-- One step of `Workspace::apply_change_list`: always `remove_file`
first; for `Remove` stop there; otherwise unwrap the entry (a missing
entry panics), fetch the blob, write the file with create-new semantics
and set its mode (parsed as decimal). -/
def migChangeStep (db : Database) (dbfs : FS) (action : ActionM) (ws : Ws)
    (item : Bytes × Option TreeEntry) : Except WsErr Ws := do
  let p := ws.full item.1
  let ws ← ws.removeFile p
  if action = .remove then
    pure ws
  else
    match item.2 with
    | none => .error .crash
    | some entry =>
      let oidMode : Except WsErr (Bytes × Bytes) :=
        match entry with
        | .entry e => .ok (e.oid, e.modeStr)
        | .tree t =>
          match Tree.oidOf t with
          | some o => .ok (o, sb "40000")
          | none => .error .crash
        | .marker m => .ok (m.oid, m.mode)
      let (oid, mode) ← oidMode
      match db.read_object dbfs oid with
      | .error _ => .error .ioErr
      | .ok (_, _, data) =>
        if validUtf8 data then
          if (look ws.files p).isSome ∨ p ∈ ws.dirs then .error .ioErr
          else
            match parseU64 mode with
            | some mv =>
                if mv < 2 ^ 32 then
                  .ok { ws with files := (p, (data, mv)) :: ws.files }
                else .error .ioErr
            | none => .error .ioErr
        else .error .ioErr

/-- The trace of attempted migration sub-steps, one element per list item
processed (including the failing one). -/
inductive WsOp : Type
  | removeF : Bytes → WsOp
  | rmdir : Bytes → WsOp
  | mkdir : Bytes → WsOp
  | create : Bytes → WsOp
  | update : Bytes → WsOp
deriving DecidableEq, Repr

/-- Run one stage over its list, recording each attempted item and
stopping at the first error (the `?` of the source loops). -/
def runStage {α : Type} (step : Ws → α → Except WsErr Ws) (mk : α → WsOp) :
    Ws → List α → List WsOp × Except WsErr Ws
  | ws, [] => ([], .ok ws)
  | ws, x :: rest =>
      match step ws x with
      | .ok ws2 =>
          let r := runStage step mk ws2 rest
          (mk x :: r.1, r.2)
      | .error e => ([mk x], .error e)

/-- Sequence two stages, concatenating traces; a failed first stage
short-circuits. -/
def stageSeq (r : List WsOp × Except WsErr Ws)
    (next : Ws → List WsOp × Except WsErr Ws) : List WsOp × Except WsErr Ws :=
  match r.2 with
  | .ok ws =>
      let r2 := next ws
      (r.1 ++ r2.1, r2.2)
  | .error _ => r

/-- Stable insertion into a `pathCmp`-sorted list (`Vec::sort`). -/
def insertSorted (x : Bytes) : List Bytes → List Bytes
  | [] => [x]
  | y :: rest =>
      if pathCmp x y = .lt then x :: y :: rest else y :: insertSorted x rest

/-- `Vec::sort` by the `PathBuf` ordering. -/
def sortPaths (xs : List Bytes) : List Bytes := xs.foldr insertSorted []

/-- `Workspace::apply_migration`: removes, then the rmdirs sorted and
iterated in reverse, then the mkdirs sorted ascending, then creates, then
updates. -/
def Workspace.apply_migration (db : Database) (dbfs : FS) (m : MigrationM)
    (ws : Ws) : List WsOp × Except WsErr Ws :=
  stageSeq
    (stageSeq
      (stageSeq
        (stageSeq
          (runStage (migChangeStep db dbfs .remove) (fun it => .removeF it.1) ws m.removes)
          (fun ws1 => runStage (fun w p => w.removeDir (w.full p)) .rmdir ws1
            (sortPaths m.rmdirs).reverse))
        (fun ws2 => runStage (fun w p => w.createDir (w.full p)) .mkdir ws2
          (sortPaths m.mkdirs)))
      (fun ws3 => runStage (migChangeStep db dbfs .create) (fun it => .create it.1) ws3 m.creates))
    (fun ws4 => runStage (migChangeStep db dbfs .update) (fun it => .update it.1) ws4 m.updates)

/-- The full trace a migration would produce if every sub-step
succeeded. -/
def fullTrace (m : MigrationM) : List WsOp :=
  m.removes.map (fun it => .removeF it.1) ++
  (sortPaths m.rmdirs).reverse.map .rmdir ++
  (sortPaths m.mkdirs).map .mkdir ++
  m.creates.map (fun it => .create it.1) ++
  m.updates.map (fun it => .update it.1)

/-- Depth of a relative path: its number of components. -/
def pathDepth (p : Bytes) : Nat := (splitOn 47 p).length

/-! ## Myers diff (`src/diff/myers.rs`, `src/diff/myers_graph.rs`,
`src/diff/edit.rs`) -/

/-- `diff::edit::Line`. -/
structure LineM where
  content : Bytes
  number : Nat
deriving DecidableEq, Repr

/-- `Myers::from`: number the lines of each side from 0. -/
def numberLines (xs : List Bytes) : List LineM :=
  xs.enum.map fun p => ⟨p.2, p.1⟩

/-- `diff::edit::EditKind`. -/
inductive EditKind : Type
  | ins
  | del
  | eq
deriving DecidableEq, Repr

/-- `diff::edit::Edit`. -/
structure EditM where
  kind : EditKind
  a : Option LineM
  b : Option LineM
deriving DecidableEq, Repr

/-- `diff::myers_graph::MyersGraph`: an array of `Option<isize>` indexed
by diagonal `k` through offset `max`. -/
structure MG where
  array : List (Option Int)
  maxK : Nat
deriving DecidableEq, Repr

/-- `MyersGraph::new(max)`: `1 + max * 2` empty cells. -/
def MG.new (mx : Nat) : MG := ⟨List.replicate (1 + mx * 2) none, mx⟩

/-- `Index` read: the asserts require `0 ≤ k + max < 2 * max + 1`;
`none` models the assertion panic. -/
def MG.get (v : MG) (k : Int) : Option (Option Int) :=
  let i := k + (v.maxK : Int)
  if 0 ≤ i ∧ i < 2 * (v.maxK : Int) + 1 then some (v.array.getD i.toNat none)
  else none

/-- `IndexMut` write: no assert of its own, but the vector indexing
panics out of bounds (a negative index wraps to a huge `usize`). -/
def MG.set (v : MG) (k : Int) (x : Option Int) : Option MG :=
  let i := k + (v.maxK : Int)
  if 0 ≤ i ∧ i < (v.array.length : Int) then some ⟨v.array.set i.toNat x, v.maxK⟩
  else none

/-- Rust `Option<isize>` ordering: `None` below every `Some`. -/
def optLt : Option Int → Option Int → Bool
  | none, none => false
  | none, some _ => true
  | some _, none => false
  | some a, some b => a < b

/-- Panicking list index (`a[x as usize]`): fails on a negative or
out-of-range index. -/
def getPanic (xs : List LineM) (i : Int) : Option LineM :=
  if 0 ≤ i then xs.get? i.toNat else none

/-- The diagonal slide of `shortest_edit_step`: advance while both sides
agree.  The fuel bounds the iteration count. -/
def slideGo (A B : List LineM) (n m : Int) : Nat → Int → Int → Option (Int × Int)
  | 0, _, _ => none
  | fuel + 1, x, y =>
      if x < n ∧ y < m then
        match getPanic A x, getPanic B y with
        | some la, some lb =>
            if la.content = lb.content then slideGo A B n m fuel (x + 1) (y + 1)
            else some (x, y)
        | _, _ => none
      else some (x, y)

/-- `Myers::shortest_edit_step`: choose the predecessor diagonal, slide,
store, and report completion. -/
def seStep (A B : List LineM) (n m : Int) (v : MG) (d k : Int) :
    Option (MG × Bool) := do
  let cond ←
    if k = -d then pure true
    else if k ≠ d then do
      let a ← v.get (k - 1)
      let b ← v.get (k + 1)
      pure (optLt a b)
    else pure false
  let optX ←
    if cond then v.get (k + 1)
    else do
      let a ← v.get (k - 1)
      pure (a.map (· + 1))
  let y0 := match optX with | some x => x - k | none => 0
  let x0 := optX.getD 0
  let (x, y) ← slideGo A B n m ((n - x0).toNat + 1) x0 y0
  let v2 ← v.set k (some x)
  pure (v2, decide (x ≥ n ∧ y ≥ m))

/-- The diagonals `-d, -d+2, …, d` of round `d`. -/
def kRange (d : Int) : List Int :=
  (List.range (d.toNat + 1)).map fun i => -d + 2 * (i : Int)

/-- The inner `k` loop of a round, stopping at completion. -/
def seKLoop (A B : List LineM) (n m : Int) : MG → Int → List Int → Option (MG × Bool)
  | v, _, [] => some (v, false)
  | v, d, k :: rest => do
      let (v2, done) ← seStep A B n m v d k
      if done then pure (v2, true) else seKLoop A B n m v2 d rest

/-- The outer `d` loop from 1 to max: push the pre-round snapshot, run the
round, return the trace at completion. -/
def seDLoop (A B : List LineM) (n m : Int) : Nat → Int → MG → List MG → Option (List MG)
  | 0, _, _, trace => some trace
  | fuel + 1, d, v, trace =>
      let trace2 := trace ++ [v]
      match seKLoop A B n m v d (kRange d) with
      | none => none
      | some (_, true) => some trace2
      | some (v2, false) => seDLoop A B n m fuel (d + 1) v2 trace2

/-- `Myers::shortest_edit`: seed `V[1] = Some(0)` (which panics when
`max = 0`: the array has a single cell and index 1 is out of bounds),
snapshot, run round 0, then rounds 1 to max. -/
def shortestEdit (A B : List LineM) : Option (List MG) := do
  let n : Int := A.length
  let m : Int := B.length
  let mx := A.length + B.length
  let v0 := MG.new mx
  let v ← v0.set 1 (some 0)
  let trace := [v]
  let (v2, done) ← seStep A B n m v 0 0
  if done then pure trace
  else seDLoop A B n m mx 1 v2 trace

/-- The diagonal backtracking loop of `Myers::backtrack`. -/
def btWhile : Nat → Int → Int → Int → Int → List (Int × Int × Int × Int) →
    Option (List (Int × Int × Int × Int) × Int × Int)
  | 0, _, _, _, _, _ => none
  | fuel + 1, x, y, px, py, acc =>
      if x > px ∧ y > py then
        btWhile fuel (x - 1) (y - 1) px py (acc ++ [(x - 1, y - 1, x, y)])
      else some (acc, x, y)

/-- One stage of `Myers::backtrack` per trace snapshot, from the final
round down to 0. -/
def btLoop : List (MG × Int) → Int → Int → List (Int × Int × Int × Int) →
    Option (List (Int × Int × Int × Int))
  | [], _, _, acc => some acc
  | (v, d) :: rest, x, y, acc => do
      let k := x - y
      let cond ←
        if k = -d then pure true
        else if k ≠ d then do
          let a ← v.get (k - 1)
          let b ← v.get (k + 1)
          pure (optLt a b)
        else pure false
      let pk := if cond then k + 1 else k - 1
      let pv ← v.get pk
      match pv with
      | none => none
      | some px =>
        let py := px - pk
        let (acc2, x2, y2) ← btWhile ((x - px).toNat + 1) x y px py acc
        let acc3 := if d > 0 then acc2 ++ [(px, py, x2, y2)] else acc2
        btLoop rest px py acc3

/-- `Myers::backtrack`: walk the trace snapshots in reverse. -/
def Myers.backtrack (A B : List LineM) : Option (List (Int × Int × Int × Int)) := do
  let edits ← shortestEdit A B
  let ds := ((List.range edits.length).reverse).map Int.ofNat
  btLoop (edits.reverse.zip ds) (A.length : Int) (B.length : Int) []

/-- `Myers::diff`: turn the backtracked moves into edits and reverse. -/
def Myers.diff (A B : List LineM) : Option (List EditM) := do
  let bt ← Myers.backtrack A B
  let n : Int := A.length
  let m : Int := B.length
  let es ← bt.mapM fun q => do
    let (px, py, x, y) := q
    let aLine ← if px < n then (getPanic A px).map some else pure none
    let bLine ← if py < m then (getPanic B py).map some else pure none
    if x = px then pure (EditM.mk .ins none bLine)
    else if y = py then pure (EditM.mk .del aLine none)
    else pure (EditM.mk .eq aLine bLine)
  pure es.reverse

/-- The whole pipeline on the two input strings: `Myers::from` splits
them into numbered lines, `diff` produces the edit list.  `none` is a
panic anywhere inside. -/
def myersDiffStr (a b : Bytes) : Option (List EditM) :=
  Myers.diff (numberLines (splitLines a)) (numberLines (splitLines b))

/-! ## Concrete inputs used by witnesses and counterexamples -/

/-- A lowercase hex digit or decimal digit byte. -/
def isHexLc (b : Nat) : Prop := (48 ≤ b ∧ b ≤ 57) ∨ (97 ≤ b ∧ b ≤ 102)

/-- A well-formed index entry: nonempty NUL-free valid-UTF-8 path, a
40-character lowercase hex oid, 16-bit flags and 32-bit stat fields (the
widths the DIRC format stores). -/
def entryWF (e : Entry) : Prop :=
  e.path ≠ [] ∧ (0 : Nat) ∉ e.path ∧ validUtf8 e.path = true ∧
  e.oid.length = 40 ∧ (∀ b ∈ e.oid, isHexLc b) ∧
  e.flags < 2 ^ 16 ∧ e.ctime < 2 ^ 32 ∧ e.ctime_ns < 2 ^ 32 ∧
  e.mtime < 2 ^ 32 ∧ e.mtime_ns < 2 ^ 32 ∧ e.dev < 2 ^ 32 ∧
  e.ino < 2 ^ 32 ∧ e.mode < 2 ^ 32 ∧ e.uid < 2 ^ 32 ∧ e.gid < 2 ^ 32 ∧
  e.size < 2 ^ 32

/-- The object path of an oid under a database rooted at the empty path. -/
def pathOfOid (oid : Bytes) : Bytes := oid.take 2 ++ [47] ++ oid.drop 2

/-- A small blob. -/
def blobHello : Obj := .blob (sb "hello")

/-- An objects filesystem holding one object whose kind token is the
unknown word `xyzzy`. -/
def fsJunkKind : FS :=
  ⟨[(pathOfOid (List.replicate 40 100), sb "xyzzy 0" ++ [0])], []⟩

/-- A shard directory with three files. -/
def fsShard : FS :=
  ⟨[(sb "ab/cd", sb "x"), (sb "ab/ce", sb "y"), (sb "ab/ff", sb "z")], [sb "ab"]⟩

/-- Serialized tree `T = \x7b f ↦ blob \x7d`, stored at the literal oid of
40 `a` bytes. -/
def treeTFullX : Bytes :=
  sb "tree 29" ++ [0] ++ (sb "100644 f" ++ [0] ++ List.replicate 20 170)

/-- Serialized tree `A = \x7b d ↦ subtree T \x7d`, stored at 40 `b`
bytes. -/
def treeAFullX : Bytes :=
  sb "tree 28" ++ [0] ++ (sb "40000 d" ++ [0] ++ List.replicate 20 170)

/-- Serialized tree `B = \x7b g ↦ blob \x7d`, stored at 40 `c` bytes. -/
def treeBFullX : Bytes :=
  sb "tree 29" ++ [0] ++ (sb "100644 g" ++ [0] ++ List.replicate 20 34)

/-- The object store holding the three trees above, rooted at the empty
path. -/
def fsTrees : FS :=
  ⟨[(pathOfOid (List.replicate 40 98), treeAFullX),
    (pathOfOid (List.replicate 40 99), treeBFullX),
    (pathOfOid (List.replicate 40 97), treeTFullX)], []⟩

/-- Empty stat fields. -/
def stat0 : StatM := ⟨0, 0, 0, 0, 0, 0, 0, 0, 0, 0⟩

/-- Add `a/c`, add `a/b`, then add `a/c/x` (which evicts the entry at
`a/c`). -/
def opsStale : List IndexOp :=
  [.add (sb "a/c") (sb "o1") stat0,
   .add (sb "a/b") (sb "o2") stat0,
   .add (sb "a/c/x") (sb "o3") stat0]

/-- One well-formed index entry. -/
def entryX : Entry :=
  { path := sb "a.txt", oid := sb "aaaaaaaaaaaaaaaaaaaaaaaaaaaaaaaaaaaaaaaa",
    flags := 5, ctime := 1, ctime_ns := 2, mtime := 3, mtime_ns := 4,
    dev := 5, ino := 6, mode := 33188, uid := 7, gid := 8, size := 9 }

/-- A migration plan that only removes the directories `a/b` and `z`. -/
def migRmdirs : MigrationM := ⟨[], [], [], [sb "a/b", sb "z"], []⟩

/-- A workspace with directories `a`, `a/b` and `z`, all empty. -/
def wsEmptyDirs : Ws := ⟨[], [], [sb "a", sb "a/b", sb "z"]⟩

/-- The same workspace with a file still living in `z`. -/
def wsBusyZ : Ws := ⟨[], [(sb "z/f", (sb "c", 100644))], [sb "a", sb "a/b", sb "z"]⟩

/-- A concrete commit with a parent. -/
def commitX : Commit :=
  ⟨some (List.replicate 40 98), List.replicate 40 97,
   ⟨sb "Ann", sb "a@b.c", sb "17 +0000"⟩, sb "msg"⟩

/-! ## Shared lemmas -/

theorem natToDecFuel_digits {fuel n : Nat} (h : n < fuel) :
    ∀ b ∈ natToDecFuel fuel n, 48 ≤ b ∧ b ≤ 57 := by
  induction fuel generalizing n with
  | zero => omega
  | succ fuel ih =>
    intro b hb
    rw [natToDecFuel] at hb
    by_cases hn : n < 10
    · simp [hn] at hb
      omega
    · simp [hn] at hb
      rcases hb with hb | hb
      · exact ih (by omega) b hb
      · omega

theorem natToDecFuel_ne_nil {fuel n : Nat} (h : n < fuel) :
    natToDecFuel fuel n ≠ [] := by
  cases fuel with
  | zero => omega
  | succ fuel =>
    rw [natToDecFuel]
    by_cases hn : n < 10 <;> simp [hn]

theorem natToDecFuel_val {fuel n : Nat} (h : n < fuel) :
    (natToDecFuel fuel n).foldl (fun a b => a * 10 + (b - 48)) 0 = n := by
  induction fuel generalizing n with
  | zero => omega
  | succ fuel ih =>
    rw [natToDecFuel]
    by_cases hn : n < 10
    · simp [hn]
    · simp only [hn, if_false, List.foldl_append]
      rw [ih (by omega)]
      simp
      omega

theorem natToDec_digits (n : Nat) : ∀ b ∈ natToDec n, 48 ≤ b ∧ b ≤ 57 :=
  natToDecFuel_digits (Nat.lt_succ_self n)

theorem natToDec_ne_nil (n : Nat) : natToDec n ≠ [] :=
  natToDecFuel_ne_nil (Nat.lt_succ_self n)

theorem natToDec_not_mem_zero (n : Nat) : 0 ∉ natToDec n := by
  intro h
  have := natToDec_digits n 0 h
  omega

theorem natToDec_ascii (n : Nat) : ∀ b ∈ natToDec n, b < 128 := by
  intro b hb
  have := natToDec_digits n b hb
  omega

theorem parseU64_natToDec {n : Nat} (h : n < 2 ^ 64) :
    parseU64 (natToDec n) = some n := by
  unfold parseU64
  rw [if_neg (natToDec_ne_nil n)]
  have hall : (natToDec n).all (fun b => decide (48 ≤ b ∧ b ≤ 57)) = true := by
    rw [List.all_eq_true]
    intro b hb
    simpa using natToDec_digits n b hb
  simp only [hall, if_true]
  rw [show ((natToDec n).foldl (fun a b => a * 10 + (b - 48)) 0) = n from
    natToDecFuel_val (Nat.lt_succ_self n)]
  rw [if_pos (by omega)]

theorem validUtf8_ascii : ∀ {bs : Bytes}, (∀ b ∈ bs, b < 128) → validUtf8 bs = true := by
  intro bs
  induction bs with
  | nil => intro _; rfl
  | cons b rest ih =>
    intro h
    have hb : b < 128 := h b (by simp)
    show utf8Go (b :: rest) 0 0 0 = true
    rw [utf8Go, utf8Class, if_pos hb]
    exact ih fun x hx => h x (by simp [hx])

theorem readUntil_split {delim : Nat} :
    ∀ {pre post : Bytes}, delim ∉ pre →
      readUntil delim (pre ++ delim :: post) = (pre ++ [delim], post) := by
  intro pre
  induction pre with
  | nil => intro post _; simp [readUntil]
  | cons b rest ih =>
    intro post h
    have hb : ¬ b = delim := fun e => h (by simp [e])
    rw [List.cons_append, readUntil, if_neg hb,
      ih (fun hm => h (List.mem_cons_of_mem _ hm))]
    rfl

theorem dropWhile_ne_all {c : Nat} :
    ∀ {l : Bytes}, (∀ y ∈ l, y ≠ c) → l.dropWhile (fun b => decide (b = c)) = l := by
  intro l
  induction l with
  | nil => intro _; rfl
  | cons y ys _ =>
    intro h
    rw [List.dropWhile_cons_of_neg]
    simpa using h y (by simp)

theorem trimEnd_no_mem {c : Nat} {xs : Bytes} (h : c ∉ xs) : trimEnd c xs = xs := by
  unfold trimEnd
  rw [dropWhile_ne_all, List.reverse_reverse]
  intro y hy e
  exact h (e ▸ (List.mem_reverse.1 hy))

theorem trimEnd_pad {c : Nat} {xs : Bytes} {k : Nat} (h : c ∉ xs) :
    trimEnd c (xs ++ List.replicate k c) = xs := by
  unfold trimEnd
  rw [List.reverse_append, List.reverse_replicate]
  have hdrop : ∀ j : Nat, List.dropWhile (fun b => decide (b = c))
      (List.replicate j c ++ xs.reverse) =
      List.dropWhile (fun b => decide (b = c)) xs.reverse := by
    intro j
    induction j with
    | zero => simp
    | succ j ih =>
      rw [List.replicate_succ, List.cons_append, List.dropWhile_cons_of_pos (by simp)]
      exact ih
  rw [hdrop]
  rw [dropWhile_ne_all, List.reverse_reverse]
  intro y hy e
  exact h (e ▸ (List.mem_reverse.1 hy))

theorem hexDigitChar_lc (n : Nat) : isHexLc (hexDigitChar (n % 16)) := by
  unfold hexDigitChar isHexLc
  have : n % 16 < 16 := Nat.mod_lt n (by omega)
  by_cases h : n % 16 < 10 <;> simp [h] <;> omega

theorem isHexLc_ascii {b : Nat} (h : isHexLc b) : b < 128 := by
  rcases h with h | h <;> omega

theorem sha1Hex_length (bs : Bytes) : (sha1Hex bs).length = 40 := by
  simp [sha1Hex, natToHexFixed]

theorem sha1Hex_mem {bs : Bytes} : ∀ b ∈ sha1Hex bs, isHexLc b := by
  intro b hb
  simp only [sha1Hex, natToHexFixed, List.mem_map] at hb
  obtain ⟨i, _, rfl⟩ := hb
  exact hexDigitChar_lc _

theorem sha1Hex_ascii {bs : Bytes} : ∀ b ∈ sha1Hex bs, b < 128 :=
  fun b hb => isHexLc_ascii (sha1Hex_mem b hb)

theorem hexVal_lc {b : Nat} (h : isHexLc b) :
    hexVal b = some (if b ≤ 57 then b - 48 else b - 87) := by
  unfold hexVal
  rcases h with h | h
  · rw [if_pos ⟨h.1, h.2⟩, if_pos h.2]
  · rw [if_neg (by omega), if_pos ⟨h.1, h.2⟩, if_neg (by omega)]

theorem hexDigitChar_val_lc {b : Nat} (h : isHexLc b) :
    hexDigitChar (if b ≤ 57 then b - 48 else b - 87) = b := by
  unfold hexDigitChar
  rcases h with h | h
  · rw [if_pos h.2, if_pos (by omega)]
    omega
  · rw [if_neg (show ¬ b ≤ 57 by omega), if_neg (show ¬ b - 87 < 10 by omega)]
    omega

theorem decode_hex_spec : ∀ {bs : Bytes}, (∀ b ∈ bs, isHexLc b) → bs.length % 2 = 0 →
    ∃ raw, decode_hex bs = some raw ∧ hexEncode raw = bs ∧ 2 * raw.length = bs.length := by
  intro bs
  induction bs using decode_hex.induct with
  | case1 =>
    intro _ _
    exact ⟨[], rfl, rfl, rfl⟩
  | case2 x =>
    intro _ h
    simp at h
  | case3 a b rest ih =>
    intro hmem hlen
    have ha : isHexLc a := hmem a (by simp)
    have hb : isHexLc b := hmem b (by simp)
    obtain ⟨raw, hraw, henc, hlenr⟩ := ih
      (fun x hx => hmem x (by simp [hx]))
      (by simp only [List.length_cons] at hlen; omega)
    refine ⟨(((if a ≤ 57 then a - 48 else a - 87)) * 16 +
      ((if b ≤ 57 then b - 48 else b - 87))) :: raw, ?_, ?_, ?_⟩
    · rw [decode_hex, hexVal_lc ha, hexVal_lc hb, hraw]
      rfl
    · have hva : (if a ≤ 57 then a - 48 else a - 87) < 16 := by
        rcases ha with h | h
        · rw [if_pos (by omega)]; omega
        · rw [if_neg (by omega)]; omega
      have hvb : (if b ≤ 57 then b - 48 else b - 87) < 16 := by
        rcases hb with h | h
        · rw [if_pos (by omega)]; omega
        · rw [if_neg (by omega)]; omega
      have hx : hexEncode ((((if a ≤ 57 then a - 48 else a - 87)) * 16 +
          ((if b ≤ 57 then b - 48 else b - 87))) :: raw) =
          hexDigitChar ((((if a ≤ 57 then a - 48 else a - 87)) * 16 +
            ((if b ≤ 57 then b - 48 else b - 87))) / 16 % 16) ::
          hexDigitChar ((((if a ≤ 57 then a - 48 else a - 87)) * 16 +
            ((if b ≤ 57 then b - 48 else b - 87))) % 16) :: hexEncode raw := by
        simp [hexEncode]
      rw [hx, henc]
      have e1 : (((if a ≤ 57 then a - 48 else a - 87)) * 16 +
          ((if b ≤ 57 then b - 48 else b - 87))) / 16 % 16 =
          (if a ≤ 57 then a - 48 else a - 87) := by omega
      have e2 : (((if a ≤ 57 then a - 48 else a - 87)) * 16 +
          ((if b ≤ 57 then b - 48 else b - 87))) % 16 =
          (if b ≤ 57 then b - 48 else b - 87) := by omega
      rw [e1, e2, hexDigitChar_val_lc ha, hexDigitChar_val_lc hb]
    · simp only [List.length_cons]
      omega

theorem look_head {α : Type} (k : Bytes) (v : α) (rest : List (Bytes × α)) :
    look ((k, v) :: rest) k = some v := by
  simp [look]

/-! ## Object database lemmas -/

theorem object_path_oid {db : Database} {oid : Bytes} (hlen : oid.length = 40)
    (hascii : ∀ b ∈ oid, b < 128) :
    db.object_path oid = some (joinPath db.path (oid.take 2),
      joinPath (joinPath db.path (oid.take 2)) (oid.drop 2)) := by
  unfold Database.object_path
  rw [if_neg (by omega), if_pos]
  exact ⟨validUtf8_ascii fun b hb => hascii b (List.take_subset _ _ hb),
         validUtf8_ascii fun b hb => hascii b (List.drop_subset _ _ hb)⟩

theorem render_no_space (k : ObjectKind) : 32 ∉ k.render := by
  cases k <;> decide

theorem render_ascii (k : ObjectKind) : ∀ b ∈ k.render, b < 128 := by
  cases k <;> decide

theorem parse_render (k : ObjectKind) : ObjectKind.parse k.render = k := by
  cases k <;> rfl

theorem read_object_framed {db : Database} {fs : FS} {oid kindTok body : Bytes}
    {nn : Nat} (hlen : oid.length = 40) (hascii : ∀ b ∈ oid, b < 128)
    (hlook : look fs.files (joinPath (joinPath db.path (oid.take 2)) (oid.drop 2)) =
      some (zlibDeflate (kindTok ++ [32] ++ (natToDec nn ++ [0] ++ body))))
    (htok : 32 ∉ kindTok) (htokA : ∀ b ∈ kindTok, b < 128) (hnn : nn < 2 ^ 64) :
    db.read_object fs oid = .ok (ObjectKind.parse kindTok, nn, body) := by
  unfold Database.read_object
  rw [object_path_oid hlen hascii]
  simp only [hlook]
  show (let out := zlibInflate (zlibDeflate (kindTok ++ [32] ++ (natToDec nn ++ [0] ++ body))); _) = _
  have hsplit1 : readUntil 32 (kindTok ++ [32] ++ (natToDec nn ++ [0] ++ body)) =
      (kindTok ++ [32], natToDec nn ++ [0] ++ body) := by
    rw [List.append_assoc]
    exact readUntil_split htok
  have hsplit2 : readUntil 0 (natToDec nn ++ [0] ++ body) =
      (natToDec nn ++ [0], body) := by
    rw [List.append_assoc]
    exact readUntil_split (natToDec_not_mem_zero nn)
  have hv1 : validUtf8 (kindTok ++ [32]) = true := by
    apply validUtf8_ascii
    intro b hb
    rcases List.mem_append.1 hb with hb | hb
    · exact htokA b hb
    · simp at hb
      omega
  have hv2 : validUtf8 (natToDec nn ++ [0]) = true := by
    apply validUtf8_ascii
    intro b hb
    rcases List.mem_append.1 hb with hb | hb
    · exact natToDec_ascii nn b hb
    · simp at hb
      omega
  have ht1 : trimEnd 32 (kindTok ++ [32]) = kindTok := by
    have := trimEnd_pad (k := 1) htok
    simpa using this
  have ht2 : trimEnd 0 (natToDec nn ++ [0]) = natToDec nn := by
    have := trimEnd_pad (k := 1) (natToDec_not_mem_zero nn)
    simpa using this
  simp only [zlibInflate, zlibDeflate, hsplit1, hsplit2, hv1, hv2, ht1, ht2,
    if_true, parseU64_natToDec hnn]

theorem serialize_shape {x : Obj} {s : Bytes} (h : x.serialize = some s) :
    ∃ b, x.body = some b ∧
      s = x.kind.render ++ [32] ++ (natToDec b.length ++ [0] ++ b) := by
  cases x with
  | blob d =>
    refine ⟨d, rfl, ?_⟩
    have hs : Blob.serialize d = s := by simpa [Obj.serialize] using h
    rw [← hs]
    show sb "blob " ++ natToDec d.length ++ [0] ++ d =
      ObjectKind.render .blob ++ [32] ++ (natToDec d.length ++ [0] ++ d)
    have hpre : sb "blob " = ObjectKind.render .blob ++ [32] := by decide
    rw [hpre]
    simp [List.append_assoc]
  | tree t =>
    cases t with
    | mk es =>
      cases hbody : Tree.serializeBody es with
      | none =>
        exfalso
        rw [Obj.serialize, Tree.serializeFull, hbody] at h
        simp at h
      | some body =>
        refine ⟨body, by simpa [Obj.body, Tree.entries] using hbody, ?_⟩
        rw [Obj.serialize, Tree.serializeFull, hbody] at h
        simp only [Option.pure_def, Option.bind_eq_bind, Option.some_bind,
          Option.some.injEq] at h
        rw [← h]
        show sb "tree " ++ natToDec body.length ++ [0] ++ body =
          ObjectKind.render .tree ++ [32] ++ (natToDec body.length ++ [0] ++ body)
        have hpre : sb "tree " = ObjectKind.render .tree ++ [32] := by decide
        rw [hpre]
        simp [List.append_assoc]
  | commit c =>
    refine ⟨c.content, rfl, ?_⟩
    have hs : Commit.serialize c = s := by simpa [Obj.serialize] using h
    rw [← hs]
    show sb "commit " ++ natToDec c.content.length ++ [0] ++ c.content =
      ObjectKind.render .commit ++ [32] ++ (natToDec c.content.length ++ [0] ++ c.content)
    have hpre : sb "commit " = ObjectKind.render .commit ++ [32] := by decide
    rw [hpre]
    simp [List.append_assoc]

theorem store_lookup {db : Database} {fs : FS} {x : Obj} {s : Bytes}
    (hser : x.serialize = some s)
    (hfs : look fs.files (joinPath (joinPath db.path ((sha1Hex s).take 2))
        ((sha1Hex s).drop 2)) = none ∨
      look fs.files (joinPath (joinPath db.path ((sha1Hex s).take 2))
        ((sha1Hex s).drop 2)) = some (zlibDeflate s)) :
    ∃ fs2, db.store fs x = some fs2 ∧
      look fs2.files (joinPath (joinPath db.path ((sha1Hex s).take 2))
        ((sha1Hex s).drop 2)) = some (zlibDeflate s) := by
  have hop := @object_path_oid db (sha1Hex s) (sha1Hex_length s) (@sha1Hex_ascii s)
  unfold Database.store
  simp only [hser]
  unfold Database.write
  simp only [hop]
  rcases hfs with hfs | hfs
  · simp only [hfs, Option.isSome_none, Bool.false_eq_true, if_false]
    exact ⟨_, rfl, look_head _ _ _⟩
  · simp only [hfs, Option.isSome_some, if_true]
    exact ⟨fs, rfl, hfs⟩

/-- C1: for every storable object (blob, tree or commit), storing it and
reading it back by its oid returns the same kind, size and body; the oid
is a pure function of the serialized content; and a second store of the
same object returns the store unchanged (idempotence over the oid).  The
store hypothesis says the object path is either still free or already
holds this very content, which is the content-addressing invariant of the
object database. -/
theorem rit_claim_C1 :
    (∀ (db : Database) (fs : FS) (x : Obj) (s b : Bytes),
      x.serialize = some s → x.body = some b → b.length < 2 ^ 64 →
      (look fs.files (joinPath (joinPath db.path ((sha1Hex s).take 2))
          ((sha1Hex s).drop 2)) = none ∨
        look fs.files (joinPath (joinPath db.path ((sha1Hex s).take 2))
          ((sha1Hex s).drop 2)) = some (zlibDeflate s)) →
      ∃ fs2, db.store fs x = some fs2 ∧
        db.read_object fs2 (sha1Hex s) = .ok (x.kind, b.length, b)) ∧
    (∀ (x y : Obj) (sx sy : Bytes), x.serialize = some sx →
      y.serialize = some sy → sx = sy → x.oid = y.oid) ∧
    (∀ (db : Database) (fs fs2 : FS) (x : Obj),
      db.store fs x = some fs2 → db.store fs2 x = some fs2) := by
  refine ⟨?_, ?_, ?_⟩
  · intro db fs x s b hser hbody hblen hfs
    obtain ⟨b2, hbody2, hshape⟩ := serialize_shape hser
    have hb : b2 = b := by
      rw [hbody] at hbody2
      exact (Option.some.injEq _ _ ▸ hbody2.symm)
    subst hb
    obtain ⟨fs2, hstore, hlook⟩ := store_lookup hser hfs
    refine ⟨fs2, hstore, ?_⟩
    have := @read_object_framed db fs2 _ _ _ _
      (sha1Hex_length s) (@sha1Hex_ascii s)
      (by rw [hlook, hshape]) (render_no_space x.kind) (render_ascii x.kind) hblen
    rw [this, parse_render]
  · intro x y sx sy hx hy he
    unfold Obj.oid
    rw [hx, hy, he]
  · intro db fs fs2 x h
    unfold Database.store at h ⊢
    cases hser : x.serialize with
    | none =>
      simp only [hser] at h
      exact absurd h (by simp)
    | some s =>
      simp only [hser] at h ⊢
      unfold Database.write at h ⊢
      cases hop : db.object_path (sha1Hex s) with
      | none =>
        simp only [hop] at h
        exact absurd h (by simp)
      | some dp =>
        obtain ⟨dir, p⟩ := dp
        simp only [hop] at h ⊢
        by_cases hex : (look fs.files p).isSome
        · rw [if_pos hex] at h
          have he : fs = fs2 := by simpa using h
          subst he
          rw [if_pos hex]
        · rw [if_neg hex] at h
          have hfs2 : fs2 = ⟨(p, zlibDeflate s) :: fs.files,
              if dir ∈ fs.dirs then fs.dirs else dir :: fs.dirs⟩ := by
            have := h
            simp only [Option.some.injEq] at this
            exact this.symm
          subst hfs2
          rw [if_pos (by simp [look_head])]

/-- Witness for C1 at a concrete blob on an empty store. -/
theorem rit_claim_C1_witness :
    ∃ fs2, Database.store ⟨sb ".git/objects"⟩ ⟨[], []⟩ blobHello = some fs2 ∧
      Database.read_object ⟨sb ".git/objects"⟩ fs2
        (sha1Hex (Blob.serialize (sb "hello"))) =
        .ok (.blob, (sb "hello").length, sb "hello") :=
  rit_claim_C1.1 ⟨sb ".git/objects"⟩ ⟨[], []⟩ blobHello
    (Blob.serialize (sb "hello")) (sb "hello") rfl rfl (by decide) (Or.inl rfl)

/-- C7 counterexample: an object whose kind token is the unknown word
`xyzzy` is read back successfully as a blob, not rejected as a parse
error. -/
theorem rit_claim_C7_counterexample :
    Database.read_object ⟨[]⟩ fsJunkKind (List.replicate 40 100) =
      .ok (.blob, 0, []) := by
  rfl

/-- C7 as amended: reading fails with a not-found error when the object
path holds no file; a well-framed object parses successfully with
`ObjectKind.parse` applied to its kind token, which maps every token
other than `commit` and `tree` to `blob` rather than failing; and an
unparsable size is an error.  Read failures of the OS and the zlib
checksum live outside the model (in the external crate). -/
theorem rit_claim_C7 :
    (∀ (db : Database) (fs : FS) (oid : Bytes), oid.length = 40 →
      (∀ b ∈ oid, b < 128) →
      look fs.files (joinPath (joinPath db.path (oid.take 2)) (oid.drop 2)) = none →
      db.read_object fs oid = .error .notFound) ∧
    (∀ (db : Database) (fs : FS) (oid kindTok body : Bytes) (nn : Nat),
      oid.length = 40 → (∀ b ∈ oid, b < 128) →
      look fs.files (joinPath (joinPath db.path (oid.take 2)) (oid.drop 2)) =
        some (zlibDeflate (kindTok ++ [32] ++ (natToDec nn ++ [0] ++ body))) →
      32 ∉ kindTok → (∀ b ∈ kindTok, b < 128) → nn < 2 ^ 64 →
      db.read_object fs oid = .ok (ObjectKind.parse kindTok, nn, body)) ∧
    (∀ (db : Database) (fs : FS) (oid kindTok szRaw body : Bytes),
      oid.length = 40 → (∀ b ∈ oid, b < 128) →
      look fs.files (joinPath (joinPath db.path (oid.take 2)) (oid.drop 2)) =
        some (zlibDeflate (kindTok ++ [32] ++ (szRaw ++ [0] ++ body))) →
      32 ∉ kindTok → (∀ b ∈ kindTok, b < 128) →
      0 ∉ szRaw → (∀ b ∈ szRaw, b < 128) → parseU64 szRaw = none →
      db.read_object fs oid = .error .corrupt) := by
  refine ⟨?_, ?_, ?_⟩
  · intro db fs oid hlen hascii hlook
    unfold Database.read_object
    rw [object_path_oid hlen hascii]
    simp only [hlook]
  · intro db fs oid kindTok body nn hlen hascii hlook htok htokA hnn
    exact read_object_framed hlen hascii hlook htok htokA hnn
  · intro db fs oid kindTok szRaw body hlen hascii hlook htok htokA hsz hszA hparse
    unfold Database.read_object
    rw [object_path_oid hlen hascii]
    simp only [hlook]
    have hsplit1 : readUntil 32 (kindTok ++ [32] ++ (szRaw ++ [0] ++ body)) =
        (kindTok ++ [32], szRaw ++ [0] ++ body) := by
      rw [List.append_assoc]
      exact readUntil_split htok
    have hsplit2 : readUntil 0 (szRaw ++ [0] ++ body) = (szRaw ++ [0], body) := by
      rw [List.append_assoc]
      exact readUntil_split hsz
    have hv1 : validUtf8 (kindTok ++ [32]) = true := by
      apply validUtf8_ascii
      intro b hb
      rcases List.mem_append.1 hb with hb | hb
      · exact htokA b hb
      · simp at hb
        omega
    have hv2 : validUtf8 (szRaw ++ [0]) = true := by
      apply validUtf8_ascii
      intro b hb
      rcases List.mem_append.1 hb with hb | hb
      · exact hszA b hb
      · simp at hb
        omega
    have ht2 : trimEnd 0 (szRaw ++ [0]) = szRaw := by
      have := trimEnd_pad (k := 1) hsz
      simpa using this
    simp only [zlibInflate, zlibDeflate, hsplit1, hsplit2, hv1, hv2, ht2,
      if_true, hparse]

/-- Witness for C7 at concrete inputs: a missing object reports not
found, and an object with a malformed (empty) size field is corrupt. -/
theorem rit_claim_C7_witness :
    Database.read_object ⟨[]⟩ ⟨[], []⟩ (List.replicate 40 100) =
        .error .notFound ∧
    Database.read_object ⟨[]⟩
        ⟨[(pathOfOid (List.replicate 40 101), sb "blob " ++ [0] ++ sb "x")], []⟩
        (List.replicate 40 101) = .error .corrupt := by
  constructor
  · exact rit_claim_C7.1 ⟨[]⟩ ⟨[], []⟩ (List.replicate 40 100) (by decide)
      (by decide) rfl
  · exact rit_claim_C7.2.2 ⟨[]⟩ _ (List.replicate 40 101) (sb "blob") [] (sb "x")
      (by decide) (by decide) rfl (by decide) (by decide) (by decide) (by decide)
      rfl

/-- C8 counterexample: with a two-character prefix whose shard directory
does not exist, `prefix_match` propagates the `read_dir` error instead of
returning an empty slice. -/
theorem rit_claim_C8_counterexample :
    Database.prefix_match ⟨[]⟩ ⟨[], []⟩ (sb "ab") = .error () := by
  rfl

/-- C8 as amended: for a prefix of length at least 2, `prefix_match`
lists the shard directory named by the first two characters and returns
exactly the shard-prepended filenames starting with the prefix — but when
the shard directory is absent it returns an error (the `?` on `read_dir`
propagates), not an empty slice; the empty-slice fallthrough is reachable
only when `object_path` itself fails. -/
theorem rit_claim_C8 :
    ∀ (db : Database) (fs : FS) (name : Bytes), 2 ≤ name.length →
      (∀ b ∈ name, b < 128) →
      (joinPath db.path (name.take 2) ∉ fs.dirs →
        db.prefix_match fs name = .error ()) ∧
      (joinPath db.path (name.take 2) ∈ fs.dirs →
        ∃ l, db.prefix_match fs name = .ok l ∧
          ∀ e, e ∈ l ↔ startsWithB name e = true ∧
            ∃ n, n ∈ fs.listDir (joinPath db.path (name.take 2)) ∧
              e = name.take 2 ++ n) := by
  intro db fs name hlen hascii
  have hop : db.object_path name = some (joinPath db.path (name.take 2),
      joinPath (joinPath db.path (name.take 2)) (name.drop 2)) := by
    unfold Database.object_path
    rw [if_neg (by omega), if_pos]
    exact ⟨validUtf8_ascii fun b hb => hascii b (List.take_subset _ _ hb),
           validUtf8_ascii fun b hb => hascii b (List.drop_subset _ _ hb)⟩
  constructor
  · intro habs
    unfold Database.prefix_match
    rw [hop]
    simp only [if_neg habs]
  · intro hdir
    unfold Database.prefix_match
    rw [hop]
    simp only [if_pos hdir]
    refine ⟨_, rfl, ?_⟩
    intro e
    constructor
    · intro he
      rw [List.mem_filter] at he
      obtain ⟨hmem, hpfx⟩ := he
      rw [List.mem_map] at hmem
      obtain ⟨n, hn, rfl⟩ := hmem
      exact ⟨hpfx, n, hn, rfl⟩
    · rintro ⟨hpfx, n, hn, rfl⟩
      rw [List.mem_filter]
      exact ⟨List.mem_map.2 ⟨n, hn, rfl⟩, hpfx⟩

/-- Witness for C8 at a concrete shard directory holding three files,
two of which extend the requested prefix. -/
theorem rit_claim_C8_witness :
    (sb "ab" ∉ FS.dirs ⟨[], []⟩ →
      Database.prefix_match ⟨[]⟩ ⟨[], []⟩ (sb "abc") = .error ()) ∧
    (sb "ab" ∈ fsShard.dirs →
      ∃ l, Database.prefix_match ⟨[]⟩ fsShard (sb "abc") = .ok l ∧
        ∀ e, e ∈ l ↔ startsWithB (sb "abc") e = true ∧
          ∃ n, n ∈ fsShard.listDir (sb "ab") ∧ e = sb "ab" ++ n) := by
  constructor
  · have := (rit_claim_C8 ⟨[]⟩ ⟨[], []⟩ (sb "abc") (by decide) (by decide)).1
    intro h
    exact this (by simp)
  · have := (rit_claim_C8 ⟨[]⟩ fsShard (sb "abc") (by decide) (by decide)).2
    intro h
    simpa using this (by simpa using h)

/-! ## Myers diff and lockfile -/

/-- C5: diffing two empty inputs panics.  `Myers::from("", "")` yields two
empty line lists, `max = 0`, `MyersGraph::new(0)` allocates a single
cell, and the seed write `v[1] = Some(0)` indexes out of bounds.  The
claim (reconstruction of B plus minimality of the edit count, here the
empty edit list at distance 0) is the evident intent — the Ruby original
this port follows auto-extends its array here — so the code, not the
claim, is wrong at this input.  On every non-empty input pair exercised
by the unit tests of the source, the model reproduces the expected edit
scripts exactly. -/
theorem rit_claim_C5 : myersDiffStr [] [] = none := by
  rfl

/-- C6: acquisition of a lockfile whose sidecar `.lock` already exists
does not return an AlreadyLocked error to the caller: the source unwraps
the create-exclusive open with `.expect`, so the process panics
(`TryLockResult.panicked`).  When the sidecar is absent, acquisition
creates it with create-exclusive semantics.  The `Result` return type of
`try_lock` and the spec both show the error return is the intent, so this
is recorded as a code bug. -/
theorem rit_claim_C6 :
    (Lockfile.new (sb ".git/index")).map
        (Lockfile.try_lock [sb ".git/index.lock"]) = some .panicked ∧
    (Lockfile.new (sb ".git/index")).map (Lockfile.try_lock []) =
      some (.acquired [sb ".git/index.lock"]) := by
  exact ⟨rfl, rfl⟩

/-! ## Path ordering lemmas (for the migration applier) -/

theorem bytesCmp_eq_iff : ∀ {a b : Bytes}, bytesCmp a b = .eq ↔ a = b := by
  intro a
  induction a with
  | nil =>
    intro b
    cases b <;> simp [bytesCmp]
  | cons x xs ih =>
    intro b
    cases b with
    | nil => simp [bytesCmp]
    | cons y ys =>
      by_cases h1 : x < y
      · simp only [bytesCmp, if_pos h1]
        constructor
        · intro h
          exact absurd h (by decide)
        · intro h
          injection h with h4 h5
          omega
      · by_cases h2 : y < x
        · simp only [bytesCmp, if_neg h1, if_pos h2]
          constructor
          · intro h
            exact absurd h (by decide)
          · intro h
            injection h with h4 h5
            omega
        · have hxy : x = y := by omega
          subst hxy
          simp only [bytesCmp, if_neg h1, if_neg h2]
          rw [ih]
          simp

theorem bytesCmp_gt_iff : ∀ {a b : Bytes}, bytesCmp a b = .gt ↔ bytesCmp b a = .lt := by
  intro a
  induction a with
  | nil =>
    intro b
    cases b <;> simp [bytesCmp]
  | cons x xs ih =>
    intro b
    cases b with
    | nil => simp [bytesCmp]
    | cons y ys =>
      by_cases h1 : x < y
      · simp only [bytesCmp, if_pos h1, if_neg (by omega : ¬ y < x)]
        constructor <;> (intro h; exact absurd h (by simp))
      · by_cases h2 : y < x
        · simp [bytesCmp, if_neg h1, if_pos h2]
        · have hxy : x = y := by omega
          subst hxy
          simp only [bytesCmp, if_neg h1, if_neg h2]
          exact ih

theorem bytesCmp_lt_trans : ∀ {a b c : Bytes}, bytesCmp a b = .lt →
    bytesCmp b c = .lt → bytesCmp a c = .lt := by
  intro a
  induction a with
  | nil =>
    intro b c hab hbc
    cases c with
    | nil =>
      cases b with
      | nil => exact hab
      | cons y ys => simp [bytesCmp] at hbc
    | cons z zs => simp [bytesCmp]
  | cons x xs ih =>
    intro b c hab hbc
    cases b with
    | nil => simp [bytesCmp] at hab
    | cons y ys =>
      cases c with
      | nil => simp [bytesCmp] at hbc
      | cons z zs =>
        by_cases h1 : x < y
        · by_cases h2 : y < z
          · simp [bytesCmp, show x < z by omega]
          · by_cases h3 : z < y
            · simp only [bytesCmp, if_neg h2, if_pos h3] at hbc
              exact absurd hbc (by decide)
            · have : y = z := by omega
              subst this
              simp [bytesCmp, h1]
        · by_cases h1b : y < x
          · simp only [bytesCmp, if_neg h1, if_pos h1b] at hab
            exact absurd hab (by decide)
          · have hxy : x = y := by omega
            subst hxy
            simp only [bytesCmp, if_neg h1, if_neg h1b] at hab
            by_cases h2 : x < z
            · simp [bytesCmp, h2]
            · by_cases h3 : z < x
              · simp only [bytesCmp, if_neg h2, if_pos h3] at hbc
                exact absurd hbc (by decide)
              · have : x = z := by omega
                subst this
                simp only [bytesCmp, if_neg h2, if_neg h3] at hbc ⊢
                exact ih hab hbc

theorem compsCmp_eq_iff : ∀ {a b : List Bytes}, compsCmp a b = .eq ↔ a = b := by
  intro a
  induction a with
  | nil =>
    intro b
    cases b <;> simp [compsCmp]
  | cons x xs ih =>
    intro b
    cases b with
    | nil => simp [compsCmp]
    | cons y ys =>
      cases hxy : bytesCmp x y with
      | eq =>
        have : x = y := bytesCmp_eq_iff.1 hxy
        subst this
        simp only [compsCmp, hxy]
        rw [ih]
        simp
      | lt =>
        simp only [compsCmp, hxy]
        constructor
        · intro h; exact absurd h (by simp)
        · intro h
          simp at h
          rw [h.1] at hxy
          rw [bytesCmp_eq_iff.2 rfl] at hxy
          exact absurd hxy (by simp)
      | gt =>
        simp only [compsCmp, hxy]
        constructor
        · intro h; exact absurd h (by simp)
        · intro h
          simp at h
          rw [h.1] at hxy
          rw [bytesCmp_eq_iff.2 rfl] at hxy
          exact absurd hxy (by simp)

theorem compsCmp_gt_iff : ∀ {a b : List Bytes},
    compsCmp a b = .gt ↔ compsCmp b a = .lt := by
  intro a
  induction a with
  | nil =>
    intro b
    cases b <;> simp [compsCmp]
  | cons x xs ih =>
    intro b
    cases b with
    | nil => simp [compsCmp]
    | cons y ys =>
      cases hxy : bytesCmp x y with
      | eq =>
        have : x = y := bytesCmp_eq_iff.1 hxy
        subst this
        simp only [compsCmp, hxy]
        exact ih
      | lt =>
        have hyx : bytesCmp y x = .gt := by
          rw [bytesCmp_gt_iff]
          exact hxy
        simp only [compsCmp, hxy, hyx]
        constructor <;> (intro h; exact absurd h (by simp))
      | gt =>
        have hyx : bytesCmp y x = .lt := bytesCmp_gt_iff.1 hxy
        simp [compsCmp, hxy, hyx]

theorem compsCmp_lt_trans : ∀ {a b c : List Bytes}, compsCmp a b = .lt →
    compsCmp b c = .lt → compsCmp a c = .lt := by
  intro a
  induction a with
  | nil =>
    intro b c hab hbc
    cases c with
    | nil =>
      cases b with
      | nil => exact hab
      | cons y ys => simp [compsCmp] at hbc
    | cons z zs => simp [compsCmp]
  | cons x xs ih =>
    intro b c hab hbc
    cases b with
    | nil => simp [compsCmp] at hab
    | cons y ys =>
      cases c with
      | nil => simp [compsCmp] at hbc
      | cons z zs =>
        cases hxy : bytesCmp x y with
        | gt => simp [compsCmp, hxy] at hab
        | lt =>
          cases hyz : bytesCmp y z with
          | gt => simp [compsCmp, hyz] at hbc
          | lt =>
            have := bytesCmp_lt_trans hxy hyz
            simp [compsCmp, this]
          | eq =>
            have : y = z := bytesCmp_eq_iff.1 hyz
            subst this
            simp [compsCmp, hxy]
        | eq =>
          have : x = y := bytesCmp_eq_iff.1 hxy
          subst this
          cases hyz : bytesCmp x z with
          | gt => simp [compsCmp, hyz] at hbc
          | lt => simp [compsCmp, hyz]
          | eq =>
            simp only [compsCmp, hxy] at hab
            simp only [compsCmp, hyz] at hbc ⊢
            exact ih hab hbc

/-- The non-strict path order used for sortedness statements. -/
def pathLe (a b : Bytes) : Prop := pathCmp a b ≠ .gt

theorem pathLe_total {a b : Bytes} (h : ¬ pathLe a b) : pathLe b a := by
  unfold pathLe pathCmp at *
  have hgt : compsCmp (splitOn 47 a) (splitOn 47 b) = .gt := not_not.1 h
  intro hba
  rw [compsCmp_gt_iff] at hgt
  rw [hba] at hgt
  exact absurd hgt (by decide)

theorem pathLe_trans {a b c : Bytes} (hab : pathLe a b) (hbc : pathLe b c) :
    pathLe a c := by
  unfold pathLe pathCmp at *
  rcases h1 : compsCmp (splitOn 47 a) (splitOn 47 b) with _ | _ | _
  · rcases h2 : compsCmp (splitOn 47 b) (splitOn 47 c) with _ | _ | _
    · rw [compsCmp_lt_trans h1 h2]
      simp
    · rw [← compsCmp_eq_iff.1 h2, h1]
      simp
    · exact absurd h2 hbc
  · rw [compsCmp_eq_iff.1 h1]
    exact hbc
  · exact absurd h1 hab

theorem pathLt_le {a b : Bytes} (h : pathCmp a b = .lt) : pathLe a b := by
  unfold pathLe
  rw [h]
  simp

theorem insertSorted_pairwise {x : Bytes} :
    ∀ {l : List Bytes}, l.Pairwise pathLe → (insertSorted x l).Pairwise pathLe := by
  intro l
  induction l with
  | nil =>
    intro _
    simp [insertSorted]
  | cons y ys ih =>
    intro hp
    rw [List.pairwise_cons] at hp
    obtain ⟨hy, hys⟩ := hp
    unfold insertSorted
    by_cases hc : pathCmp x y = .lt
    · rw [if_pos hc]
      refine List.Pairwise.cons ?_ (List.Pairwise.cons hy hys)
      intro z hz
      rcases List.mem_cons.1 hz with rfl | hz
      · exact pathLt_le hc
      · exact pathLe_trans (pathLt_le hc) (hy z hz)
    · rw [if_neg hc]
      refine List.Pairwise.cons ?_ (ih hys)
      have hyx : pathLe y x := by
        intro hgt
        exact hc (compsCmp_gt_iff.1 hgt)
      intro z hz
      have hmem : z = x ∨ z ∈ ys := by
        have hsub : ∀ {w : Bytes} {ls : List Bytes}, w ∈ insertSorted x ls →
            w = x ∨ w ∈ ls := by
          intro w ls
          induction ls with
          | nil =>
            intro hw
            simp [insertSorted] at hw
            exact Or.inl hw
          | cons u us ihu =>
            intro hw
            unfold insertSorted at hw
            by_cases hcu : pathCmp x u = .lt
            · rw [if_pos hcu] at hw
              rcases List.mem_cons.1 hw with rfl | hw
              · exact Or.inl rfl
              · exact Or.inr hw
            · rw [if_neg hcu] at hw
              rcases List.mem_cons.1 hw with rfl | hw
              · exact Or.inr (by simp)
              · rcases ihu hw with h | h
                · exact Or.inl h
                · exact Or.inr (by simp [h])
        exact hsub hz
      rcases hmem with rfl | hz2
      · exact hyx
      · exact hy z hz2

theorem sortPaths_pairwise (xs : List Bytes) : (sortPaths xs).Pairwise pathLe := by
  unfold sortPaths
  induction xs with
  | nil => simp
  | cons x rest ih =>
    rw [List.foldr_cons]
    exact insertSorted_pairwise ih

/-! ## Migration applier lemmas -/

theorem runStage_spec {α : Type} (step : Ws → α → Except WsErr Ws) (mk : α → WsOp) :
    ∀ (xs : List α) (ws : Ws),
      (runStage step mk ws xs).1 <+: xs.map mk ∧
      (∀ ws2, (runStage step mk ws xs).2 = .ok ws2 →
        (runStage step mk ws xs).1 = xs.map mk) := by
  intro xs
  induction xs with
  | nil =>
    intro ws
    exact ⟨List.nil_prefix, fun _ _ => rfl⟩
  | cons x rest ih =>
    intro ws
    cases hstep : step ws x with
    | ok ws2 =>
      have he : runStage step mk ws (x :: rest) =
          (mk x :: (runStage step mk ws2 rest).1, (runStage step mk ws2 rest).2) := by
        simp only [runStage, hstep]
      obtain ⟨hpre, hok⟩ := ih ws2
      rw [he]
      constructor
      · simp only [List.map_cons]
        obtain ⟨t, ht⟩ := hpre
        exact ⟨t, by rw [List.cons_append, ht]⟩
      · intro ws3 h3
        simp only [List.map_cons]
        rw [hok ws3 h3]
    | error err =>
      have he : runStage step mk ws (x :: rest) = ([mk x], .error err) := by
        simp only [runStage, hstep]
      rw [he]
      constructor
      · exact ⟨rest.map mk, by simp⟩
      · intro ws3 h3
        simp at h3

theorem stageSeq_spec {l1 l2 : List WsOp} {r : List WsOp × Except WsErr Ws}
    {next : Ws → List WsOp × Except WsErr Ws}
    (h1 : r.1 <+: l1 ∧ ∀ ws2, r.2 = .ok ws2 → r.1 = l1)
    (h2 : ∀ ws, (next ws).1 <+: l2 ∧
      ∀ ws2, (next ws).2 = .ok ws2 → (next ws).1 = l2) :
    (stageSeq r next).1 <+: l1 ++ l2 ∧
      ∀ ws2, (stageSeq r next).2 = .ok ws2 → (stageSeq r next).1 = l1 ++ l2 := by
  cases hr : r.2 with
  | ok ws =>
    have he : stageSeq r next = (r.1 ++ (next ws).1, (next ws).2) := by
      simp only [stageSeq, hr]
    have hfull : r.1 = l1 := h1.2 ws hr
    obtain ⟨hpre2, hok2⟩ := h2 ws
    rw [he, hfull]
    constructor
    · obtain ⟨t, ht⟩ := hpre2
      exact ⟨t, by rw [← ht, List.append_assoc]⟩
    · intro ws2 hok
      rw [hok2 ws2 hok]
  | error e =>
    have he : stageSeq r next = r := by
      simp only [stageSeq, hr]
    rw [he]
    constructor
    · exact h1.1.trans (List.prefix_append l1 l2)
    · intro ws2 h
      rw [hr] at h
      simp at h

/-- C9 counterexample: for the plan whose rmdirs are `a/b` and `z`, the
applier attempts `z` (depth 1) before `a/b` (depth 2) — the reverse
lexicographic order, not descending depth — and when `z` is not empty the
rmdir error aborts the migration (the trace stops) instead of being
ignored. -/
theorem rit_claim_C9_counterexample :
    (Workspace.apply_migration ⟨[]⟩ ⟨[], []⟩ migRmdirs wsEmptyDirs).1 =
      [.rmdir (sb "z"), .rmdir (sb "a/b")] ∧
    pathDepth (sb "z") < pathDepth (sb "a/b") ∧
    (Workspace.apply_migration ⟨[]⟩ ⟨[], []⟩ migRmdirs wsBusyZ).2 =
      .error .ioErr ∧
    (Workspace.apply_migration ⟨[]⟩ ⟨[], []⟩ migRmdirs wsBusyZ).1 =
      [.rmdir (sb "z")] := by
  exact ⟨rfl, by decide, rfl, rfl⟩

/-- C9 as amended: the sub-steps run in the fixed order removes, rmdirs,
mkdirs, creates, updates; the executed trace is always a prefix of the
full ordered trace, and equals it exactly when the migration succeeds, so
any failing sub-step (including a not-empty rmdir, whose error the `?`
propagates) aborts the remainder; and the rmdir segment is the reverse of
the `PathBuf`-sorted rmdir list — reverse lexicographic order, which
attempts every directory before its ancestors but is not sorted by
depth. -/
theorem rit_claim_C9 :
    ∀ (db : Database) (dbfs : FS) (m : MigrationM) (ws : Ws),
      (Workspace.apply_migration db dbfs m ws).1 <+: fullTrace m ∧
      (∀ ws2, (Workspace.apply_migration db dbfs m ws).2 = .ok ws2 →
        (Workspace.apply_migration db dbfs m ws).1 = fullTrace m) ∧
      (sortPaths m.rmdirs).Pairwise pathLe := by
  intro db dbfs m ws
  have hmain :
      (Workspace.apply_migration db dbfs m ws).1 <+: fullTrace m ∧
      ∀ ws2, (Workspace.apply_migration db dbfs m ws).2 = .ok ws2 →
        (Workspace.apply_migration db dbfs m ws).1 = fullTrace m := by
    unfold Workspace.apply_migration fullTrace
    apply stageSeq_spec
    · apply stageSeq_spec
      · apply stageSeq_spec
        · apply stageSeq_spec
          · exact runStage_spec _ _ m.removes ws
          · intro ws1
            exact runStage_spec _ _ ((sortPaths m.rmdirs).reverse) ws1
        · intro ws2
          exact runStage_spec _ _ (sortPaths m.mkdirs) ws2
      · intro ws3
        exact runStage_spec _ _ m.creates ws3
    · intro ws4
      exact runStage_spec _ _ m.updates ws4
  exact ⟨hmain.1, hmain.2, sortPaths_pairwise m.rmdirs⟩

/-- Witness for C9: a successful (empty) migration executes exactly its
full trace, and the counterexample plan executes a strict prefix. -/
theorem rit_claim_C9_witness :
    (Workspace.apply_migration ⟨[]⟩ ⟨[], []⟩ ⟨[], [], [], [], []⟩ wsEmptyDirs).1 =
        fullTrace ⟨[], [], [], [], []⟩ ∧
    (Workspace.apply_migration ⟨[]⟩ ⟨[], []⟩ migRmdirs wsBusyZ).1 <+:
        fullTrace migRmdirs :=
  ⟨(rit_claim_C9 ⟨[]⟩ ⟨[], []⟩ ⟨[], [], [], [], []⟩ wsEmptyDirs).2.1
      wsEmptyDirs rfl,
   (rit_claim_C9 ⟨[]⟩ ⟨[], []⟩ migRmdirs wsBusyZ).1⟩

/-! ## UTF-8, line and token lemmas -/

theorem utf8Go_zero_state (ys : Bytes) (lo hi : Nat) :
    utf8Go ys 0 lo hi = utf8Go ys 0 0 0 := by
  cases ys <;> rfl

theorem utf8Go_append {ys : Bytes} (hys : validUtf8 ys = true) :
    ∀ {xs : Bytes} {n lo hi : Nat}, utf8Go xs n lo hi = true →
      utf8Go (xs ++ ys) n lo hi = true := by
  intro xs
  induction xs with
  | nil =>
    intro n lo hi h
    have hn : n = 0 := by
      rw [utf8Go] at h
      simpa using h
    subst hn
    rw [List.nil_append, utf8Go_zero_state]
    exact hys
  | cons b rest ih =>
    intro n lo hi h
    cases n with
    | zero =>
      rw [utf8Go] at h
      rw [List.cons_append, utf8Go]
      cases hc : utf8Class b with
      | none =>
        rw [hc] at h
        simp at h
      | some t =>
        obtain ⟨k, lo2, hi2⟩ := t
        rw [hc] at h
        exact ih h
    | succ m =>
      rw [utf8Go] at h
      rw [List.cons_append, utf8Go]
      by_cases hr : lo ≤ b ∧ b ≤ hi
      · rw [if_pos hr] at h
        rw [if_pos hr]
        exact ih h
      · rw [if_neg hr] at h
        simp at h

theorem validUtf8_append {xs ys : Bytes} (hx : validUtf8 xs = true)
    (hy : validUtf8 ys = true) : validUtf8 (xs ++ ys) = true :=
  utf8Go_append hy hx

theorem splitOn_ne_nil (sep : Nat) : ∀ (bs : Bytes), splitOn sep bs ≠ [] := by
  intro bs
  cases bs with
  | nil => simp [splitOn]
  | cons b rest =>
    rw [splitOn]
    by_cases h : b = sep
    · simp [h]
    · rw [if_neg h]
      cases splitOn sep rest <;> simp

theorem splitOn_append_sep {sep : Nat} :
    ∀ {xs rest : Bytes}, sep ∉ xs →
      splitOn sep (xs ++ sep :: rest) = xs :: splitOn sep rest := by
  intro xs
  induction xs with
  | nil =>
    intro rest _
    rw [List.nil_append, splitOn, if_pos rfl]
  | cons b bs ih =>
    intro rest h
    have hb : ¬ b = sep := fun e => h (by simp [e])
    rw [List.cons_append, splitOn, if_neg hb, ih (fun hm => h (by simp [hm]))]

theorem splitLines_cons_line {xs rest : Bytes} (h10 : 10 ∉ xs) (h13 : 13 ∉ xs) :
    splitLines (xs ++ 10 :: rest) = xs :: splitLines rest := by
  unfold splitLines
  rw [splitOn_append_sep h10]
  have hne := splitOn_ne_nil 10 rest
  have hdte : dropTrailingEmpty (xs :: splitOn 10 rest) =
      xs :: dropTrailingEmpty (splitOn 10 rest) := by
    unfold dropTrailingEmpty
    have hlast : (xs :: splitOn 10 rest).getLast? = (splitOn 10 rest).getLast? := by
      cases hsp : splitOn 10 rest with
      | nil => exact absurd hsp hne
      | cons p ps => simp
    rw [hlast]
    by_cases hend : (splitOn 10 rest).getLast? = some []
    · rw [if_pos hend, if_pos hend]
      cases hsp : splitOn 10 rest with
      | nil => exact absurd hsp hne
      | cons p ps => simp
    · rw [if_neg hend, if_neg hend]
  rw [hdte]
  simp only [List.map_cons]
  rw [trimEnd_no_mem h13]

theorem dropWhile_head_neg {p : Nat → Bool} :
    ∀ {l : Bytes}, l ≠ [] → p (l.headD 0) = false → l.dropWhile p = l := by
  intro l
  cases l with
  | nil => intro h _; exact absurd rfl h
  | cons b rest =>
    intro _ hp
    simp only [List.headD_cons] at hp
    rw [List.dropWhile_cons_of_neg (by simp [hp])]

theorem trimB_id {l : Bytes} (hne : l ≠ []) (hhead : isWs (l.headD 0) = false)
    (hrev : isWs (l.reverse.headD 0) = false) : trimB l = l := by
  unfold trimB
  rw [dropWhile_head_neg hne (by simpa using hhead),
    dropWhile_head_neg (by simpa using hne) (by simpa using hrev),
    List.reverse_reverse]

theorem wsTokens_ws_cons {w : Nat} (hw : isWs w = true) (l : Bytes) :
    wsTokens (w :: l) = wsTokens l := by
  rw [wsTokens.eq_def]
  simp only [hw, if_true]

theorem wsTokens_nonws_singleton {b : Nat} (hb : isWs b = false) :
    wsTokens [b] = [[b]] := by
  rw [wsTokens.eq_def]
  simp only [hb, Bool.false_eq_true, if_false]

theorem wsTokens_nonws_ws {b c : Nat} (hb : isWs b = false) (hc : isWs c = true)
    (cs : Bytes) : wsTokens (b :: c :: cs) = [b] :: wsTokens (c :: cs) := by
  rw [wsTokens.eq_def]
  simp only [hb, hc, Bool.false_eq_true, if_false, if_true]

theorem wsTokens_nonws_nonws {b c : Nat} (hb : isWs b = false) (hc : isWs c = false)
    (cs : Bytes) : wsTokens (b :: c :: cs) =
      match wsTokens (c :: cs) with
      | t :: ts => (b :: t) :: ts
      | [] => [[b]] := by
  rw [wsTokens.eq_def]
  simp only [hb, hc, Bool.false_eq_true, if_false]

theorem wsTokens_cons_shape {c : Nat} (hc : isWs c = false) (l : Bytes) :
    ∃ t ts, wsTokens (c :: l) = t :: ts := by
  cases l with
  | nil => exact ⟨[c], [], wsTokens_nonws_singleton hc⟩
  | cons d rest =>
    by_cases hd : isWs d
    · exact ⟨[c], wsTokens (d :: rest), wsTokens_nonws_ws hc hd rest⟩
    · have hd' : isWs d = false := by simpa using hd
      rw [wsTokens_nonws_nonws hc hd']
      cases h : wsTokens (d :: rest) with
      | nil => exact ⟨[c], [], rfl⟩
      | cons t ts => exact ⟨c :: t, ts, rfl⟩

theorem wsTokens_split {w : Nat} (hw : isWs w = true) :
    ∀ (xs ys : Bytes), wsTokens (xs ++ w :: ys) = wsTokens xs ++ wsTokens ys := by
  intro xs
  induction xs with
  | nil =>
    intro ys
    rw [List.nil_append, wsTokens_ws_cons hw]
    rfl
  | cons b rest ih =>
    intro ys
    by_cases hb : isWs b
    · rw [List.cons_append, wsTokens_ws_cons hb, wsTokens_ws_cons hb, ih]
    · have hb' : isWs b = false := by simpa using hb
      cases rest with
      | nil =>
        rw [List.cons_append, List.nil_append, wsTokens_nonws_ws hb' hw,
          wsTokens_ws_cons hw, wsTokens_nonws_singleton hb']
        rfl
      | cons c cs =>
        by_cases hc : isWs c
        · rw [List.cons_append, List.cons_append, wsTokens_nonws_ws hb' hc,
            ← List.cons_append, ih, wsTokens_nonws_ws hb' hc]
          rfl
        · have hc' : isWs c = false := by simpa using hc
          obtain ⟨t0, ts0, hsh⟩ := wsTokens_cons_shape hc' cs
          have hih := ih ys
          rw [List.cons_append] at hih
          rw [List.cons_append, List.cons_append, wsTokens_nonws_nonws hb' hc',
            hih, hsh, wsTokens_nonws_nonws hb' hc', hsh]
          rfl

theorem headD_mem {l : Bytes} (h : l ≠ []) (d : Nat) : l.headD d ∈ l := by
  cases l with
  | nil => exact absurd rfl h
  | cons a t => simp

theorem headD_append_left {a : Bytes} (h : a ≠ []) (b : Bytes) (d : Nat) :
    (a ++ b).headD d = a.headD d := by
  cases a with
  | nil => exact absurd rfl h
  | cons x t => rfl

theorem not_mem_of_all_nonws {w : Nat} (hw : isWs w = true) {T : Bytes}
    (h : ∀ b ∈ T, isWs b = false) : w ∉ T := by
  intro hm
  have := h w hm
  rw [hw] at this
  exact absurd this (by simp)

theorem trimB_line {x T : Bytes} (hx : x ≠ []) (hxh : isWs (x.headD 0) = false)
    (hT : T ≠ []) (hTl : isWs (T.reverse.headD 0) = false) :
    trimB (x ++ T) = x ++ T := by
  apply trimB_id
  · simp [hx]
  · rw [headD_append_left hx]
    exact hxh
  · rw [List.reverse_append, headD_append_left (by simp [hT])]
    exact hTl

theorem wsTokens_all_nonws : ∀ {l : Bytes}, l ≠ [] → (∀ b ∈ l, isWs b = false) →
    wsTokens l = [l] := by
  intro l
  induction l with
  | nil => intro h _; exact absurd rfl h
  | cons b rest ih =>
    intro _ h
    have hb : isWs b = false := h b (by simp)
    cases rest with
    | nil => exact wsTokens_nonws_singleton hb
    | cons c cs =>
      have hc : isWs c = false := h c (by simp)
      rw [wsTokens_nonws_nonws hb hc, ih (by simp) (fun x hx => h x (by simp [hx]))]

theorem wsTokens_ws_absorb : ∀ {r : Bytes}, (∀ b ∈ r, isWs b = true) →
    ∀ (l : Bytes), wsTokens (r ++ l) = wsTokens l := by
  intro r
  induction r with
  | nil => intro _ l; rfl
  | cons w rest ih =>
    intro h l
    rw [List.cons_append, wsTokens_ws_cons (h w (by simp)),
      ih (fun b hb => h b (by simp [hb])) l]

theorem parseHeaderLoop_blank {hm : List (Bytes × Bytes)} {rest : List Bytes} :
    parseHeaderLoop hm ([] :: rest) = some (hm, rest) := by
  simp [parseHeaderLoop, trimB]

theorem parseHeaderLoop_step {hm : List (Bytes × Bytes)} {l : Bytes}
    {rest : List Bytes} {key : Bytes} {vals : List Bytes} (hne : trimB l ≠ [])
    (htok : wsTokens (trimB l) = key :: vals) :
    parseHeaderLoop hm (l :: rest) =
      parseHeaderLoop (hmInsert hm key (joinBy [32] vals)) rest := by
  rw [parseHeaderLoop, if_neg hne, htok]

theorem look_unbind_ne {α : Type} {k key : Bytes} (hne : key ≠ k) :
    ∀ (m : List (Bytes × α)), look (unbind m k) key = look m key := by
  intro m
  induction m with
  | nil => rfl
  | cons p rest ih =>
    obtain ⟨a, v⟩ := p
    rw [unbind]
    by_cases ha : a = k
    · rw [if_pos ha, ih, look, if_neg (by rw [ha]; exact fun e => hne e.symm)]
    · rw [if_neg ha, look, look, ih]

theorem look_hmInsert_self {α : Type} (m : List (Bytes × α)) (k : Bytes) (v : α) :
    look (hmInsert m k v) k = some v := by
  rw [hmInsert]
  exact look_head k v (unbind m k)

theorem look_hmInsert_ne {α : Type} {k key : Bytes} (hne : key ≠ k)
    (m : List (Bytes × α)) (v : α) : look (hmInsert m k v) key = look m key := by
  rw [hmInsert, look, if_neg (fun e => hne e.symm), look_unbind_ne hne]

theorem look_insertAll_not_mem {k : Bytes} :
    ∀ {kvs : List (Bytes × Bytes)}, (∀ kv ∈ kvs, kv.1 ≠ k) →
      ∀ (m : List (Bytes × Bytes)), look (insertAll m kvs) k = look m k := by
  intro kvs
  induction kvs with
  | nil => intro _ m; rfl
  | cons kv rest ih =>
    intro h m
    rw [insertAll, ih (fun p hp => h p (by simp [hp])),
      look_hmInsert_ne (fun e => h kv (by simp) e.symm)]

theorem look_insertAll_mem {k : Bytes} {v : Bytes} :
    ∀ {kvs : List (Bytes × Bytes)}, (kvs.map Prod.fst).Nodup → (k, v) ∈ kvs →
      ∀ (m : List (Bytes × Bytes)), look (insertAll m kvs) k = some v := by
  intro kvs
  induction kvs with
  | nil => intro _ hmem; exact absurd hmem (by simp)
  | cons kv rest ih =>
    intro hnd hmem m
    rw [List.map_cons, List.nodup_cons] at hnd
    rcases List.mem_cons.1 hmem with he | ht
    · subst he
      rw [insertAll]
      rw [look_insertAll_not_mem (fun p hp e => hnd.1 (by
        have hme := List.mem_map_of_mem Prod.fst hp
        rw [e] at hme
        exact hme))]
      exact look_hmInsert_self m k v
    · rw [insertAll]
      exact ih hnd.2 ht _

theorem look_insertAll_perm {kvs1 kvs2 : List (Bytes × Bytes)}
    (hperm : kvs1.Perm kvs2) (hnd : (kvs1.map Prod.fst).Nodup)
    (m : List (Bytes × Bytes)) (k : Bytes) :
    look (insertAll m kvs1) k = look (insertAll m kvs2) k := by
  have hnd2 : (kvs2.map Prod.fst).Nodup := ((hperm.map Prod.fst).nodup_iff).1 hnd
  by_cases hk : ∃ v, (k, v) ∈ kvs1
  · obtain ⟨v, hv⟩ := hk
    rw [look_insertAll_mem hnd hv m, look_insertAll_mem hnd2 (hperm.mem_iff.1 hv) m]
  · have h1 : ∀ kv ∈ kvs1, kv.1 ≠ k := by
      intro kv hkv he
      exact hk ⟨kv.2, by rw [← he]; exact hkv⟩
    have h2 : ∀ kv ∈ kvs2, kv.1 ≠ k := by
      intro kv hkv he
      exact hk ⟨kv.2, by rw [← he]; exact hperm.mem_iff.2 hkv⟩
    rw [look_insertAll_not_mem h1 m, look_insertAll_not_mem h2 m]

theorem parseHeaderLoop_lines :
    ∀ (ls : List Bytes) (hm : List (Bytes × Bytes)) (rest : List Bytes),
      (∀ l ∈ ls, trimB l ≠ [] ∧ wsTokens (trimB l) ≠ []) →
      parseHeaderLoop hm (ls ++ [] :: rest) =
        some (insertAll hm (ls.map lineKV), rest) := by
  intro ls
  induction ls with
  | nil => intro hm rest _; exact parseHeaderLoop_blank
  | cons l ls ih =>
    intro hm rest h
    obtain ⟨hne, htk⟩ := h l (by simp)
    cases hw : wsTokens (trimB l) with
    | nil => exact absurd hw htk
    | cons key vals =>
      rw [List.cons_append, parseHeaderLoop_step hne hw,
        ih _ rest (fun x hx => h x (by simp [hx])), List.map_cons, insertAll]
      have hkv : lineKV l = (key, joinBy [32] vals) := by
        rw [lineKV, hw]
        rfl
      rw [hkv]

theorem append_ne_nil_left {a : Bytes} (h : a ≠ []) (b : Bytes) : a ++ b ≠ [] := by
  cases a with
  | nil => exact absurd rfl h
  | cons x t => simp

theorem validUtf8_cons_nl {R : Bytes} (h : validUtf8 R = true) :
    validUtf8 (10 :: R) = true := by
  have h10 : validUtf8 [10] = true := by decide
  exact validUtf8_append h10 h

theorem tryFrom_content_aux (c : Commit)
    (hT : c.tree ≠ []) (hTn : ∀ b ∈ c.tree, isWs b = false)
    (hTu : validUtf8 c.tree = true)
    (hPne : c.parent ≠ some [])
    (hPn : ∀ b ∈ c.parent.getD [], isWs b = false)
    (hPu : validUtf8 (c.parent.getD []) = true)
    (hD : c.author.display ≠ [])
    (hD10 : (10 : Nat) ∉ c.author.display) (hD13 : (13 : Nat) ∉ c.author.display)
    (hDl : isWs (c.author.display.reverse.headD 0) = false)
    (hDu : validUtf8 c.author.display = true)
    (hDa : authorParseOk (joinBy [32] (wsTokens c.author.display)) = true)
    (hMu : validUtf8 c.message = true) :
    ∃ msg, Commit.tryFrom c.content = some (.ok (c.tree, c.parent, msg)) := by
  have h10T : (10 : Nat) ∉ c.tree := not_mem_of_all_nonws (by decide) hTn
  have h13T : (13 : Nat) ∉ c.tree := not_mem_of_all_nonws (by decide) hTn
  have hTrne : c.tree.reverse ≠ [] := by simp [hT]
  have hTl : isWs (c.tree.reverse.headD 0) = false :=
    hTn _ (List.mem_reverse.1 (headD_mem hTrne 0))
  have h10L1 : (10 : Nat) ∉ sb "tree " ++ c.tree := by
    intro hm
    rcases List.mem_append.1 hm with h | h
    · exact absurd h (by decide)
    · exact h10T h
  have h13L1 : (13 : Nat) ∉ sb "tree " ++ c.tree := by
    intro hm
    rcases List.mem_append.1 hm with h | h
    · exact absurd h (by decide)
    · exact h13T h
  have h10L3 : (10 : Nat) ∉ sb "author " ++ c.author.display := by
    intro hm
    rcases List.mem_append.1 hm with h | h
    · exact absurd h (by decide)
    · exact hD10 h
  have h13L3 : (13 : Nat) ∉ sb "author " ++ c.author.display := by
    intro hm
    rcases List.mem_append.1 hm with h | h
    · exact absurd h (by decide)
    · exact hD13 h
  have h10L4 : (10 : Nat) ∉ sb "committer " ++ c.author.display := by
    intro hm
    rcases List.mem_append.1 hm with h | h
    · exact absurd h (by decide)
    · exact hD10 h
  have h13L4 : (13 : Nat) ∉ sb "committer " ++ c.author.display := by
    intro hm
    rcases List.mem_append.1 hm with h | h
    · exact absurd h (by decide)
    · exact hD13 h
  have htr1 : trimB (sb "tree " ++ c.tree) = sb "tree " ++ c.tree :=
    trimB_line (by decide) (by decide) hT hTl
  have htk1 : wsTokens (sb "tree " ++ c.tree) = sb "tree" :: [c.tree] := by
    have e : sb "tree " ++ c.tree = sb "tree" ++ 32 :: c.tree := rfl
    have e2 : wsTokens (sb "tree") = [sb "tree"] := by decide
    rw [e, wsTokens_split (by decide), e2, wsTokens_all_nonws hT hTn]
    rfl
  have htr3 : trimB (sb "author " ++ c.author.display) =
      sb "author " ++ c.author.display :=
    trimB_line (by decide) (by decide) hD hDl
  have htk3 : wsTokens (sb "author " ++ c.author.display) =
      sb "author" :: wsTokens c.author.display := by
    have e : sb "author " ++ c.author.display =
        sb "author" ++ 32 :: c.author.display := rfl
    have e2 : wsTokens (sb "author") = [sb "author"] := by decide
    rw [e, wsTokens_split (by decide), e2]
    rfl
  have htr4 : trimB (sb "committer " ++ c.author.display) =
      sb "committer " ++ c.author.display :=
    trimB_line (by decide) (by decide) hD hDl
  have htk4 : wsTokens (sb "committer " ++ c.author.display) =
      sb "committer" :: wsTokens c.author.display := by
    have e : sb "committer " ++ c.author.display =
        sb "committer" ++ 32 :: c.author.display := rfl
    have e2 : wsTokens (sb "committer") = [sb "committer"] := by decide
    rw [e, wsTokens_split (by decide), e2]
    rfl
  have hne1 : trimB (sb "tree " ++ c.tree) ≠ [] := by
    rw [htr1]
    exact append_ne_nil_left (by decide) _
  have hne3 : trimB (sb "author " ++ c.author.display) ≠ [] := by
    rw [htr3]
    exact append_ne_nil_left (by decide) _
  have hne4 : trimB (sb "committer " ++ c.author.display) ≠ [] := by
    rw [htr4]
    exact append_ne_nil_left (by decide) _
  have htokt1 : wsTokens (trimB (sb "tree " ++ c.tree)) = sb "tree" :: [c.tree] := by
    rw [htr1]
    exact htk1
  have htokt3 : wsTokens (trimB (sb "author " ++ c.author.display)) =
      sb "author" :: wsTokens c.author.display := by
    rw [htr3]
    exact htk3
  have htokt4 : wsTokens (trimB (sb "committer " ++ c.author.display)) =
      sb "committer" :: wsTokens c.author.display := by
    rw [htr4]
    exact htk4
  cases hp : c.parent with
  | none =>
    have e1 : c.content = (sb "tree " ++ c.tree) ++ 10 ::
        ((sb "author " ++ c.author.display) ++ 10 ::
          ((sb "committer " ++ c.author.display) ++ 10 ::
            ([] ++ 10 :: c.message))) := by
      rw [Commit.content, hp]
      simp [List.append_assoc, List.cons_append, List.nil_append]
    have hCu : validUtf8 c.content = true := by
      have vuT : validUtf8 (sb "tree ") = true := by decide
      have vuA : validUtf8 (sb "author ") = true := by decide
      have vuC : validUtf8 (sb "committer ") = true := by decide
      rw [e1]
      exact validUtf8_append (validUtf8_append vuT hTu)
        (validUtf8_cons_nl (validUtf8_append (validUtf8_append vuA hDu)
          (validUtf8_cons_nl (validUtf8_append (validUtf8_append vuC hDu)
            (validUtf8_cons_nl (validUtf8_cons_nl hMu))))))
    have hsl : splitLines c.content = (sb "tree " ++ c.tree) ::
        (sb "author " ++ c.author.display) ::
        (sb "committer " ++ c.author.display) :: [] :: splitLines c.message := by
      rw [e1, splitLines_cons_line h10L1 h13L1, splitLines_cons_line h10L3 h13L3,
        splitLines_cons_line h10L4 h13L4,
        splitLines_cons_line (by simp) (by simp)]
    have hph : parseHeaderLoop [] (splitLines c.content) =
        some (hmInsert (hmInsert (hmInsert [] (sb "tree") (joinBy [32] [c.tree]))
          (sb "author") (joinBy [32] (wsTokens c.author.display)))
          (sb "committer") (joinBy [32] (wsTokens c.author.display)),
          splitLines c.message) := by
      rw [hsl, parseHeaderLoop_step hne1 htokt1, parseHeaderLoop_step hne3 htokt3,
        parseHeaderLoop_step hne4 htokt4, parseHeaderLoop_blank]
    have hlt : look (hmInsert (hmInsert (hmInsert [] (sb "tree")
        (joinBy [32] [c.tree])) (sb "author")
        (joinBy [32] (wsTokens c.author.display))) (sb "committer")
        (joinBy [32] (wsTokens c.author.display))) (sb "tree") = some c.tree := by
      rw [look_hmInsert_ne (by decide), look_hmInsert_ne (by decide),
        look_hmInsert_self]
      rfl
    have hla : look (hmInsert (hmInsert (hmInsert [] (sb "tree")
        (joinBy [32] [c.tree])) (sb "author")
        (joinBy [32] (wsTokens c.author.display))) (sb "committer")
        (joinBy [32] (wsTokens c.author.display))) (sb "author") =
        some (joinBy [32] (wsTokens c.author.display)) := by
      rw [look_hmInsert_ne (by decide), look_hmInsert_self]
    have hlp : look (hmInsert (hmInsert (hmInsert [] (sb "tree")
        (joinBy [32] [c.tree])) (sb "author")
        (joinBy [32] (wsTokens c.author.display))) (sb "committer")
        (joinBy [32] (wsTokens c.author.display))) (sb "parent") = none := by
      rw [look_hmInsert_ne (by decide), look_hmInsert_ne (by decide),
        look_hmInsert_ne (by decide)]
      rfl
    refine ⟨joinBy [10] (splitLines c.message), ?_⟩
    rw [Commit.tryFrom, if_pos hCu]
    simp [hph, hlt, hla, hlp, hDa]
  | some p =>
    have hpne : p ≠ [] := by
      intro e
      rw [e] at hp
      exact hPne hp
    rw [hp] at hPn hPu
    simp only [Option.getD_some] at hPn hPu
    have h10P : (10 : Nat) ∉ p := not_mem_of_all_nonws (by decide) hPn
    have h13P : (13 : Nat) ∉ p := not_mem_of_all_nonws (by decide) hPn
    have hPrne : p.reverse ≠ [] := by simp [hpne]
    have hPl : isWs (p.reverse.headD 0) = false :=
      hPn _ (List.mem_reverse.1 (headD_mem hPrne 0))
    have h10L2 : (10 : Nat) ∉ sb "parent " ++ p := by
      intro hm
      rcases List.mem_append.1 hm with h | h
      · exact absurd h (by decide)
      · exact h10P h
    have h13L2 : (13 : Nat) ∉ sb "parent " ++ p := by
      intro hm
      rcases List.mem_append.1 hm with h | h
      · exact absurd h (by decide)
      · exact h13P h
    have htr2 : trimB (sb "parent " ++ p) = sb "parent " ++ p :=
      trimB_line (by decide) (by decide) hpne hPl
    have htk2 : wsTokens (sb "parent " ++ p) = sb "parent" :: [p] := by
      have e : sb "parent " ++ p = sb "parent" ++ 32 :: p := rfl
      have e2 : wsTokens (sb "parent") = [sb "parent"] := by decide
      rw [e, wsTokens_split (by decide), e2, wsTokens_all_nonws hpne hPn]
      rfl
    have hne2 : trimB (sb "parent " ++ p) ≠ [] := by
      rw [htr2]
      exact append_ne_nil_left (by decide) _
    have htokt2 : wsTokens (trimB (sb "parent " ++ p)) = sb "parent" :: [p] := by
      rw [htr2]
      exact htk2
    have e1 : c.content = (sb "tree " ++ c.tree) ++ 10 ::
        ((sb "parent " ++ p) ++ 10 ::
          ((sb "author " ++ c.author.display) ++ 10 ::
            ((sb "committer " ++ c.author.display) ++ 10 ::
              ([] ++ 10 :: c.message)))) := by
      rw [Commit.content, hp]
      simp [List.append_assoc, List.cons_append, List.nil_append]
    have hCu : validUtf8 c.content = true := by
      have vuT : validUtf8 (sb "tree ") = true := by decide
      have vuP : validUtf8 (sb "parent ") = true := by decide
      have vuA : validUtf8 (sb "author ") = true := by decide
      have vuC : validUtf8 (sb "committer ") = true := by decide
      rw [e1]
      exact validUtf8_append (validUtf8_append vuT hTu)
        (validUtf8_cons_nl (validUtf8_append (validUtf8_append vuP hPu)
          (validUtf8_cons_nl (validUtf8_append (validUtf8_append vuA hDu)
            (validUtf8_cons_nl (validUtf8_append (validUtf8_append vuC hDu)
              (validUtf8_cons_nl (validUtf8_cons_nl hMu))))))))
    have hsl : splitLines c.content = (sb "tree " ++ c.tree) ::
        (sb "parent " ++ p) ::
        (sb "author " ++ c.author.display) ::
        (sb "committer " ++ c.author.display) :: [] :: splitLines c.message := by
      rw [e1, splitLines_cons_line h10L1 h13L1, splitLines_cons_line h10L2 h13L2,
        splitLines_cons_line h10L3 h13L3, splitLines_cons_line h10L4 h13L4,
        splitLines_cons_line (by simp) (by simp)]
    have hph : parseHeaderLoop [] (splitLines c.content) =
        some (hmInsert (hmInsert (hmInsert (hmInsert [] (sb "tree")
          (joinBy [32] [c.tree])) (sb "parent") (joinBy [32] [p]))
          (sb "author") (joinBy [32] (wsTokens c.author.display)))
          (sb "committer") (joinBy [32] (wsTokens c.author.display)),
          splitLines c.message) := by
      rw [hsl, parseHeaderLoop_step hne1 htokt1, parseHeaderLoop_step hne2 htokt2,
        parseHeaderLoop_step hne3 htokt3, parseHeaderLoop_step hne4 htokt4,
        parseHeaderLoop_blank]
    have hlt : look (hmInsert (hmInsert (hmInsert (hmInsert [] (sb "tree")
        (joinBy [32] [c.tree])) (sb "parent") (joinBy [32] [p]))
        (sb "author") (joinBy [32] (wsTokens c.author.display)))
        (sb "committer") (joinBy [32] (wsTokens c.author.display)))
        (sb "tree") = some c.tree := by
      rw [look_hmInsert_ne (by decide), look_hmInsert_ne (by decide),
        look_hmInsert_ne (by decide), look_hmInsert_self]
      rfl
    have hla : look (hmInsert (hmInsert (hmInsert (hmInsert [] (sb "tree")
        (joinBy [32] [c.tree])) (sb "parent") (joinBy [32] [p]))
        (sb "author") (joinBy [32] (wsTokens c.author.display)))
        (sb "committer") (joinBy [32] (wsTokens c.author.display)))
        (sb "author") = some (joinBy [32] (wsTokens c.author.display)) := by
      rw [look_hmInsert_ne (by decide), look_hmInsert_self]
    have hlp : look (hmInsert (hmInsert (hmInsert (hmInsert [] (sb "tree")
        (joinBy [32] [c.tree])) (sb "parent") (joinBy [32] [p]))
        (sb "author") (joinBy [32] (wsTokens c.author.display)))
        (sb "committer") (joinBy [32] (wsTokens c.author.display)))
        (sb "parent") = some p := by
      rw [look_hmInsert_ne (by decide), look_hmInsert_ne (by decide),
        look_hmInsert_self]
      rfl
    refine ⟨joinBy [10] (splitLines c.message), ?_⟩
    rw [Commit.tryFrom, if_pos hCu]
    simp [hph, hlt, hla, hlp, hDa]

/-- C10: parsing the body produced by a commit's own serialization recovers
the same tree OID and the same parent, `none` exactly when the commit has no
parent (first conjunct); the header loop keys each pre-blank-line line by its
first whitespace token, so permuting the header lines changes no lookup of
the resulting map (second conjunct); and interior whitespace runs in a
header value are collapsed to single spaces by the parse (third
conjunct). -/
theorem rit_claim_C10 (c : Commit)
    (hT : c.tree ≠ []) (hTn : ∀ b ∈ c.tree, isWs b = false)
    (hTu : validUtf8 c.tree = true)
    (hPne : c.parent ≠ some [])
    (hPn : ∀ b ∈ c.parent.getD [], isWs b = false)
    (hPu : validUtf8 (c.parent.getD []) = true)
    (hD : c.author.display ≠ [])
    (hD10 : (10 : Nat) ∉ c.author.display) (hD13 : (13 : Nat) ∉ c.author.display)
    (hDl : isWs (c.author.display.reverse.headD 0) = false)
    (hDu : validUtf8 c.author.display = true)
    (hDa : authorParseOk (joinBy [32] (wsTokens c.author.display)) = true)
    (hMu : validUtf8 c.message = true) :
    (∃ msg, Commit.tryFrom c.content = some (.ok (c.tree, c.parent, msg)))
    ∧ (∀ (ls1 ls2 rest : List Bytes) (k : Bytes),
        ls1.Perm ls2 →
        (∀ l ∈ ls1, trimB l ≠ [] ∧ wsTokens (trimB l) ≠ []) →
        ((ls1.map lineKV).map Prod.fst).Nodup →
        ∃ m1 m2 : List (Bytes × Bytes),
          parseHeaderLoop [] (ls1 ++ [] :: rest) = some (m1, rest) ∧
          parseHeaderLoop [] (ls2 ++ [] :: rest) = some (m2, rest) ∧
          look m1 k = look m2 k)
    ∧ (∀ (hm : List (Bytes × Bytes)) (key r1 v1 r2 v2 : Bytes)
          (rest : List Bytes),
        key ≠ [] → (∀ b ∈ key, isWs b = false) →
        r1 ≠ [] → (∀ b ∈ r1, isWs b = true) →
        v1 ≠ [] → (∀ b ∈ v1, isWs b = false) →
        r2 ≠ [] → (∀ b ∈ r2, isWs b = true) →
        v2 ≠ [] → (∀ b ∈ v2, isWs b = false) →
        parseHeaderLoop hm ((key ++ r1 ++ v1 ++ r2 ++ v2) :: rest) =
          parseHeaderLoop (hmInsert hm key (v1 ++ [32] ++ v2)) rest) := by
  refine ⟨tryFrom_content_aux c hT hTn hTu hPne hPn hPu hD hD10 hD13 hDl hDu hDa hMu,
    ?_, ?_⟩
  · intro ls1 ls2 rest k hperm hok hnd
    refine ⟨insertAll [] (ls1.map lineKV), insertAll [] (ls2.map lineKV),
      parseHeaderLoop_lines ls1 [] rest hok,
      parseHeaderLoop_lines ls2 [] rest (fun l hl => hok l (hperm.mem_iff.2 hl)),
      look_insertAll_perm (hperm.map lineKV) hnd [] k⟩
  · intro hm key r1 v1 r2 v2 rest hk hkn hr1 hr1w hv1 hv1n hr2 hr2w hv2 hv2n
    cases r1 with
    | nil => exact absurd rfl hr1
    | cons w1 r1t =>
    cases r2 with
    | nil => exact absurd rfl hr2
    | cons w2 r2t =>
    have hw1 : isWs w1 = true := hr1w w1 (by simp)
    have hw2 : isWs w2 = true := hr2w w2 (by simp)
    have hv2r : v2.reverse ≠ [] := by simp [hv2]
    have hTne : (w1 :: r1t) ++ (v1 ++ ((w2 :: r2t) ++ v2)) ≠ [] := by simp
    have hTl : isWs (((w1 :: r1t) ++ (v1 ++ ((w2 :: r2t) ++ v2))).reverse.headD 0)
        = false := by
      rw [List.reverse_append, List.reverse_append, List.reverse_append,
        headD_append_left (append_ne_nil_left
          (append_ne_nil_left hv2r (w2 :: r2t).reverse) v1.reverse)
          (w1 :: r1t).reverse 0,
        headD_append_left (append_ne_nil_left hv2r (w2 :: r2t).reverse)
          v1.reverse 0,
        headD_append_left hv2r (w2 :: r2t).reverse 0]
      exact hv2n _ (List.mem_reverse.1 (headD_mem hv2r 0))
    have htrL : trimB (key ++ ((w1 :: r1t) ++ (v1 ++ ((w2 :: r2t) ++ v2)))) =
        key ++ ((w1 :: r1t) ++ (v1 ++ ((w2 :: r2t) ++ v2))) :=
      trimB_line hk (hkn _ (headD_mem hk 0)) hTne hTl
    have hLtok : wsTokens (key ++ ((w1 :: r1t) ++ (v1 ++ ((w2 :: r2t) ++ v2)))) =
        [key, v1, v2] := by
      rw [show key ++ ((w1 :: r1t) ++ (v1 ++ ((w2 :: r2t) ++ v2))) =
          key ++ w1 :: (r1t ++ (v1 ++ ((w2 :: r2t) ++ v2))) from by
        rw [List.cons_append]]
      rw [wsTokens_split hw1,
        wsTokens_ws_absorb (fun b hb => hr1w b (by simp [hb])),
        wsTokens_all_nonws hk hkn,
        show v1 ++ ((w2 :: r2t) ++ v2) = v1 ++ w2 :: (r2t ++ v2) from by
          rw [List.cons_append],
        wsTokens_split hw2,
        wsTokens_ws_absorb (fun b hb => hr2w b (by simp [hb])),
        wsTokens_all_nonws hv1 hv1n, wsTokens_all_nonws hv2 hv2n]
      rfl
    have hassoc : key ++ (w1 :: r1t) ++ v1 ++ (w2 :: r2t) ++ v2 =
        key ++ ((w1 :: r1t) ++ (v1 ++ ((w2 :: r2t) ++ v2))) := by
      simp [List.append_assoc]
    have hLnil : trimB (key ++ ((w1 :: r1t) ++ (v1 ++ ((w2 :: r2t) ++ v2)))) ≠ [] := by
      rw [htrL]
      exact append_ne_nil_left hk _
    have hLtok' : wsTokens (trimB (key ++ ((w1 :: r1t) ++ (v1 ++ ((w2 :: r2t) ++ v2)))))
        = [key, v1, v2] := by
      rw [htrL]
      exact hLtok
    rw [hassoc, parseHeaderLoop_step hLnil hLtok',
      show joinBy [32] [v1, v2] = v1 ++ [32] ++ v2 from rfl]

theorem rit_claim_C10_witness :
    commitX.tree ≠ [] ∧
    (∃ msg, Commit.tryFrom commitX.content =
      some (.ok (commitX.tree, commitX.parent, msg))) :=
  ⟨by decide,
   (rit_claim_C10 commitX (by decide) (by decide) (by decide) (by decide)
     (by decide) (by decide) (by decide) (by decide) (by decide) (by decide)
     (by decide) (by decide) (by decide)).1⟩

theorem look_hmInsert_cases {α : Type} {m : List (Bytes × α)} {k key : Bytes}
    {v pr : α} (h : look (hmInsert m k v) key = some pr) :
    pr = v ∨ look m key = some pr := by
  by_cases hk : key = k
  · subst hk
    rw [look_hmInsert_self] at h
    exact Or.inl (Option.some.inj h).symm
  · rw [look_hmInsert_ne hk] at h
    exact Or.inr h

theorem chOkP_hmInsert {ch : Changes} {k : Bytes}
    {pr : Option TreeEntry × Option TreeEntry} (h : chOkP ch)
    (hpr : pairRecordable pr) : chOkP (hmInsert ch k pr) := by
  intro p q hq
  rcases look_hmInsert_cases hq with he | hl
  · exact he ▸ hpr
  · exact h p q hl

theorem foldl_step_none (step : Changes → Bytes → TreeEntry → Option Changes) :
    ∀ es : List (Bytes × TreeEntry),
      List.foldl (fun acc p =>
        match acc with
        | none => none
        | some c => step c p.1 p.2) none es = none := by
  intro es
  induction es with
  | nil => rfl
  | cons p es ih =>
    rw [List.foldl_cons]
    exact ih

theorem foldSteps_cons {step : Changes → Bytes → TreeEntry → Option Changes}
    {p : Bytes × TreeEntry} {es : List (Bytes × TreeEntry)} {ch : Changes} :
    foldSteps step (p :: es) ch =
      match step ch p.1 p.2 with
      | none => none
      | some c => foldSteps step es c := by
  rw [foldSteps, List.foldl_cons]
  cases hs : step ch p.1 p.2 with
  | none =>
    simp only [hs]
    exact foldl_step_none step es
  | some c =>
    simp only [hs]
    rfl

theorem foldSteps_ok {step : Changes → Bytes → TreeEntry → Option Changes}
    (hstep : ∀ ch n e ch', chOkP ch → step ch n e = some ch' → chOkP ch') :
    ∀ {es : List (Bytes × TreeEntry)} {ch ch' : Changes}, chOkP ch →
      foldSteps step es ch = some ch' → chOkP ch' := by
  intro es
  induction es with
  | nil =>
    intro ch ch' hch h
    exact (Option.some.inj (h : some ch = some ch')) ▸ hch
  | cons p es ih =>
    intro ch ch' hch h
    rw [foldSteps_cons] at h
    cases hs : step ch p.1 p.2 with
    | none =>
      rw [hs] at h
      exact Option.noConfusion h
    | some c =>
      simp only [hs] at h
      exact ih (hstep _ _ _ _ hch hs) h

theorem delStep_ok {cmp : Option Bytes → Option Bytes → Bytes → Changes → Option Changes}
    {b : Tree} {pfx : Bytes}
    (hcmp : ∀ a2 b2 path c c', chOkP c → cmp a2 b2 path c = some c' → chOkP c')
    {ch : Changes} {n : Bytes} {e : TreeEntry} {ch' : Changes}
    (hch : chOkP ch) (h : delStep cmp b pfx ch n e = some ch') : chOkP ch' := by
  cases hother : look b.entries n with
  | none =>
    simp only [delStep, hother, Bool.false_eq_true, if_false] at h
    cases hga : get_tree_oid e with
    | none =>
      rw [hga] at h
      exact Option.noConfusion h
    | some aOid =>
      simp only [hga] at h
      cases hc : cmp aOid none (joinPath pfx n) ch with
      | none =>
        rw [hc] at h
        exact Option.noConfusion h
      | some ch1 =>
        simp only [hc] at h
        have hch1 := hcmp _ _ _ _ _ hch hc
        split at h
        · exact (Option.some.inj h) ▸ chOkP_hmInsert hch1 (Or.inl ⟨e, rfl⟩)
        · split at h
          · exact (Option.some.inj h) ▸ chOkP_hmInsert hch1 (Or.inl ⟨e, rfl⟩)
          · split at h
            · exact (Option.some.inj h) ▸
                chOkP_hmInsert hch1 (Or.inr (Or.inr (Or.inr rfl)))
            · exact (Option.some.inj h) ▸ hch1
  | some o =>
    by_cases hteq : teq e o
    · simp only [delStep, hother, hteq, eq_self_iff_true, if_true] at h
      exact (Option.some.inj h) ▸ hch
    · have hteq2 : teq e o = false := by simpa using hteq
      simp only [delStep, hother, hteq2, Bool.false_eq_true, if_false] at h
      cases hga : get_tree_oid e with
      | none =>
        rw [hga] at h
        exact Option.noConfusion h
      | some aOid =>
        simp only [hga] at h
        cases hgb : get_tree_oid o with
        | none =>
          rw [hgb] at h
          exact Option.noConfusion h
        | some bOid =>
          simp only [hgb] at h
          cases hc : cmp aOid bOid (joinPath pfx n) ch with
          | none =>
            rw [hc] at h
            exact Option.noConfusion h
          | some ch1 =>
            simp only [hc] at h
            have hch1 := hcmp _ _ _ _ _ hch hc
            split at h
            · exact (Option.some.inj h) ▸ chOkP_hmInsert hch1
                (Or.inr (Or.inr (Or.inl ⟨e, o, rfl, hteq2⟩)))
            · split at h
              · exact (Option.some.inj h) ▸ chOkP_hmInsert hch1 (Or.inl ⟨e, rfl⟩)
              · split at h
                · exact (Option.some.inj h) ▸
                    chOkP_hmInsert hch1 (Or.inr (Or.inl ⟨o, rfl⟩))
                · exact (Option.some.inj h) ▸ hch1

theorem addStep_ok {cmp : Option Bytes → Option Bytes → Bytes → Changes → Option Changes}
    {a : Tree} {pfx : Bytes}
    (hcmp : ∀ a2 b2 path c c', chOkP c → cmp a2 b2 path c = some c' → chOkP c')
    {ch : Changes} {n : Bytes} {e : TreeEntry} {ch' : Changes}
    (hch : chOkP ch) (h : addStep cmp a pfx ch n e = some ch') : chOkP ch' := by
  by_cases hs : (look a.entries n).isSome
  · simp only [addStep, hs, eq_self_iff_true, if_true] at h
    exact (Option.some.inj h) ▸ hch
  · have hs2 : (look a.entries n).isSome = false := by simpa using hs
    cases hti : TreeEntry.isTreeTE e with
    | false =>
      simp only [addStep, hs2, hti, Bool.false_eq_true, if_false] at h
      exact (Option.some.inj h) ▸
        chOkP_hmInsert hch (Or.inr (Or.inl ⟨e, rfl⟩))
    | true =>
      simp only [addStep, hs2, hti, Bool.false_eq_true, if_false,
        eq_self_iff_true, if_true] at h
      cases hga : get_tree_oid e with
      | none =>
        rw [hga] at h
        exact Option.noConfusion h
      | some oid =>
        simp only [hga] at h
        exact hcmp _ _ _ _ _ hch h

theorem compareOids_ok (db : Database) (fs : FS) :
    ∀ (fuel : Nat) (a b : Option Bytes) (pfx : Bytes) (ch ch' : Changes),
      chOkP ch → compareOids db fs fuel a b pfx ch = some ch' → chOkP ch' := by
  intro fuel
  induction fuel with
  | zero =>
    intro a b pfx ch ch' hch h
    rw [compareOids] at h
    by_cases hab : a = b
    · rw [if_pos hab] at h
      exact (Option.some.inj h) ▸ hch
    · rw [if_neg hab] at h
      exact Option.noConfusion h
  | succ fuel ih =>
    intro a b pfx ch ch' hch h
    have hcmp : ∀ a2 b2 path c c', chOkP c →
        compareOids db fs fuel a2 b2 path c = some c' → chOkP c' :=
      fun a2 b2 path c c' => ih a2 b2 path c c'
    rw [compareOids] at h
    by_cases hab : a = b
    · rw [if_pos hab] at h
      exact (Option.some.inj h) ▸ hch
    · rw [if_neg hab] at h
      cases hra : oidToTree db fs (fuel + 1) a with
      | none =>
        rw [hra] at h
        exact Option.noConfusion h
      | some ra =>
        simp only [hra] at h
        cases hrb : oidToTree db fs (fuel + 1) b with
        | none =>
          rw [hrb] at h
          exact Option.noConfusion h
        | some rb =>
          simp only [hrb] at h
          split at h
          · exact Option.noConfusion h
          · rename_i ch1 hfd
            exact foldSteps_ok (fun c2 n2 e2 c3 => addStep_ok hcmp)
              (foldSteps_ok (fun c2 n2 e2 c3 => delStep_ok hcmp) hch hfd) h

/-- C2, corrected: the diff of an oid against itself is empty, but the
converse of the spec's `iff` fails (two unequal unreadable oids also give
an empty diff); and every recorded pair either has one side present and
the two sides unequal, or is the `(None, None)` pair the source records
for a subtree present in A and absent from B. -/
theorem rit_claim_C2 :
    (∀ (db : Database) (fs : FS) (fuel : Nat) (a : Option Bytes),
      Database.tree_diff db fs fuel a a = some []) ∧
    (∀ (db : Database) (fs : FS) (fuel : Nat) (a b : Option Bytes)
        (ch : Changes), Database.tree_diff db fs fuel a b = some ch →
      ∀ (p : Bytes) (pr : Option TreeEntry × Option TreeEntry),
        look ch p = some pr → pairRecordable pr) := by
  constructor
  · intro db fs fuel a
    cases fuel with
    | zero => rw [Database.tree_diff, compareOids, if_pos rfl]
    | succ f => rw [Database.tree_diff, compareOids, if_pos rfl]
  · intro db fs fuel a b ch h p pr hl
    exact compareOids_ok db fs fuel a b db.path [] ch
      (fun q qr hq => Option.noConfusion hq) h p pr hl

/-- C2 counterexample: diffing tree `b…b = \x7b d ↦ subtree \x7d` against
`c…c = \x7b g ↦ blob \x7d` records the deleted subtree `d` as the pair
`(None, None)` — both sides absent, where the spec requires one side
present; and two unequal oids absent from the store give an empty diff,
where the spec requires non-emptiness for unequal oids. -/
theorem rit_claim_C2_counterexample :
    ((Database.tree_diff ⟨[]⟩ fsTrees 10 (some (List.replicate 40 98))
        (some (List.replicate 40 99))).map (fun ch => look ch (sb "d")) =
      some (some (none, none))) ∧
    Database.tree_diff ⟨[]⟩ ⟨[], []⟩ 10 (some (List.replicate 40 120))
        (some (List.replicate 40 121)) = some [] ∧
    (some (List.replicate 40 120) : Option Bytes) ≠
      some (List.replicate 40 121) :=
  ⟨rfl, rfl, by decide⟩

theorem rit_claim_C2_witness :
    ∃ ch pr, Database.tree_diff ⟨[]⟩ fsTrees 10 (some (List.replicate 40 98))
        (some (List.replicate 40 99)) = some ch ∧
      look ch (sb "g") = some pr ∧ pairRecordable pr := by
  refine ⟨_, _, rfl, rfl, ?_⟩
  exact rit_claim_C2.2 ⟨[]⟩ fsTrees 10 (some (List.replicate 40 98))
    (some (List.replicate 40 99)) _ rfl (sb "g") _ rfl

theorem look_mem {α : Type} : ∀ {m : List (Bytes × α)} {k : Bytes} {v : α},
    look m k = some v → (k, v) ∈ m := by
  intro m
  induction m with
  | nil => intro k v h; exact Option.noConfusion h
  | cons p rest ih =>
    intro k v h
    obtain ⟨k2, v2⟩ := p
    rw [look] at h
    by_cases hk : k2 = k
    · rw [if_pos hk] at h
      subst hk
      exact List.mem_cons.2 (Or.inl (by rw [Option.some.inj h]))
    · rw [if_neg hk] at h
      exact List.mem_cons.2 (Or.inr (ih h))

theorem look_eq_none_iff {α : Type} : ∀ {m : List (Bytes × α)} {k : Bytes},
    look m k = none ↔ k ∉ m.map Prod.fst := by
  intro m
  induction m with
  | nil => intro k; simp [look]
  | cons p rest ih =>
    intro k
    obtain ⟨k2, v2⟩ := p
    rw [look]
    by_cases hk : k2 = k
    · rw [if_pos hk]
      simp [hk]
    · rw [if_neg hk]
      simp only [List.map_cons, List.mem_cons]
      rw [ih]
      constructor
      · rintro h (he | hm)
        · exact hk he.symm
        · exact h hm
      · intro h
        exact fun hm => h (Or.inr hm)

theorem joinBy_splitOn (sep : Nat) : ∀ (p : Bytes),
    joinBy [sep] (splitOn sep p) = p := by
  intro p
  induction p with
  | nil => rfl
  | cons b rest ih =>
    by_cases hb : b = sep
    · rw [splitOn, if_pos hb]
      cases hsp : splitOn sep rest with
      | nil => exact absurd hsp (splitOn_ne_nil sep rest)
      | cons y ys =>
        rw [hsp] at ih
        have hj : joinBy [sep] ([] :: y :: ys) =
            [] ++ [sep] ++ joinBy [sep] (y :: ys) := rfl
        rw [hj, ih, hb]
        rfl
    · rw [splitOn, if_neg hb]
      cases hsp : splitOn sep rest with
      | nil => exact absurd hsp (splitOn_ne_nil sep rest)
      | cons first more =>
        rw [hsp] at ih
        cases more with
        | nil =>
          have hj : joinBy [sep] [first] = first := rfl
          rw [hj] at ih
          have hj2 : joinBy [sep] [b :: first] = b :: first := rfl
          rw [hj2, ih]
        | cons m1 ms =>
          have hj : joinBy [sep] (first :: m1 :: ms) =
              first ++ [sep] ++ joinBy [sep] (m1 :: ms) := rfl
          rw [hj] at ih
          have hj2 : joinBy [sep] ((b :: first) :: m1 :: ms) =
              (b :: first) ++ [sep] ++ joinBy [sep] (m1 :: ms) := rfl
          rw [hj2, ← ih]
          rfl

theorem pathCmp_eq_iff {p q : Bytes} : pathCmp p q = .eq ↔ p = q := by
  constructor
  · intro h
    rw [pathCmp] at h
    have := compsCmp_eq_iff.1 h
    calc p = joinBy [47] (splitOn 47 p) := (joinBy_splitOn 47 p).symm
      _ = joinBy [47] (splitOn 47 q) := by rw [this]
      _ = q := joinBy_splitOn 47 q
  · intro h
    subst h
    exact compsCmp_eq_iff.2 rfl

theorem binSearchGo_eq {xs : List Bytes} {key : Bytes} :
    ∀ {fuel base size i : Nat}, binSearchGo xs key fuel base size = some i →
      pathCmp (xs.getD i []) key = .eq := by
  intro fuel
  induction fuel with
  | zero => intro base size i h; exact Option.noConfusion h
  | succ fuel ih =>
    intro base size i h
    rw [binSearchGo] at h
    by_cases hs : size > 1
    · rw [if_pos hs] at h
      exact ih h
    · rw [if_neg hs] at h
      by_cases he : pathCmp (xs.getD base []) key = .eq
      · rw [if_pos he] at h
        rw [← Option.some.inj h]
        exact he
      · rw [if_neg he] at h
        exact Option.noConfusion h

theorem binary_search_getD {xs : List Bytes} {key : Bytes} {i : Nat}
    (h : binary_search xs key = some i) : xs.getD i [] = key := by
  rw [binary_search] at h
  by_cases hl : xs.length = 0
  · rw [if_pos hl] at h
    exact Option.noConfusion h
  · rw [if_neg hl] at h
    exact pathCmp_eq_iff.1 (binSearchGo_eq h)

theorem mem_eraseIdx_of_getD_ne {k : Bytes} :
    ∀ {f : List Bytes} {i : Nat}, k ∈ f → f.getD i [] ≠ k →
      k ∈ f.eraseIdx i := by
  intro f
  induction f with
  | nil => intro i h _; exact absurd h (by simp)
  | cons x t ih =>
    intro i h hne
    cases i with
    | zero =>
      rcases List.mem_cons.1 h with he | ht
      · exact absurd he.symm hne
      · exact ht
    | succ i =>
      rcases List.mem_cons.1 h with he | ht
      · rw [List.eraseIdx_cons_succ, he]
        exact List.mem_cons_self x _
      · rw [List.eraseIdx_cons_succ]
        exact List.mem_cons.2 (Or.inr (ih ht hne))

theorem look_hmModify_self {α : Type} (f : α → α) :
    ∀ (m : List (Bytes × α)) (k : Bytes),
      look (hmModify m k f) k = (look m k).map f := by
  intro m
  induction m with
  | nil => intro k; rfl
  | cons p rest ih =>
    intro k
    obtain ⟨k2, v⟩ := p
    rw [hmModify]
    by_cases hk : k2 = k
    · rw [if_pos hk, look, if_pos hk, look, if_pos hk]
      rfl
    · rw [if_neg hk, look, if_neg hk, look, if_neg hk, ih]

theorem look_hmModify_ne {α : Type} {f : α → α} {k key : Bytes}
    (hne : key ≠ k) : ∀ (m : List (Bytes × α)),
      look (hmModify m k f) key = look m key := by
  intro m
  induction m with
  | nil => rfl
  | cons p rest ih =>
    obtain ⟨k2, v⟩ := p
    rw [hmModify]
    by_cases hk : k2 = k
    · rw [if_pos hk, look, look, if_neg (by rw [hk]; exact fun e => hne e.symm),
        if_neg (by rw [hk]; exact fun e => hne e.symm)]
    · rw [if_neg hk, look, look, ih]

theorem unbind_sublist {α : Type} (k : Bytes) :
    ∀ (m : List (Bytes × α)), (unbind m k).Sublist m := by
  intro m
  induction m with
  | nil => exact List.Sublist.refl []
  | cons p rest ih =>
    obtain ⟨k2, v⟩ := p
    rw [unbind]
    by_cases hk : k2 = k
    · rw [if_pos hk]
      exact ih.cons _
    · rw [if_neg hk]
      exact ih.cons₂ _

theorem mem_keys_unbind {α : Type} {k key : Bytes} :
    ∀ {m : List (Bytes × α)}, k ∈ (unbind m key).map Prod.fst →
      k ∈ m.map Prod.fst ∧ k ≠ key := by
  intro m
  induction m with
  | nil => intro h; exact absurd h (by simp [unbind])
  | cons p rest ih =>
    intro h
    obtain ⟨k2, v⟩ := p
    rw [unbind] at h
    by_cases hk : k2 = key
    · rw [if_pos hk] at h
      obtain ⟨hm, hne⟩ := ih h
      exact ⟨by simp [hm], hne⟩
    · rw [if_neg hk] at h
      rcases List.mem_cons.1 h with he | hm
      · refine ⟨by simp [he], ?_⟩
        rw [he]
        exact hk
      · obtain ⟨hm2, hne⟩ := ih hm
        exact ⟨by simp [hm2], hne⟩

theorem joinBy_append_ne {sep : Bytes} :
    ∀ {xs ys : List Bytes}, xs ≠ [] → ys ≠ [] →
      joinBy sep (xs ++ ys) = joinBy sep xs ++ sep ++ joinBy sep ys := by
  intro xs
  induction xs with
  | nil => intro ys h _; exact absurd rfl h
  | cons x xt ih =>
    intro ys _ hys
    cases xt with
    | nil =>
      cases ys with
      | nil => exact absurd rfl hys
      | cons y yt =>
        have hj : joinBy sep (x :: y :: yt) =
            x ++ sep ++ joinBy sep (y :: yt) := rfl
        rw [List.cons_append, List.nil_append, hj]
        rfl
    | cons x2 xt2 =>
      have h1 : joinBy sep (x :: ((x2 :: xt2) ++ ys)) =
          x ++ sep ++ joinBy sep ((x2 :: xt2) ++ ys) := rfl
      have h2 : joinBy sep (x :: x2 :: xt2) =
          x ++ sep ++ joinBy sep (x2 :: xt2) := rfl
      rw [List.cons_append, h1, ih (by simp) hys, h2]
      simp [List.append_assoc]

theorem take_ne_nil_of_ne_nil {α : Type} {l : List α} (h : l ≠ []) (i : Nat) :
    l.take (i + 1) ≠ [] := by
  cases l with
  | nil => exact absurd rfl h
  | cons x t => simp [List.take]

theorem pd_length {d p : Bytes} (h : d ∈ parent_directories p) :
    d.length < p.length := by
  rw [parent_directories] at h
  simp only [List.mem_map, List.mem_range] at h
  obtain ⟨i, hi, he⟩ := h
  have hcomps : splitOn 47 p ≠ [] := splitOn_ne_nil 47 p
  have htake : (splitOn 47 p).take (i + 1) ≠ [] := take_ne_nil_of_ne_nil hcomps i
  have hdrop : (splitOn 47 p).drop (i + 1) ≠ [] := by
    have hlen : ((splitOn 47 p).drop (i + 1)).length =
        (splitOn 47 p).length - (i + 1) := List.length_drop _ _
    intro he2
    rw [he2] at hlen
    simp only [List.length_nil] at hlen
    omega
  have hp : p = joinBy [47] ((splitOn 47 p).take (i + 1)) ++ [47] ++
      joinBy [47] ((splitOn 47 p).drop (i + 1)) := by
    conv_lhs => rw [← joinBy_splitOn 47 p,
      ← List.take_append_drop (i + 1) (splitOn 47 p)]
    exact joinBy_append_ne htake hdrop
  have hlen2 : p.length = (joinBy [47] ((splitOn 47 p).take (i + 1))).length +
      1 + (joinBy [47] ((splitOn 47 p).drop (i + 1))).length := by
    conv_lhs => rw [hp]
    simp [List.length_append]
    omega
  rw [he] at hlen2
  omega

theorem pd_irrefl (p : Bytes) : p ∉ parent_directories p :=
  fun hm => absurd (pd_length hm) (lt_irrefl _)

theorem bsearch_erase_mem {f : List Bytes} {k key : Bytes} (hk : k ∈ f)
    (hne : k ≠ key) :
    k ∈ (match binary_search f key with
         | some i => f.eraseIdx i
         | none => f) := by
  cases hb : binary_search f key with
  | none => exact hk
  | some i =>
    have hgd := binary_search_getD hb
    exact mem_eraseIdx_of_getD_ne hk (by rw [hgd]; exact fun e => hne e.symm)

theorem fold_hmModify_mem {x d : Bytes} (g : List Bytes → List Bytes)
    (hg : ∀ f, x ∈ f → x ∈ g f) :
    ∀ (ds : List Bytes) (m : List (Bytes × List Bytes)),
      (∃ l, look m d = some l ∧ x ∈ l) →
      ∃ l, look (ds.foldl (fun m2 dir => hmModify m2 dir g) m) d = some l ∧
        x ∈ l := by
  intro ds
  induction ds with
  | nil => intro m h; exact h
  | cons dir rest ih =>
    intro m h
    rw [List.foldl_cons]
    apply ih
    by_cases hd : d = dir
    · subst hd
      obtain ⟨l, hl, hxl⟩ := h
      refine ⟨g l, ?_, hg l hxl⟩
      rw [look_hmModify_self, hl]
      rfl
    · obtain ⟨l, hl, hxl⟩ := h
      exact ⟨l, by rw [look_hmModify_ne hd, hl], hxl⟩

theorem remove_entry_keys {st : IndexSt} {key k : Bytes}
    (h : k ∈ keysI (Index.remove_entry st key)) : k ∈ keysI st ∧ k ≠ key := by
  cases hl : look st.entries key with
  | none =>
    simp only [Index.remove_entry, hl] at h
    refine ⟨h, ?_⟩
    intro he
    subst he
    exact (look_eq_none_iff.1 hl) h
  | some e =>
    simp only [Index.remove_entry, hl, keysI] at h
    exact mem_keys_unbind h

theorem remove_entry_parents_mem {st : IndexSt} {key x d : Bytes}
    (hx : x ≠ key) (h : ∃ l, look st.parents d = some l ∧ x ∈ l) :
    ∃ l, look (Index.remove_entry st key).parents d = some l ∧ x ∈ l := by
  cases hl : look st.entries key with
  | none =>
    simp only [Index.remove_entry, hl]
    exact h
  | some e =>
    simp only [Index.remove_entry, hl]
    exact fold_hmModify_mem _ (fun f hf => bsearch_erase_mem hf hx) _ _ h

theorem remove_entry_inv {st : IndexSt} {key : Bytes} (h : InvI st) :
    InvI (Index.remove_entry st key) := by
  obtain ⟨hs, hk, h2, h3⟩ := h
  cases hl : look st.entries key with
  | none =>
    simp only [Index.remove_entry, hl]
    exact ⟨hs, hk, h2, h3⟩
  | some e =>
    simp only [Index.remove_entry, hl]
    refine ⟨?_, ?_, ?_, ?_⟩
    · exact List.Pairwise.sublist (unbind_sublist key st.entries) hs
    · intro kv hkv
      exact hk kv ((unbind_sublist key st.entries).subset hkv)
    · intro p hp q hq
      exact h2 p (mem_keys_unbind hp).1 q (mem_keys_unbind hq).1
    · intro k hkk d hd
      obtain ⟨hin, hne⟩ := mem_keys_unbind hkk
      exact fold_hmModify_mem _ (fun f hf => bsearch_erase_mem hf hne) _ _
        (h3 k hin d hd)

theorem foldRemove_inv : ∀ (ds : List Bytes) {st : IndexSt}, InvI st →
    InvI (ds.foldl (fun s c => Index.remove_entry s c) st) := by
  intro ds
  induction ds with
  | nil => intro st h; exact h
  | cons c rest ih =>
    intro st h
    rw [List.foldl_cons]
    exact ih (remove_entry_inv h)

theorem foldRemove_keys_sub : ∀ (ds : List Bytes) {st : IndexSt} {k : Bytes},
    k ∈ keysI (ds.foldl (fun s c => Index.remove_entry s c) st) →
    k ∈ keysI st := by
  intro ds
  induction ds with
  | nil => intro st k h; exact h
  | cons c rest ih =>
    intro st k h
    rw [List.foldl_cons] at h
    exact (remove_entry_keys (ih h)).1

theorem foldRemove_removes : ∀ (ds : List Bytes) {st : IndexSt} {q : Bytes},
    q ∈ ds → q ∉ keysI (ds.foldl (fun s c => Index.remove_entry s c) st) := by
  intro ds
  induction ds with
  | nil => intro st q h; exact absurd h (by simp)
  | cons c rest ih =>
    intro st q hq hmem
    rw [List.foldl_cons] at hmem
    rcases List.mem_cons.1 hq with he | ht
    · subst he
      exact (remove_entry_keys (foldRemove_keys_sub rest hmem)).2 rfl
    · exact ih ht hmem

theorem discard_conflicts_spec {st : IndexSt} (e : Entry) (h : InvI st) :
    InvI (Index.discard_conflicts st e) ∧
    (∀ d ∈ parent_directories e.path,
      d ∉ keysI (Index.discard_conflicts st e)) ∧
    (∀ q ∈ keysI (Index.discard_conflicts st e),
      e.path ∉ parent_directories q) := by
  have h1 : InvI ((parent_directories e.path).foldl
      (fun s dir => Index.remove_entry s dir) st) := foldRemove_inv _ h
  have hd1 : ∀ d ∈ parent_directories e.path,
      d ∉ keysI ((parent_directories e.path).foldl
        (fun s dir => Index.remove_entry s dir) st) :=
    fun d hd => foldRemove_removes _ hd
  cases hc : look ((parent_directories e.path).foldl
      (fun s dir => Index.remove_entry s dir) st).parents e.path with
  | none =>
    have hres : Index.discard_conflicts st e = (parent_directories e.path).foldl
        (fun s dir => Index.remove_entry s dir) st := by
      simp only [Index.discard_conflicts, hc]
    rw [hres]
    refine ⟨h1, hd1, ?_⟩
    intro q hq hmem
    obtain ⟨l, hl, _⟩ := h1.2.2.2 q hq e.path hmem
    rw [hc] at hl
    exact Option.noConfusion hl
  | some children =>
    have hres : Index.discard_conflicts st e =
        children.foldl (fun s c => Index.remove_entry s c)
          ((parent_directories e.path).foldl
            (fun s dir => Index.remove_entry s dir) st) := by
      simp only [Index.discard_conflicts, hc]
    rw [hres]
    refine ⟨foldRemove_inv _ h1, ?_, ?_⟩
    · intro d hd hmem
      exact hd1 d hd (foldRemove_keys_sub _ hmem)
    · intro q hq hmem
      have hq1 := foldRemove_keys_sub _ hq
      obtain ⟨l, hl, hql⟩ := h1.2.2.2 q hq1 e.path hmem
      rw [hc] at hl
      exact foldRemove_removes _ ((Option.some.inj hl) ▸ hql) hq

theorem btInsert_mem : ∀ {es : List (Bytes × Entry)} {p : Bytes} {e : Entry}
    {kv : Bytes × Entry}, kv ∈ btInsert es p e → kv ∈ es ∨ kv = (p, e) := by
  intro es
  induction es with
  | nil =>
    intro p e kv h
    simp only [btInsert] at h
    exact Or.inr (by simpa using h)
  | cons pr rest ih =>
    intro p e kv h
    obtain ⟨k2, v2⟩ := pr
    simp only [btInsert] at h
    cases hcmp : bytesCmp p k2 with
    | lt =>
      rw [hcmp] at h
      rcases List.mem_cons.1 h with he | hm
      · exact Or.inr he
      · exact Or.inl hm
    | eq =>
      rw [hcmp] at h
      rcases List.mem_cons.1 h with he | hm
      · exact Or.inr he
      · exact Or.inl (List.mem_cons.2 (Or.inr hm))
    | gt =>
      rw [hcmp] at h
      rcases List.mem_cons.1 h with he | hm
      · exact Or.inl (List.mem_cons.2 (Or.inl he))
      · rcases ih hm with hm2 | he2
        · exact Or.inl (List.mem_cons.2 (Or.inr hm2))
        · exact Or.inr he2

theorem btInsert_mem_keys {es : List (Bytes × Entry)} {p k : Bytes} {e : Entry}
    (h : k ∈ (btInsert es p e).map Prod.fst) : k ∈ es.map Prod.fst ∨ k = p := by
  obtain ⟨kv, hkv, hf⟩ := List.mem_map.1 h
  rcases btInsert_mem hkv with hm | he
  · exact Or.inl (hf ▸ List.mem_map_of_mem Prod.fst hm)
  · right
    rw [← hf, he]

theorem btInsert_pairwise {p : Bytes} {e : Entry} :
    ∀ {es : List (Bytes × Entry)},
      List.Pairwise (fun a b => bytesCmp a.1 b.1 = Ordering.lt) es →
      List.Pairwise (fun a b => bytesCmp a.1 b.1 = Ordering.lt)
        (btInsert es p e) := by
  intro es
  induction es with
  | nil =>
    intro _
    simp only [btInsert]
    exact List.pairwise_singleton _ _
  | cons pr rest ih =>
    intro hp
    obtain ⟨k2, v2⟩ := pr
    rw [List.pairwise_cons] at hp
    obtain ⟨hall, hrest⟩ := hp
    simp only [btInsert]
    cases hcmp : bytesCmp p k2 with
    | lt =>
      rw [List.pairwise_cons]
      refine ⟨?_, List.pairwise_cons.2 ⟨hall, hrest⟩⟩
      intro b hb
      rcases List.mem_cons.1 hb with he | hm
      · rw [he]
        exact hcmp
      · exact bytesCmp_lt_trans hcmp (hall b hm)
    | eq =>
      rw [List.pairwise_cons]
      refine ⟨?_, hrest⟩
      intro b hb
      have hpk : p = k2 := bytesCmp_eq_iff.1 hcmp
      rw [show (p, e).1 = k2 from hpk]
      exact hall b hb
    | gt =>
      rw [List.pairwise_cons]
      refine ⟨?_, ih hrest⟩
      intro b hb
      rcases btInsert_mem hb with hm | he
      · exact hall b hm
      · rw [he]
        exact bytesCmp_gt_iff.1 hcmp

theorem parentsAdd_self (m : List (Bytes × List Bytes)) (d p : Bytes) :
    ∃ l, look (parentsAdd m d p) d = some l ∧ p ∈ l := by
  rw [parentsAdd]
  by_cases hs : (look m d).isSome
  · rw [if_pos hs]
    cases hl : look m d with
    | none =>
      rw [hl] at hs
      exact absurd hs (by simp)
    | some l0 =>
      refine ⟨l0 ++ [p], ?_, by simp⟩
      rw [look_hmModify_self, hl]
      rfl
  · rw [if_neg hs]
    exact ⟨[p], look_head d [p] m, by simp⟩

theorem parentsAdd_mono {m : List (Bytes × List Bytes)} {d2 x : Bytes}
    (h : ∃ l, look m d2 = some l ∧ x ∈ l) (d p : Bytes) :
    ∃ l, look (parentsAdd m d p) d2 = some l ∧ x ∈ l := by
  obtain ⟨l, hl, hx⟩ := h
  rw [parentsAdd]
  by_cases hs : (look m d).isSome
  · rw [if_pos hs]
    by_cases hd : d2 = d
    · subst hd
      refine ⟨l ++ [p], ?_, by simp [hx]⟩
      rw [look_hmModify_self, hl]
      rfl
    · exact ⟨l, by rw [look_hmModify_ne hd, hl], hx⟩
  · rw [if_neg hs]
    by_cases hd : d = d2
    · subst hd
      rw [hl] at hs
      simp at hs
    · exact ⟨l, by rw [look, if_neg hd, hl], hx⟩

theorem foldParentsAdd_mono {x d2 p : Bytes} :
    ∀ (ds : List Bytes) {m : List (Bytes × List Bytes)},
      (∃ l, look m d2 = some l ∧ x ∈ l) →
      ∃ l, look (ds.foldl (fun m2 dir => parentsAdd m2 dir p) m) d2 =
        some l ∧ x ∈ l := by
  intro ds
  induction ds with
  | nil => intro m h; exact h
  | cons dir rest ih =>
    intro m h
    rw [List.foldl_cons]
    exact ih (parentsAdd_mono h dir p)

theorem foldParentsAdd_self {p : Bytes} :
    ∀ (ds : List Bytes) {m : List (Bytes × List Bytes)} {d : Bytes}, d ∈ ds →
      ∃ l, look (ds.foldl (fun m2 dir => parentsAdd m2 dir p) m) d =
        some l ∧ p ∈ l := by
  intro ds
  induction ds with
  | nil => intro m d h; exact absurd h (by simp)
  | cons dir rest ih =>
    intro m d h
    rw [List.foldl_cons]
    rcases List.mem_cons.1 h with he | ht
    · subst he
      exact foldParentsAdd_mono rest (parentsAdd_self m d p)
    · exact ih ht

theorem add_entry_inv {st : IndexSt} {e : Entry} (h : InvI st) :
    InvI (Index.add_entry st e) := by
  obtain ⟨hInv1, hdirs, hnoanc⟩ := discard_conflicts_spec e h
  obtain ⟨hs1, hk1, h21, h31⟩ := hInv1
  simp only [Index.add_entry]
  refine ⟨?_, ?_, ?_, ?_⟩
  · exact btInsert_pairwise hs1
  · intro kv hkv
    rcases btInsert_mem hkv with hm | he
    · exact hk1 kv hm
    · rw [he]
  · intro p hp q hq
    rcases btInsert_mem_keys hp with hpo | hpn
    · rcases btInsert_mem_keys hq with hqo | hqn
      · exact h21 p hpo q hqo
      · subst hqn
        intro hmem
        exact hdirs p hmem hpo
    · subst hpn
      rcases btInsert_mem_keys hq with hqo | hqn
      · exact hnoanc q hqo
      · subst hqn
        exact pd_irrefl _
  · intro k hk d hd
    rcases btInsert_mem_keys hk with hko | hkn
    · exact foldParentsAdd_mono _ (h31 k hko d hd)
    · subst hkn
      exact foldParentsAdd_self _ hd

theorem removeOp_inv {st : IndexSt} {p : Bytes} (h : InvI st) :
    InvI (Index.removeOp st p) := by
  cases hc : look st.parents p with
  | none =>
    have hres : Index.removeOp st p =
        { Index.remove_entry st p with changed := true } := by
      simp only [Index.removeOp, hc]
    rw [hres]
    exact remove_entry_inv h
  | some children =>
    have hres : Index.removeOp st p =
        { Index.remove_entry
            (children.foldl (fun s c => Index.remove_entry s c) st) p with
          changed := true } := by
      simp only [Index.removeOp, hc]
    rw [hres]
    exact remove_entry_inv (foldRemove_inv _ h)

theorem runOps_inv (ops : List IndexOp) : InvI (runOps ops) := by
  have hgen : ∀ (l : List IndexOp) (st : IndexSt), InvI st →
      InvI (l.foldl (fun st2 op =>
        match op with
        | .add p oid stat => Index.add st2 p oid stat
        | .remove p => Index.removeOp st2 p) st) := by
    intro l
    induction l with
    | nil => intro st h; exact h
    | cons op rest ih =>
      intro st h
      rw [List.foldl_cons]
      apply ih
      cases op with
      | add p oid stat => exact add_entry_inv h
      | remove p => exact removeOp_inv h
  have hempty : InvI IndexSt.empty := by
    refine ⟨List.Pairwise.nil, ?_, ?_, ?_⟩
    · intro kv hkv
      exact absurd hkv (by simp [IndexSt.empty])
    · intro p hp
      exact absurd hp (by simp [keysI, IndexSt.empty])
    · intro k hk
      exact absurd hk (by simp [keysI, IndexSt.empty])
  exact hgen ops IndexSt.empty hempty

/-- C3, corrected: after any sequence of Add/Remove operations from the
empty index, no two entries share a path (I1) and no stored path is a
strict ancestor directory of another (I2); but of I3 only the superset
half holds — every stored path is listed under each of its strict
ancestor directories, while the parents lists can also retain stale
paths whose entries are gone, because they are pruned through
`binary_search` on unsorted vectors. -/
theorem rit_claim_C3 (ops : List IndexOp) :
    (keysI (runOps ops)).Nodup ∧ I2I (runOps ops) ∧ I3supI (runOps ops) := by
  obtain ⟨hs, _, h2, h3⟩ := runOps_inv ops
  refine ⟨?_, h2, h3⟩
  have hs2 : List.Pairwise
      (fun (a b : Bytes × Entry) => bytesCmp a.1 b.1 = Ordering.lt)
      (runOps ops).entries := hs
  have hne : List.Pairwise (fun (a b : Bytes × Entry) => a.1 ≠ b.1)
      (runOps ops).entries := by
    refine hs2.imp ?_
    intro a b hab he
    rw [he] at hab
    have hbb : bytesCmp b.1 b.1 = Ordering.eq := bytesCmp_eq_iff.2 rfl
    rw [hbb] at hab
    exact Ordering.noConfusion hab
  exact List.pairwise_map.2 hne

/-- C3 counterexample: after adding `a/c`, `a/b` and then `a/c/x` (which
evicts the entry at `a/c`), the parents list of `a` still names `a/c`,
though no entry is stored there: `binary_search` on the unsorted list
misses it during eviction, so the exactness half of I3 fails. -/
theorem rit_claim_C3_counterexample :
    ∃ l, look (runOps opsStale).parents (sb "a") = some l ∧ sb "a/c" ∈ l ∧
      look (runOps opsStale).entries (sb "a/c") = none := by
  refine ⟨_, rfl, ?_, rfl⟩
  decide

theorem rit_claim_C3_witness :
    ∃ l, look (runOps opsStale).parents (sb "a") = some l ∧ sb "a/c/x" ∈ l :=
  (rit_claim_C3 opsStale).2.2 (sb "a/c/x") (by decide) (sb "a") (by decide)

theorem u32be_readU32 {n : Nat} (h : n < 2 ^ 32) (r : Bytes) :
    readU32 (u32be n ++ r) = some (n, r) := by
  show some (n / 2 ^ 24 % 256 * 2 ^ 24 + n / 2 ^ 16 % 256 * 2 ^ 16 +
    n / 2 ^ 8 % 256 * 2 ^ 8 + n % 256, r) = some (n, r)
  have he : n / 2 ^ 24 % 256 * 2 ^ 24 + n / 2 ^ 16 % 256 * 2 ^ 16 +
      n / 2 ^ 8 % 256 * 2 ^ 8 + n % 256 = n := by omega
  rw [he]

theorem u16be_readU16 {n : Nat} (h : n < 2 ^ 16) (r : Bytes) :
    readU16 (u16be n ++ r) = some (n, r) := by
  show some (n / 2 ^ 8 % 256 * 2 ^ 8 + n % 256, r) = some (n, r)
  have he : n / 2 ^ 8 % 256 * 2 ^ 8 + n % 256 = n := by omega
  rw [he]

theorem takeN_exact {xs : Bytes} {n : Nat} (h : xs.length = n) (r : Bytes) :
    takeN n (xs ++ r) = some (xs, r) := by
  subst h
  rw [takeN, if_neg (by simp [List.length_append]), List.take_left,
    List.drop_left]

theorem chunkTake_exact {xs r : Bytes} :
    chunkTake xs.length (xs ++ r) = (xs, r) := by
  rw [chunkTake, List.take_left, List.drop_left,
    show xs.length - (xs ++ r).length = 0 from by simp [List.length_append]]
  simp

theorem pack_spec {e : Entry} (hwf : entryWF e) :
    ∃ raw, decode_hex e.oid = some raw ∧ raw.length = 20 ∧
      hexEncode raw = e.oid ∧
      Entry.pack e = some
        ((u32be e.ctime ++ u32be e.ctime_ns ++ u32be e.mtime ++
          u32be e.mtime_ns ++ u32be e.dev ++ u32be e.ino ++ u32be e.mode ++
          u32be e.uid ++ u32be e.gid ++ u32be e.size ++ raw ++
          u16be (e.flags % 2 ^ 16) ++ e.path ++ [0]) ++
          List.replicate ((8 - (63 + e.path.length) % 8) % 8) 0) := by
  obtain ⟨hp1, hp0, hpu, ho40, hohex, _⟩ := hwf
  obtain ⟨raw, hraw, henc, hlenr⟩ := decode_hex_spec hohex (by rw [ho40])
  rw [ho40] at hlenr
  have hr20 : raw.length = 20 := by omega
  refine ⟨raw, hraw, hr20, henc, ?_⟩
  have hblen : (u32be e.ctime ++ u32be e.ctime_ns ++ u32be e.mtime ++
      u32be e.mtime_ns ++ u32be e.dev ++ u32be e.ino ++ u32be e.mode ++
      u32be e.uid ++ u32be e.gid ++ u32be e.size ++ raw ++
      u16be (e.flags % 2 ^ 16) ++ e.path ++ [0]).length =
      63 + e.path.length := by
    simp [u32be, u16be, List.length_append, hr20]
    omega
  simp only [Entry.pack, hraw, Option.pure_def, Option.bind_eq_bind,
    Option.some_bind, hblen]

theorem u32be_length (n : Nat) : (u32be n).length = 4 := rfl

theorem replicate_zero_valid (k : Nat) :
    validUtf8 (0 :: List.replicate k 0) = true := by
  refine validUtf8_ascii ?_
  intro b hb
  rcases List.mem_cons.1 hb with he | hm
  · omega
  · have := List.eq_of_mem_replicate hm
    omega

theorem fromBytes_pack {e : Entry} {raw : Bytes} (hwf : entryWF e)
    (hraw20 : raw.length = 20) (henc : hexEncode raw = e.oid) (k : Nat) :
    Entry.fromBytes
      ((u32be e.ctime ++ u32be e.ctime_ns ++ u32be e.mtime ++
        u32be e.mtime_ns ++ u32be e.dev ++ u32be e.ino ++ u32be e.mode ++
        u32be e.uid ++ u32be e.gid ++ u32be e.size ++ raw ++
        u16be (e.flags % 2 ^ 16) ++ e.path ++ [0]) ++
        List.replicate k 0) = some e := by
  obtain ⟨hp1, hp0, hpu, ho40, hohex, hfl, hc1, hc2, hc3, hc4, hc5, hc6, hc7,
    hc8, hc9, hc10⟩ := hwf
  have hform : (u32be e.ctime ++ u32be e.ctime_ns ++ u32be e.mtime ++
      u32be e.mtime_ns ++ u32be e.dev ++ u32be e.ino ++ u32be e.mode ++
      u32be e.uid ++ u32be e.gid ++ u32be e.size ++ raw ++
      u16be (e.flags % 2 ^ 16) ++ e.path ++ [0]) ++ List.replicate k 0 =
      u32be e.ctime ++ (u32be e.ctime_ns ++ (u32be e.mtime ++
      (u32be e.mtime_ns ++ (u32be e.dev ++ (u32be e.ino ++ (u32be e.mode ++
      (u32be e.uid ++ (u32be e.gid ++ (u32be e.size ++ (raw ++
      (u16be (e.flags % 2 ^ 16) ++ (e.path ++
      (0 :: List.replicate k 0))))))))))))) := by
    simp [List.append_assoc]
  rw [hform]
  have hfl2 : e.flags % 2 ^ 16 < 2 ^ 16 := by omega
  have hzrep : (0 :: List.replicate k 0 : Bytes) = List.replicate (k + 1) 0 :=
    rfl
  rw [Entry.fromBytes]
  simp only [u32be_readU32 hc1]
  simp only [u32be_readU32 hc2]
  simp only [u32be_readU32 hc3]
  simp only [u32be_readU32 hc4]
  simp only [u32be_readU32 hc5]
  simp only [u32be_readU32 hc6]
  simp only [u32be_readU32 hc7]
  simp only [u32be_readU32 hc8]
  simp only [u32be_readU32 hc9]
  simp only [u32be_readU32 hc10]
  simp only [takeN_exact hraw20]
  simp only [u16be_readU16 hfl2]
  rw [if_pos (validUtf8_append hpu (replicate_zero_valid k))]
  rw [show trimEnd 0 (e.path ++ 0 :: List.replicate k 0) = e.path from by
    rw [hzrep]; exact trimEnd_pad hp0]
  rw [henc, Nat.mod_eq_of_lt hfl]

theorem getElem_opt_cons_replicate (k : Nat) :
    ((0 :: List.replicate k 0 : Bytes))[k]? = some 0 := by
  induction k with
  | zero => rfl
  | succ k ih =>
    rw [List.getElem?_cons_succ, List.replicate_succ]
    exact ih

theorem readEntryTail_spec : ∀ (fuel : Nat) (acc tail rest : Bytes),
    tail.length % 8 = 0 →
    tail.length < 8 * fuel →
    (∀ t1 t2 : Bytes, tail = t1 ++ t2 → t2 ≠ [] → t1.length % 8 = 0 →
      (acc ++ t1).getLast? ≠ some 0) →
    (acc ++ tail).getLast? = some 0 →
    readEntryTail fuel acc (tail ++ rest) = (acc ++ tail, rest) := by
  intro fuel
  induction fuel with
  | zero =>
    intro acc tail rest h8 hlt hstops hlast
    omega
  | succ fuel ih =>
    intro acc tail rest h8 hlt hstops hlast
    rw [readEntryTail]
    by_cases ht : tail = []
    · subst ht
      rw [if_pos (by simpa using hlast)]
      simp
    · have hlen0 : tail.length ≠ 0 := by simpa using ht
      have hge8 : 8 ≤ tail.length := by omega
      have hne : acc.getLast? ≠ some 0 := by
        have := hstops [] tail (by simp) ht (by simp)
        simpa using this
      rw [if_neg hne]
      have htl : (tail.take 8).length = 8 := by
        rw [List.length_take]
        omega
      have hsplit : tail ++ rest = tail.take 8 ++ (tail.drop 8 ++ rest) := by
        rw [← List.append_assoc, List.take_append_drop]
      have hct : chunkTake 8 (tail.take 8 ++ (tail.drop 8 ++ rest)) =
          (tail.take 8, tail.drop 8 ++ rest) := by
        have h2 := @chunkTake_exact (tail.take 8) (tail.drop 8 ++ rest)
        rw [htl] at h2
        exact h2
      rw [hsplit]
      simp only [hct]
      have hih := ih (acc ++ tail.take 8) (tail.drop 8) rest
        (by rw [List.length_drop]; omega)
        (by rw [List.length_drop]; omega)
        (by
          intro t1 t2 hsp ht2 h18
          rw [List.append_assoc]
          refine hstops (tail.take 8 ++ t1) t2 ?_ ht2 ?_
          · rw [List.append_assoc, ← hsp, List.take_append_drop]
          · rw [List.length_append, htl]
            omega)
        (by
          rw [List.append_assoc, List.take_append_drop]
          exact hlast)
      rw [hih, List.append_assoc, List.take_append_drop]

theorem readEntryTail_pack {pre path rest : Bytes} {k : Nat}
    (hpre : pre.length = 62) (hp1 : path ≠ []) (hp0 : (0 : Nat) ∉ path)
    (hk : (63 + path.length + k) % 8 = 0) (hk7 : k < 8) :
    readEntryTail
      (((pre ++ (path ++ 0 :: List.replicate k 0)).drop 64 ++ rest).length + 2)
      ((pre ++ (path ++ 0 :: List.replicate k 0)).take 64)
      ((pre ++ (path ++ 0 :: List.replicate k 0)).drop 64 ++ rest) =
      (pre ++ (path ++ 0 :: List.replicate k 0), rest) := by
  have hplen : 1 ≤ path.length := List.length_pos.2 hp1
  have hL : (pre ++ (path ++ 0 :: List.replicate k 0)).length =
      63 + path.length + k := by
    simp [List.length_append, hpre]
    omega
  have hidx : ∀ m : Nat, 62 ≤ m → m < 62 + path.length →
      (pre ++ (path ++ 0 :: List.replicate k 0))[m]? ≠ some 0 := by
    intro m hm1 hm2 hc
    rw [List.getElem?_append_right (by rw [hpre]; omega), hpre] at hc
    have hlt : m - 62 < path.length := by omega
    rw [List.getElem?_append_left (by omega)] at hc
    rw [List.getElem?_eq_getElem hlt] at hc
    exact hp0 ((Option.some.inj hc) ▸ List.getElem_mem hlt)
  have htail8 : ((pre ++ (path ++ 0 :: List.replicate k 0)).drop 64).length
      % 8 = 0 := by
    rw [List.length_drop, hL]
    omega
  have htke : ((pre ++ (path ++ 0 :: List.replicate k 0)).take 64).length
      = 64 := by
    rw [List.length_take]
    omega
  have hres := readEntryTail_spec
    (((pre ++ (path ++ 0 :: List.replicate k 0)).drop 64 ++ rest).length + 2)
    ((pre ++ (path ++ 0 :: List.replicate k 0)).take 64)
    ((pre ++ (path ++ 0 :: List.replicate k 0)).drop 64)
    rest
    htail8
    (by
      rw [List.length_drop, hL, List.length_append, List.length_drop, hL]
      omega)
    (by
      intro t1 t2 hsp ht2 h18
      have hacc : ((pre ++ (path ++ 0 :: List.replicate k 0)).take 64 ++ t1)
          ++ t2 = pre ++ (path ++ 0 :: List.replicate k 0) := by
        rw [List.append_assoc, ← hsp, List.take_append_drop]
      have hlensum : (64 : Nat) + t1.length + t2.length =
          63 + path.length + k := by
        have hcg := congrArg List.length hacc
        simp only [List.length_append, htke, hL] at hcg
        omega
      have ht2ge : 8 ≤ t2.length := by
        have h0 : t2.length ≠ 0 := by simpa using ht2
        omega
      have hmlen : ((pre ++ (path ++ 0 :: List.replicate k 0)).take 64 ++
          t1).length = 64 + t1.length := by
        rw [List.length_append, htke]
      rw [List.getLast?_eq_getElem?, hmlen]
      have hgm : (((pre ++ (path ++ 0 :: List.replicate k 0)).take 64 ++ t1)
          ++ t2)[64 + t1.length - 1]? =
          ((pre ++ (path ++ 0 :: List.replicate k 0)).take 64 ++
            t1)[64 + t1.length - 1]? :=
        List.getElem?_append_left (by rw [hmlen]; omega)
      rw [← hgm, hacc]
      exact hidx (64 + t1.length - 1) (by omega) (by omega))
    (by
      rw [List.take_append_drop, List.getLast?_eq_getElem?, hL]
      rw [List.getElem?_append_right (by rw [hpre]; omega), hpre]
      rw [List.getElem?_append_right (by omega)]
      have hidx2 : 63 + path.length + k - 1 - 62 - path.length = k := by omega
      rw [hidx2]
      exact getElem_opt_cons_replicate k)
  rw [hres, List.take_append_drop]

theorem chunkTake_le {n : Nat} {xs r : Bytes} (h : n ≤ xs.length) :
    chunkTake n (xs ++ r) = (xs.take n, xs.drop n ++ r) := by
  rw [chunkTake, List.take_append_of_le_length h,
    List.drop_append_of_le_length h,
    show n - (xs ++ r).length = 0 from by simp [List.length_append]; omega]
  simp

theorem foldRemove_noop : ∀ (ds : List Bytes) (st : IndexSt),
    (∀ d ∈ ds, look st.entries d = none) →
    ds.foldl (fun s dir => Index.remove_entry s dir) st = st := by
  intro ds
  induction ds with
  | nil => intro st _; rfl
  | cons d rest ih =>
    intro st h
    rw [List.foldl_cons]
    have hre : Index.remove_entry st d = st := by
      simp only [Index.remove_entry, h d (by simp)]
    rw [hre]
    exact ih st (fun d2 hd2 => h d2 (by simp [hd2]))

theorem add_entry_no_conflict {st : IndexSt} {e : Entry}
    (h1 : ∀ d ∈ parent_directories (Entry.path e), look st.entries d = none)
    (h2 : look st.parents (Entry.path e) = none) :
    Index.add_entry st e = ⟨btInsert st.entries (Entry.path e) e,
      (parent_directories (Entry.path e)).foldl
        (fun m dir => parentsAdd m dir (Entry.path e)) st.parents, true⟩ := by
  have hdis : Index.discard_conflicts st e = st := by
    simp only [Index.discard_conflicts, foldRemove_noop _ _ h1, h2]
  simp only [Index.add_entry, hdis]

theorem parentsAdd_isSome {m : List (Bytes × List Bytes)} {d p d2 : Bytes}
    (h : (look (parentsAdd m d p) d2).isSome = true) :
    (look m d2).isSome = true ∨ d2 = d := by
  by_cases hd : d2 = d
  · exact Or.inr hd
  · left
    rw [parentsAdd] at h
    by_cases hs : (look m d).isSome
    · rw [if_pos hs, look_hmModify_ne hd] at h
      exact h
    · rw [if_neg hs, look, if_neg (fun e => hd e.symm)] at h
      exact h

theorem foldParentsAdd_isSome {p d2 : Bytes} :
    ∀ (ds : List Bytes) {m : List (Bytes × List Bytes)},
      (look (ds.foldl (fun m2 dir => parentsAdd m2 dir p) m) d2).isSome =
        true →
      (look m d2).isSome = true ∨ d2 ∈ ds := by
  intro ds
  induction ds with
  | nil => intro m h; exact Or.inl h
  | cons dir rest ih =>
    intro m h
    rw [List.foldl_cons] at h
    rcases ih h with h2 | h2
    · rcases parentsAdd_isSome h2 with h3 | h3
      · exact Or.inl h3
      · exact Or.inr (by simp [h3])
    · exact Or.inr (by simp [h2])

theorem btInsert_gt_append {p : Bytes} {e : Entry} :
    ∀ {es : List (Bytes × Entry)},
      (∀ kv ∈ es, bytesCmp kv.1 p = Ordering.lt) →
      btInsert es p e = es ++ [(p, e)] := by
  intro es
  induction es with
  | nil => intro _; rfl
  | cons pr rest ih =>
    intro h
    obtain ⟨k2, v2⟩ := pr
    have hgt : bytesCmp p k2 = Ordering.gt :=
      bytesCmp_gt_iff.2 (h (k2, v2) (by simp))
    simp only [btInsert, hgt]
    rw [ih (fun kv hkv => h kv (by simp [hkv])), List.cons_append]

theorem loadLoop_roundtrip :
    ∀ (tl : List (Bytes × Entry)) (st : IndexSt),
      (∀ kv ∈ tl, entryWF kv.2 ∧ kv.1 = Entry.path kv.2) →
      (∀ kv0 ∈ st.entries, ∀ kv2 ∈ tl, bytesCmp kv0.1 kv2.1 = Ordering.lt) →
      List.Pairwise (fun a b => bytesCmp a.1 b.1 = Ordering.lt) tl →
      (∀ d, (look st.parents d).isSome = true →
        ∃ q ∈ keysI st, d ∈ parent_directories q) →
      (∀ q ∈ keysI st, ∀ kv ∈ tl, q ∉ parent_directories kv.1 ∧
        kv.1 ∉ parent_directories q) →
      (∀ kv ∈ tl, ∀ kv2 ∈ tl, kv.1 ∉ parent_directories kv2.1) →
      ∃ packs : List Bytes,
        tl.mapM (fun kv => Entry.pack kv.2) = some packs ∧
        ∀ (acc rest : Bytes), ∃ stF : IndexSt,
          loadLoop tl.length (packs.flatten ++ rest) st acc =
            some (stF, rest, acc ++ packs.flatten) ∧
          stF.entries = st.entries ++ tl := by
  intro tl
  induction tl with
  | nil =>
    intro st _ _ _ _ _ _
    refine ⟨[], rfl, ?_⟩
    intro acc rest
    refine ⟨st, ?_, by simp⟩
    simp [loadLoop]
  | cons kv tl2 ih =>
    intro st hwf hcross hpair hdom hcanc htanc
    obtain ⟨hwfe, hkey⟩ := hwf kv (by simp)
    obtain ⟨raw, hraw, hr20, henc, hpk⟩ := pack_spec hwfe
    have hp1 : Entry.path kv.2 ≠ [] := hwfe.1
    have hp0 : (0 : Nat) ∉ Entry.path kv.2 := hwfe.2.1
    -- the no-conflict shape of add_entry on this state
    have h1 : ∀ d ∈ parent_directories (Entry.path kv.2),
        look st.entries d = none := by
      intro d hd
      cases hld : look st.entries d with
      | none => rfl
      | some v =>
        have hdm : d ∈ keysI st :=
          List.mem_map_of_mem Prod.fst (look_mem hld)
        have := (hcanc d hdm kv (by simp)).1
        rw [← hkey] at hd
        exact absurd hd this
    have h2 : look st.parents (Entry.path kv.2) = none := by
      cases hlp : look st.parents (Entry.path kv.2) with
      | none => rfl
      | some l =>
        obtain ⟨q, hq, hqpd⟩ := hdom (Entry.path kv.2) (by rw [hlp]; rfl)
        have := (hcanc q hq kv (by simp)).2
        rw [← hkey] at hqpd
        exact absurd hqpd this
    have hadd := add_entry_no_conflict h1 h2
    have hgt : ∀ kv0 ∈ st.entries, bytesCmp kv0.1 (Entry.path kv.2) =
        Ordering.lt := by
      intro kv0 hkv0
      rw [← hkey]
      exact hcross kv0 hkv0 kv (by simp)
    have hentq : (Index.add_entry st kv.2).entries =
        st.entries ++ [kv] := by
      rw [hadd]
      show btInsert st.entries (Entry.path kv.2) kv.2 = st.entries ++ [kv]
      rw [btInsert_gt_append hgt, ← hkey]
    have hkeysq : keysI (Index.add_entry st kv.2) = keysI st ++ [kv.1] := by
      rw [keysI, hentq, List.map_append]
      rfl
    -- invariant facts for the recursive call
    have hcross2 : ∀ kv0 ∈ (Index.add_entry st kv.2).entries,
        ∀ kv2 ∈ tl2, bytesCmp kv0.1 kv2.1 = Ordering.lt := by
      intro kv0 hkv0 kv2 hkv2
      rw [hentq] at hkv0
      rcases List.mem_append.1 hkv0 with hm | hm
      · exact hcross kv0 hm kv2 (by simp [hkv2])
      · rw [show kv0 = kv from by simpa using hm]
        exact (List.pairwise_cons.1 hpair).1 kv2 hkv2
    have hdom2 : ∀ d, (look (Index.add_entry st kv.2).parents d).isSome =
        true → ∃ q ∈ keysI (Index.add_entry st kv.2),
          d ∈ parent_directories q := by
      intro d hd
      rw [hadd] at hd
      rcases foldParentsAdd_isSome _ hd with hs | hs
      · obtain ⟨q, hq, hqpd⟩ := hdom d hs
        exact ⟨q, by rw [hkeysq]; simp [hq], hqpd⟩
      · refine ⟨kv.1, by rw [hkeysq]; simp, ?_⟩
        rw [hkey]
        exact hs
    have hcanc2 : ∀ q ∈ keysI (Index.add_entry st kv.2), ∀ kv2 ∈ tl2,
        q ∉ parent_directories kv2.1 ∧ kv2.1 ∉ parent_directories q := by
      intro q hq kv2 hkv2
      rw [hkeysq] at hq
      rcases List.mem_append.1 hq with hm | hm
      · exact hcanc q hm kv2 (by simp [hkv2])
      · rw [show q = kv.1 from by simpa using hm]
        exact ⟨htanc kv (by simp) kv2 (by simp [hkv2]),
          htanc kv2 (by simp [hkv2]) kv (by simp)⟩
    obtain ⟨packs2, hmapM2, hrun2⟩ := ih (Index.add_entry st kv.2)
      (fun kv2 hkv2 => hwf kv2 (by simp [hkv2]))
      hcross2
      (List.pairwise_cons.1 hpair).2
      hdom2
      hcanc2
      (fun kv2 hkv2 kv3 hkv3 => htanc kv2 (by simp [hkv2]) kv3 (by simp [hkv3]))
    refine ⟨((u32be kv.2.ctime ++ u32be kv.2.ctime_ns ++ u32be kv.2.mtime ++
      u32be kv.2.mtime_ns ++ u32be kv.2.dev ++ u32be kv.2.ino ++
      u32be kv.2.mode ++ u32be kv.2.uid ++ u32be kv.2.gid ++
      u32be kv.2.size ++ raw ++ u16be (kv.2.flags % 2 ^ 16) ++
      kv.2.path ++ [0]) ++
      List.replicate ((8 - (63 + kv.2.path.length) % 8) % 8) 0) :: packs2,
      ?_, ?_⟩
    · rw [List.mapM_cons, hpk, hmapM2]
      rfl
    · intro acc rest
      obtain ⟨stF, hloop2, hent2⟩ := hrun2 (acc ++
        ((u32be kv.2.ctime ++ u32be kv.2.ctime_ns ++ u32be kv.2.mtime ++
          u32be kv.2.mtime_ns ++ u32be kv.2.dev ++ u32be kv.2.ino ++
          u32be kv.2.mode ++ u32be kv.2.uid ++ u32be kv.2.gid ++
          u32be kv.2.size ++ raw ++ u16be (kv.2.flags % 2 ^ 16) ++
          kv.2.path ++ [0]) ++
          List.replicate ((8 - (63 + kv.2.path.length) % 8) % 8) 0)) rest
      have hPre : (u32be kv.2.ctime ++ u32be kv.2.ctime_ns ++
          u32be kv.2.mtime ++ u32be kv.2.mtime_ns ++ u32be kv.2.dev ++
          u32be kv.2.ino ++ u32be kv.2.mode ++ u32be kv.2.uid ++
          u32be kv.2.gid ++ u32be kv.2.size ++ raw ++
          u16be (kv.2.flags % 2 ^ 16) ++ kv.2.path ++ [0]) ++
          List.replicate ((8 - (63 + kv.2.path.length) % 8) % 8) 0 =
          (u32be kv.2.ctime ++ (u32be kv.2.ctime_ns ++ (u32be kv.2.mtime ++
          (u32be kv.2.mtime_ns ++ (u32be kv.2.dev ++ (u32be kv.2.ino ++
          (u32be kv.2.mode ++ (u32be kv.2.uid ++ (u32be kv.2.gid ++
          (u32be kv.2.size ++ (raw ++ u16be (kv.2.flags % 2 ^ 16)))))))))))) ++
          (kv.2.path ++
            0 :: List.replicate ((8 - (63 + kv.2.path.length) % 8) % 8) 0) := by
        simp [List.append_assoc]
      have hpre62 : (u32be kv.2.ctime ++ (u32be kv.2.ctime_ns ++
          (u32be kv.2.mtime ++ (u32be kv.2.mtime_ns ++ (u32be kv.2.dev ++
          (u32be kv.2.ino ++ (u32be kv.2.mode ++ (u32be kv.2.uid ++
          (u32be kv.2.gid ++ (u32be kv.2.size ++ (raw ++
          u16be (kv.2.flags % 2 ^ 16)))))))))))).length = 62 := by
        simp [u32be, u16be, List.length_append, hr20]
      have hlen1 : 1 ≤ kv.2.path.length := List.length_pos.2 hp1
      have hkpad : (63 + kv.2.path.length +
          (8 - (63 + kv.2.path.length) % 8) % 8) % 8 = 0 := by omega
      have hk7 : (8 - (63 + kv.2.path.length) % 8) % 8 < 8 := by omega
      have h64 : 64 ≤ ((u32be kv.2.ctime ++ (u32be kv.2.ctime_ns ++
          (u32be kv.2.mtime ++ (u32be kv.2.mtime_ns ++ (u32be kv.2.dev ++
          (u32be kv.2.ino ++ (u32be kv.2.mode ++ (u32be kv.2.uid ++
          (u32be kv.2.gid ++ (u32be kv.2.size ++ (raw ++
          u16be (kv.2.flags % 2 ^ 16)))))))))))) ++
          (kv.2.path ++
            0 :: List.replicate ((8 - (63 + kv.2.path.length) % 8) % 8)
              0)).length := by
        rw [List.length_append, hpre62]
        simp only [List.length_append, List.length_cons,
          List.length_replicate]
        omega
      rw [hPre] at hloop2
      refine ⟨stF, ?_, ?_⟩
      · rw [List.length_cons, List.flatten_cons, hPre, List.append_assoc,
          loadLoop]
        simp only [chunkTake_le h64]
        simp only [readEntryTail_pack hpre62 hp1 hp0 hkpad hk7]
        have hfbq : Entry.fromBytes ((u32be kv.2.ctime ++
            (u32be kv.2.ctime_ns ++ (u32be kv.2.mtime ++
            (u32be kv.2.mtime_ns ++ (u32be kv.2.dev ++ (u32be kv.2.ino ++
            (u32be kv.2.mode ++ (u32be kv.2.uid ++ (u32be kv.2.gid ++
            (u32be kv.2.size ++ (raw ++
            u16be (kv.2.flags % 2 ^ 16)))))))))))) ++
            (kv.2.path ++
              0 :: List.replicate ((8 - (63 + kv.2.path.length) % 8) % 8)
                0)) = some kv.2 := by
          rw [← hPre]
          exact fromBytes_pack hwfe hr20 henc _
        simp only [hfbq]
        rw [hloop2, List.append_assoc]
      · rw [hent2, hentq, List.append_assoc]
        rfl
  
/-- C4: for every list of well-formed index entries keyed by their paths,
in strictly ascending path order, with no entry an ancestor directory of
another and fewer than `2 ^ 32` entries, `Index::write_updates` produces a
byte string (DIRC magic, version 2, big-endian count, packed padded
entries, trailing SHA-1) and `Index::load` on that byte string succeeds --
so the trailing SHA-1 validates -- and returns a state holding exactly the
same entries byte-for-byte. -/
theorem rit_claim_C4 (es : List (Bytes × Entry))
    (hwf : ∀ kv ∈ es, entryWF kv.2 ∧ kv.1 = Entry.path kv.2)
    (hpair : List.Pairwise (fun a b => bytesCmp a.1 b.1 = Ordering.lt) es)
    (hanc : ∀ kv ∈ es, ∀ kv2 ∈ es, kv.1 ∉ parent_directories kv2.1)
    (hcount : es.length < 2 ^ 32) :
    ∃ bytes : Bytes, Index.write_updates es = some bytes ∧
      ∃ st : IndexSt, Index.load bytes = some st ∧ st.entries = es := by
  obtain ⟨packs, hmapM, hrun⟩ := loadLoop_roundtrip es IndexSt.empty hwf
    (fun kv0 h0 => absurd h0 (List.not_mem_nil kv0))
    hpair
    (by
      intro d hd
      rw [show look IndexSt.empty.parents d = none from rfl] at hd
      exact absurd hd (by simp))
    (fun q hq => absurd hq (List.not_mem_nil q))
    hanc
  have hcmod : es.length % 2 ^ 32 = es.length := Nat.mod_eq_of_lt hcount
  obtain ⟨stF, hloop, hent⟩ := hrun
    (sb "DIRC" ++ u32be 2 ++ u32be (es.length % 2 ^ 32))
    (sha1Raw (sb "DIRC" ++ u32be 2 ++ u32be (es.length % 2 ^ 32) ++
      packs.flatten))
  refine ⟨(sb "DIRC" ++ u32be 2 ++ u32be (es.length % 2 ^ 32) ++
      packs.flatten) ++
    sha1Raw (sb "DIRC" ++ u32be 2 ++ u32be (es.length % 2 ^ 32) ++
      packs.flatten), ?_, stF, ?_, by rw [hent]; rfl⟩
  · rw [Index.write_updates.eq_def, hmapM]
  · have h4 : (sb "DIRC").length = 4 := rfl
    have h12 : (sb "DIRC" ++ u32be 2 ++
        u32be (es.length % 2 ^ 32)).length = 12 := by
      simp [List.length_append, h4, u32be_length]
    have hct : chunkTake 12
        ((sb "DIRC" ++ u32be 2 ++ u32be (es.length % 2 ^ 32)) ++
          (packs.flatten ++
            sha1Raw (sb "DIRC" ++ u32be 2 ++ u32be (es.length % 2 ^ 32) ++
              packs.flatten))) =
        (sb "DIRC" ++ u32be 2 ++ u32be (es.length % 2 ^ 32),
          packs.flatten ++
            sha1Raw (sb "DIRC" ++ u32be 2 ++ u32be (es.length % 2 ^ 32) ++
              packs.flatten)) := by
      rw [← h12]; exact chunkTake_exact
    have htk : (sb "DIRC" ++ u32be 2 ++
        u32be (es.length % 2 ^ 32)).take 4 = sb "DIRC" := by
      rw [List.append_assoc, ← h4, List.take_left]
    have hdp : (sb "DIRC" ++ u32be 2 ++
        u32be (es.length % 2 ^ 32)).drop 4 =
        u32be 2 ++ u32be (es.length % 2 ^ 32) := by
      rw [List.append_assoc, ← h4, List.drop_left]
    have hr2 : readU32 (u32be 2 ++ u32be (es.length % 2 ^ 32)) =
        some (2, u32be (es.length % 2 ^ 32)) :=
      u32be_readU32 (by decide) _
    have hrc : readU32 (u32be (es.length % 2 ^ 32)) =
        some (es.length, []) := by
      rw [← List.append_nil (u32be (es.length % 2 ^ 32)),
        u32be_readU32 (Nat.mod_lt _ (by decide)) [], hcmod]
    rw [Index.load.eq_def, List.append_assoc]
    simp only [hct, htk, hdp, hr2, hrc, if_true, hloop]

/-- Concrete run of the round trip on a one-entry index. -/
theorem rit_claim_C4_witness :
    ∃ bytes : Bytes,
      Index.write_updates [(Entry.path entryX, entryX)] = some bytes ∧
      ∃ st : IndexSt, Index.load bytes = some st ∧
        st.entries = [(Entry.path entryX, entryX)] :=
  rit_claim_C4 [(Entry.path entryX, entryX)]
    (by intro kv hkv; rw [List.mem_singleton] at hkv; subst hkv
        exact ⟨by simp only [entryWF, isHexLc]; decide, rfl⟩)
    (by decide)
    (by intro kv hkv kv2 hkv2
        rw [List.mem_singleton] at hkv hkv2; subst hkv; subst hkv2
        decide)
    (by decide)

end RitSave
